import Mathlib

/-!
# Travelling salesman solvers: Christofides pipeline and brute-force baseline

A shallow embedding of `CChristofidesSolver.cpp` and `CBruteForceSolver.cpp`.

* `std::vector` is `List`; `Matrix` is a list of rows.
* The element type of `Matrix` is declared in a header that is not among the
  sources (`Edge::distance` is `double`; costs are accumulated in `size_t`).
  It is a parameter `W` here: a linearly ordered semiring with a floor
  (`ℕ`, `ℚ`, `ℝ`).  The implicit conversion of an element to `size_t` is
  `toSizeT`: the integer part of a value below `2 ^ 64`.  Rounding of
  floating-point arithmetic is outside the model.
* The lambda `calculate_length` of the brute-force solver is a `static` local
  that captures the matrix by reference: it keeps the matrix of the first call.
  `CBruteForceSolver.solve` therefore takes the matrix captured by an earlier
  call, if there was one (`none` on a first call).
* `size_t` counters that the code decrements are naturals modulo `2 ^ 64`.
* Reading a vector out of range is undefined in the source; here it reads the
  default (`0`, `[]`), and writing out of range does nothing.  Dereferencing an
  end iterator and `front()` of an empty vector are `none`.
* The `while` loops whose termination depends on the data take a fuel argument
  and return `none` when it runs out.
* `std::sort` is a stable insertion sort (`Kruskal.sortEdges`); the properties
  proved of the tree use only that its result is sorted and a rearrangement.
-/

namespace TSP

/-- The modulus of `size_t` arithmetic. -/
def SIZE_MOD : Nat := 2 ^ 64

/-- The type `Matrix`: a vector of rows. -/
abbrev Matrix (W : Type) := List (List W)

/-- The struct `Edge`; the fields `from` and `to` are spelled `from_` and `to_`. -/
structure Edge (W : Type) where
  from_ : Nat
  to_ : Nat
  distance : W
deriving DecidableEq, Repr

section Defs

variable {W : Type}

/-- The read `matrix[i][j]`. -/
def entry [Zero W] (m : Matrix W) (i j : Nat) : W := (m.getD i []).getD j 0

/-- The write `matrix[i][j] = v`. -/
def setEntry (m : Matrix W) (i j : Nat) (v : W) : Matrix W :=
  m.set i ((m.getD i []).set j v)

/-- The running maximum `max_idx` over all end points of `edges`. -/
def maxIdx (edges : List (Edge W)) : Nat :=
  edges.foldl (fun acc e => max (max e.from_ e.to_) acc) 0

/-- The function `createCompleteGraph`. -/
def createCompleteGraph [Zero W] (edges : List (Edge W)) : Matrix W :=
  edges.foldl
    (fun r e => setEntry (setEntry r e.from_ e.to_ e.distance) e.to_ e.from_ e.distance)
    (List.replicate (maxIdx edges + 1) (List.replicate (maxIdx edges + 1) 0))

/-- The scan of `std::min_element` after its first element: `best` is the
smallest so far, at index `bestIdx`; the next element has index `i`. -/
def minElementFrom {α : Type} (comp : α → α → Bool) (best : α) (bestIdx : Nat) :
    List α → Nat → Nat
  | [], _ => bestIdx
  | x :: xs, i =>
    if comp x best then minElementFrom comp x i xs (i + 1)
    else minElementFrom comp best bestIdx xs (i + 1)

/-- The index picked by `std::min_element`; on an empty range it returns the end
iterator, which the caller dereferences: `none`. -/
def minElement {α : Type} (comp : α → α → Bool) : List α → Option Nat
  | [] => none
  | x :: xs => some (minElementFrom comp x 0 xs 1)

/-- The lambda `isCloser` of `findMinimumWeightMatching`. -/
def isCloser [LinearOrder W] [Zero W] (m : Matrix W) (vertex lhs rhs : Nat) : Bool :=
  decide (entry m vertex lhs ≠ 0) && decide (entry m vertex lhs < entry m vertex rhs)

/-- The statement `table[i].push_back(v)`. -/
def pushBack (table : List (List Nat)) (i v : Nat) : List (List Nat) :=
  table.set i (table.getD i [] ++ [v])

/-- The `while` loop of `findMinimumWeightMatching`; every round removes two
elements, so the length of the list is enough fuel. -/
def matchingLoop [LinearOrder W] [Zero W] (m : Matrix W) :
    Nat → List Nat → List (List Nat) → Option (List (List Nat))
  | _, [], table => some table
  | 0, _ :: _, _ => none
  | fuel + 1, vertex :: rest, table =>
    match minElement (isCloser m vertex) rest with
    | none => none
    | some k =>
      matchingLoop m fuel (rest.eraseIdx k)
        (pushBack (pushBack table (rest.getD k 0) vertex) vertex (rest.getD k 0))

/-- The function `findMinimumWeightMatching`. -/
def findMinimumWeightMatching [LinearOrder W] [Zero W] (m : Matrix W)
    (odd_vertices : List Nat) : Option (List (List Nat)) :=
  matchingLoop m odd_vertices.length odd_vertices (List.replicate m.length [])

/-- The function `extractEdges`. -/
def extractEdges [Zero W] [DecidableEq W] (m : Matrix W) : List (Edge W) :=
  (List.range m.length).flatMap fun i =>
    (List.range (m.getD i []).length).filterMap fun j =>
      if entry m i j ≠ 0 then some ⟨i, j, entry m i j⟩ else none

/-- The statement `++table[i][j]` on `size_t` counters. -/
def incEntry (table : List (List Nat)) (i j : Nat) : List (List Nat) :=
  table.set i ((table.getD i []).set j (((table.getD i []).getD j 0 + 1) % SIZE_MOD))

/-- The statement `--table[i][j]` on `size_t` counters. -/
def decEntry (table : List (List Nat)) (i j : Nat) : List (List Nat) :=
  table.set i ((table.getD i []).set j (((table.getD i []).getD j 0 + SIZE_MOD - 1) % SIZE_MOD))

/-- The function `convertEdges`. -/
def convertEdges (edges : List (Edge W)) : List (List Nat) :=
  edges.foldl (fun r e => incEntry r e.from_ e.to_)
    (List.replicate (maxIdx edges + 1) (List.replicate (maxIdx edges + 1) 0))

/-- The `while` loop of `getEulerPath`: `stack` has its top first. -/
def eulerLoop : Nat → List (List Nat) → List Nat → List Nat → Option (List Nat)
  | 0, _, _, _ => none
  | _ + 1, _, [], path => some path
  | fuel + 1, vc, vertex :: stack, path =>
    let i := (vc.getD vertex []).findIdx (fun c => c != 0)
    if i = (vc.getD vertex []).length then
      eulerLoop fuel vc stack (path ++ [vertex])
    else
      eulerLoop fuel (decEntry (decEntry vc vertex i) i vertex) (i :: vertex :: stack) path

/-- The function `getEulerPath`; the argument `root` is not used by the source,
which starts from vertex `0`. -/
def getEulerPath (fuel : Nat) (edges : List (Edge W)) (_root : Nat) : Option (List Nat) :=
  eulerLoop fuel (convertEdges edges) [0] []

/-- The conversion chain `size_t → int → size_t` that `int root = front()`
followed by `visited[root]` performs. -/
def intRoundTrip (x : Nat) : Nat :=
  if x % 2 ^ 32 < 2 ^ 31 then x % 2 ^ 32 else x % 2 ^ 32 + (2 ^ 64 - 2 ^ 32)

/-- The `while` loop of `getHamiltonPath` over the elements after `current`. -/
def hamiltonLoop (visited : Nat → Bool) : List Nat → List Nat
  | [] => []
  | x :: xs =>
    if visited x then hamiltonLoop visited xs
    else x :: hamiltonLoop (Function.update visited x true) xs

/-- The function `getHamiltonPath`. -/
def getHamiltonPath : List Nat → Option (List Nat)
  | [] => none
  | first :: rest =>
    some (first :: hamiltonLoop (Function.update (fun _ => false) (intRoundTrip first) true) rest)

namespace Kruskal

/-- The edges `(i, j)`, `i ≤ j`, in the order the two loops push them. -/
def allEdges [Zero W] (m : Matrix W) : List (Edge W) :=
  (List.range m.length).flatMap fun i =>
    (List.range' i ((m.getD i []).length - i)).map fun j => ⟨i, j, entry m i j⟩

/-- The call of `std::sort` by ascending distance.  The standard leaves the order of
equal distances open; the model keeps their order (a stable sort). -/
def sortEdges [LinearOrder W] (edges : List (Edge W)) : List (Edge W) :=
  edges.insertionSort (fun a b => a.distance ≤ b.distance)

/-- The sweep that relabels the absorbed component. -/
def relabel (components : List Nat) (old_component new_component : Nat) : List Nat :=
  components.map fun c => if c = old_component then new_component else c

/-- One round of the loop over the sorted edges; the state is
`(components, min_edges)`. -/
def kruskalStep (st : List Nat × List (Edge W)) (e : Edge W) : List Nat × List (Edge W) :=
  if st.1.getD e.from_ 0 ≠ st.1.getD e.to_ 0 then
    (relabel st.1 (st.1.getD e.to_ 0) (st.1.getD e.from_ 0), st.2 ++ [e])
  else st

/-- The list `min_edges` at the end of the loop. -/
def minEdges [LinearOrder W] [Zero W] (m : Matrix W) : List (Edge W) :=
  ((sortEdges (allEdges m)).foldl kruskalStep (List.range m.length, [])).2

/-- The function `Kruskal::getMinSpanningTree`. -/
def getMinSpanningTree [LinearOrder W] [Zero W] (m : Matrix W) : Matrix W :=
  createCompleteGraph (minEdges m)

end Kruskal

/-- The implicit conversion of a matrix element to `size_t`: the integer part of a value
below `2 ^ 64`.  From `2 ^ 64` on the value is out of the range of `size_t` and the
conversion is undefined in C++; the model gives `0`, the result on x86-64.  Weights are
non-negative; a negative value also gives `0` here. -/
def toSizeT [LinearOrderedSemiring W] [FloorSemiring W] (v : W) : Nat :=
  if v < ((SIZE_MOD : Nat) : W) then Nat.floor v else 0

/-- The count `std::count_if(row, isNotZero)`, where `isNotZero` takes a `size_t`. -/
def degree [LinearOrderedSemiring W] [FloorSemiring W] (row : List W) : Nat :=
  row.countP fun v => toSizeT v != 0

/-- The list `odd_degree_vertices` of `solve`. -/
def oddDegreeVertices [LinearOrderedSemiring W] [FloorSemiring W] (min_matrix : Matrix W) :
    List Nat :=
  (List.range min_matrix.length).filter fun i => degree (min_matrix.getD i []) % 2 != 0

/-- The body of the inner loop of `solve` that inserts `e1` and `e2`. -/
def mergeStep [Zero W] [DecidableEq W] (m : Matrix W) (edges : List (Edge W)) (i to_ : Nat) :
    List (Edge W) :=
  let edges1 := if (⟨to_, i, entry m i to_⟩ : Edge W) ∈ edges then edges
    else edges ++ [⟨to_, i, entry m i to_⟩]
  if (⟨i, to_, entry m to_ i⟩ : Edge W) ∈ edges1 then edges1
  else edges1 ++ [⟨i, to_, entry m to_ i⟩]

/-- The two nested loops of `solve` over the matching table. -/
def mergeMatching [Zero W] [DecidableEq W] (m : Matrix W) (matching : List (List Nat))
    (edges : List (Edge W)) : List (Edge W) :=
  (List.range matching.length).foldl
    (fun es i => (matching.getD i []).foldl (fun es1 to_ => mergeStep m es1 i to_) es) edges

/-- The edge list that `solve` hands to `getEulerPath`. -/
def mergedEdges [LinearOrderedSemiring W] [FloorSemiring W] (m : Matrix W) :
    Option (List (Edge W)) :=
  (findMinimumWeightMatching m (oddDegreeVertices (Kruskal.getMinSpanningTree m))).map
    fun matching => mergeMatching m matching (extractEdges (Kruskal.getMinSpanningTree m))

namespace CChristofidesSolver

/-- The method `CChristofidesSolver::solve`. -/
def solve [LinearOrderedSemiring W] [FloorSemiring W] (fuel : Nat) (m : Matrix W)
    (root : Nat) : Option (List Nat) :=
  (mergedEdges m).bind fun edges =>
    (getEulerPath fuel edges root).bind getHamiltonPath

end CChristofidesSolver

/-- The scan of `std::next_permutation` from the back: `suf` is the part already
seen (in the order of the sequence), the second list is the rest, reversed.  It
returns the reversed prefix, the pivot and the non-increasing suffix. -/
def findPivot : List Nat → List Nat → Option (List Nat × Nat × List Nat)
  | _, [] => none
  | [], x :: rest => findPivot [x] rest
  | s :: suf, x :: rest =>
    if x < s then some (rest, x, s :: suf) else findPivot (x :: s :: suf) rest

/-- The index of the last element of `suf` that is greater than `p`. -/
def lastGreater (p : Nat) (suf : List Nat) : Nat :=
  suf.length - 1 - suf.reverse.findIdx (fun x => decide (p < x))

/-- The function `std::next_permutation`: the next sequence and the returned flag. -/
def nextPermutation (l : List Nat) : List Nat × Bool :=
  match findPivot [] l.reverse with
  | none => (l.reverse, false)
  | some (pre, p, suf) =>
    (pre.reverse ++ suf.getD (lastGreater p suf) 0 :: (suf.set (lastGreater p suf) p).reverse,
      true)

namespace CBruteForceSolver

/-- The lambda `calculate_length`; `captured` is the matrix that it captured by reference
when the `static` local was initialised.  The sum is kept in a `size_t`. -/
def calculate_length [LinearOrderedSemiring W] [FloorSemiring W] (captured : Matrix W)
    (idxes : List Nat) : Nat :=
  (List.range (idxes.length - 1)).foldl
    (fun length i =>
      toSizeT ((length : W) + entry captured (idxes.getD i 0) (idxes.getD (i + 1) 0)))
    0

/-- The `do ... while` loop of `CBruteForceSolver::solve`; `captured` is the matrix of the
lambda `calculate_length`. -/
def bruteLoop [LinearOrderedSemiring W] [FloorSemiring W] (captured : Matrix W) :
    Nat → List Nat → Nat → List Nat → Option (List Nat)
  | 0, _, _, _ => none
  | fuel + 1, idxes, min_length, min_sequence =>
    match nextPermutation idxes with
    | (next, true) =>
      if calculate_length captured idxes < min_length then
        bruteLoop captured fuel next (calculate_length captured idxes) idxes
      else bruteLoop captured fuel next min_length min_sequence
    | (_, false) =>
      if calculate_length captured idxes < min_length then some idxes else some min_sequence

/-- The matrix that the lambda `calculate_length` reads during a call of `solve` on
`matrix`, and keeps for every later call: the matrix `earlier` of the first call if there
was a call before (the `static` local is initialised only once, and `earlier` is that
matrix as the caller still holds it), else `matrix` itself. -/
def staticMatrix (earlier : Option (Matrix W)) (matrix : Matrix W) : Matrix W :=
  earlier.getD matrix

/-- The method `CBruteForceSolver::solve`.  `earlier` is the matrix captured by an earlier
call, `none` on a first call; the sequence `idxes` has the size of the matrix passed now.
The argument `root` is not used. -/
def solve [LinearOrderedSemiring W] [FloorSemiring W] (earlier : Option (Matrix W))
    (fuel : Nat) (m : Matrix W) (_root : Nat) : Option (List Nat) :=
  bruteLoop (staticMatrix earlier m) fuel (List.range m.length) 0xFFFFFFFF []

end CBruteForceSolver

/-- The sum of the matrix weights between consecutive vertices of a path. -/
def pathCost [AddMonoid W] (m : Matrix W) : List Nat → W
  | a :: b :: rest => entry m a b + pathCost m (b :: rest)
  | _ => 0

/-- The cost of a path closed into a tour by the edge from its last to its first vertex. -/
def tourCost [AddMonoid W] (m : Matrix W) (p : List Nat) : W :=
  pathCost m p + entry m (p.getLastD 0) (p.headD 0)

end Defs

/-! ## Notions used to state the properties -/

section Notions

variable {W : Type}

/-- A matrix with `n` rows of `n` entries. -/
def IsSquare (n : Nat) (m : Matrix W) : Prop :=
  m.length = n ∧ ∀ i, i < n → (m.getD i []).length = n

/-- The fold of `createCompleteGraph` over a square matrix. -/
def fillEdges (r : Matrix W) (edges : List (Edge W)) : Matrix W :=
  edges.foldl
    (fun r e => setEntry (setEntry r e.from_ e.to_ e.distance) e.to_ e.from_ e.distance) r

/-- Two end points match an edge in one of its two directions. -/
def Edge.joins (e : Edge W) (a b : Nat) : Prop :=
  (e.from_ = a ∧ e.to_ = b) ∨ (e.from_ = b ∧ e.to_ = a)

/-- The undirected adjacency of an edge list. -/
def edgeRel (es : List (Edge W)) (a b : Nat) : Prop := ∃ e ∈ es, e.joins a b

/-- The invariant of the loop of `getMinSpanningTree` over the sorted edges: `l` is the
part of the edge list still to be read, `st` the pair `(components, min_edges)`. -/
structure KInv [Zero W] (n : Nat) (m : Matrix W) (l : List (Edge W))
    (st : List Nat × List (Edge W)) : Prop where
  len : st.1.length = n
  lt : ∀ v, v < n → st.1.getD v 0 < n
  idem : ∀ v, v < n → st.1.getD (st.1.getD v 0) 0 = st.1.getD v 0
  reach : ∀ u v, u < n → v < n →
    (st.1.getD u 0 = st.1.getD v 0 ↔ Relation.ReflTransGen (edgeRel st.2) u v)
  wf : ∀ e ∈ st.2, e.from_ < e.to_ ∧ e.to_ < n ∧ e.distance = entry m e.from_ e.to_
  count : st.2.length + ((Finset.range n).filter (fun v => st.1.getD v 0 = v)).card = n
  forest : ∀ e ∈ st.2,
    ¬ Relation.ReflTransGen (fun a b => edgeRel st.2 a b ∧ ¬ e.joins a b) e.from_ e.to_
  distinct : st.2.Pairwise (fun e1 e2 => ¬ e2.joins e1.from_ e1.to_)
  cross : ∀ a b, a < b → b < n → st.1.getD a 0 ≠ st.1.getD b 0 →
    (⟨a, b, entry m a b⟩ : Edge W) ∈ l

/-- The undirected adjacency of a set of pairs. -/
def pairRel (S : Finset (Nat × Nat)) (a b : Nat) : Prop := (a, b) ∈ S ∨ (b, a) ∈ S

/-- A set of pairs `a < b < n` that joins all the vertices `0 .. n-1`. -/
def Spans (n : Nat) (S : Finset (Nat × Nat)) : Prop :=
  (∀ p ∈ S, p.1 < p.2 ∧ p.2 < n) ∧
    ∀ u v, u < n → v < n → Relation.ReflTransGen (pairRel S) u v

/-- The total weight that a matrix gives to a set of pairs. -/
def weight [OrderedSemiring W] (m : Matrix W) (S : Finset (Nat × Nat)) : W :=
  ∑ p ∈ S, entry m p.1 p.2

/-- Every connected set of pairs can be exchanged, at no larger weight, for one that
contains the accepted edges. -/
def MInv [OrderedSemiring W] (n : Nat) (m : Matrix W) (acc : List (Edge W)) : Prop :=
  ∀ S, Spans n S → ∃ S1, Spans n S1 ∧ (∀ e ∈ acc, (e.from_, e.to_) ∈ S1) ∧
    weight m S1 ≤ weight m S

/-- What the loop of `getMinSpanningTree` leaves in `min_edges`. -/
structure TreeEdges [OrderedSemiring W] (n : Nat) (m : Matrix W) (K : List (Edge W)) : Prop where
  wf : ∀ e ∈ K, e.from_ < e.to_ ∧ e.to_ < n ∧ e.distance = entry m e.from_ e.to_
  distinct : K.Pairwise (fun e1 e2 => ¬ e2.joins e1.from_ e1.to_)
  length : K.length + 1 = n
  connected : ∀ u v, u < n → v < n → Relation.ReflTransGen (edgeRel K) u v
  forest : ∀ e ∈ K,
    ¬ Relation.ReflTransGen (fun a b => edgeRel K a b ∧ ¬ e.joins a b) e.from_ e.to_
  minimal : MInv n m K

/-- The graph of the non-zero entries of a matrix. -/
def matrixGraph [Zero W] (m : Matrix W) : SimpleGraph Nat :=
  SimpleGraph.fromRel fun a b => entry m a b ≠ 0

/-- The pairs `a < b < n`. -/
def upperPairs (n : Nat) : Finset (Nat × Nat) :=
  (Finset.range n ×ˢ Finset.range n).filter fun p => p.1 < p.2

/-- The undirected edges of a matrix: its non-zero entries above the diagonal. -/
def edgePairs [Zero W] [DecidableEq W] (n : Nat) (t : Matrix W) : Finset (Nat × Nat) :=
  (upperPairs n).filter fun p => entry t p.1 p.2 ≠ 0

/-- A spanning tree of the complete graph on `0 .. n-1`: a set of pairs `a < b < n` that joins
all the vertices and in which no edge closes a cycle (its end points are not joined by the
other edges). -/
def IsSpanningTree (n : Nat) (T : Finset (Nat × Nat)) : Prop :=
  Spans n T ∧ ∀ p ∈ T, ¬ Relation.ReflTransGen (pairRel (T.erase p)) p.1 p.2

/-- A distance matrix on `n` vertices: square, symmetric, zero on the diagonal and strictly
positive off it. -/
structure IsDistanceMatrix [OrderedSemiring W] (n : Nat) (m : Matrix W) : Prop where
  square : IsSquare n m
  symm : ∀ a, a < n → ∀ b, b < n → entry m a b = entry m b a
  diag : ∀ a, a < n → entry m a a = 0
  pos : ∀ a, a < n → ∀ b, b < n → a ≠ b → 0 < entry m a b

/-- How many times the pair `(a, b)` is one of the two directions of the edge `t - i`. -/
def usePair (t i a b : Nat) : Nat :=
  (if t = a ∧ i = b then 1 else 0) + (if i = a ∧ t = b then 1 else 0)

/-- How many ends of the edge `t - i` are the vertex `v`. -/
def useDeg (t i v : Nat) : Nat := (if t = v then 1 else 0) + (if i = v then 1 else 0)

/-- The sum of row `v` of a table: the number of edge ends still to be used at `v`. -/
def rowSum (n : Nat) (vc : List (List Nat)) (v : Nat) : Nat :=
  ∑ b ∈ Finset.range n, entry vc v b

/-- The sum of all entries of a table. -/
def total (n : Nat) (vc : List (List Nat)) : Nat :=
  ∑ a ∈ Finset.range n, rowSum n vc a

/-- Well-formedness of a remaining-edge table: square, symmetric, within `size_t`, and with
every loop counted at both of its ends. -/
structure TableOK (n : Nat) (vc : List (List Nat)) : Prop where
  square : IsSquare n vc
  symm : ∀ a b, entry vc a b = entry vc b a
  bound : ∀ a b, entry vc a b < SIZE_MOD
  diag : ∀ a, Even (entry vc a a)

/-- The vertices the walk has reached: kept by every round of the loop. -/
structure ICov (n : Nat) (g0 : Nat → Nat → Nat) (vc : List (List Nat)) (stack path : List Nat) :
    Prop where
  done : ∀ v ∈ path, ∀ b, entry vc v b = 0
  used : ∀ x y, entry vc x y ≠ g0 x y → (x ∈ stack ∨ x ∈ path) ∧ (y ∈ stack ∨ y ∈ path)
  le : ∀ x y, entry vc x y ≤ g0 x y
  start : 0 ∈ stack ∨ 0 ∈ path
  reach : ∀ v, v ∈ stack ∨ v ∈ path → Relation.ReflTransGen (fun a b => g0 a b ≠ 0) 0 v
  lt : ∀ v ∈ path, v < n
  size : 2 * (path.length + stack.length) + total n vc =
    (∑ a ∈ Finset.range n, ∑ b ∈ Finset.range n, g0 a b) + 2

/-- How many times a walk runs along the edge `a - b`, counted at both of its directions
(a loop counts twice). -/
def ucount : List Nat → Nat → Nat → Nat
  | x :: y :: rest, a, b => usePair x y a b + ucount (y :: rest) a b
  | _, _, _ => 0

/-- The bookkeeping of the walk: the stack splits into the part `S1` that closes the
walk emitted so far and a detour `S2` on top of it; the edges of these two walks and the
edges still in the table make up the edges of the start; all degrees in the table are even
but for the two ends of an open detour. -/
def IEul (n : Nat) (g0 : Nat → Nat → Nat) (vc : List (List Nat)) (stack path : List Nat) :
    Prop :=
  ∃ S2 S1, stack = S2 ++ S1 ∧ (S1 = [] → S2 = []) ∧
    (∀ x y, g0 x y = entry vc x y + ucount (path ++ S1) x y + ucount (S2 ++ S1.take 1) x y) ∧
    (∀ u, Odd (rowSum n vc u) ↔
      (stack.head? ≠ S1.head? ∧ (some u = stack.head? ∨ some u = S1.head?)))

/-- How many times the directed pair `(a, b)` is listed. -/
def dirCount (edges : List (Edge W)) (a b : Nat) : Nat :=
  edges.countP fun e => e.from_ == a && e.to_ == b

/-- How many listed edges leave the vertex `v`: its degree, when every undirected edge is
listed in both directions. -/
def degreeOf (edges : List (Edge W)) (v : Nat) : Nat :=
  edges.countP fun e => e.from_ == v

/-- The unordered pairs of consecutive entries of a walk. -/
def walkPairs (p : List Nat) : List (Sym2 Nat) :=
  List.zipWith (fun a b => s(a, b)) p p.tail

/-- An edge list that lists every undirected edge in both of its directions (a loop, which
is its own reverse, twice). -/
def ListsBothDirections (edges : List (Edge W)) : Prop :=
  (∀ a, a ≤ maxIdx edges → ∀ b, b ≤ maxIdx edges → dirCount edges a b = dirCount edges b a) ∧
    ∀ a, a ≤ maxIdx edges → Even (dirCount edges a a)

/-- The shape of the edge list that `solve` assembles: no edge twice, no loops, every edge
with the weight of the input matrix, and every edge together with its reverse. -/
structure MergedOK [Zero W] (n : Nat) (m : Matrix W) (L : List (Edge W)) : Prop where
  nodup : L.Nodup
  wf : ∀ e ∈ L, e.from_ < n ∧ e.to_ < n ∧ e.from_ ≠ e.to_ ∧
    e.distance = entry m e.from_ e.to_
  symm : ∀ e ∈ L, (⟨e.to_, e.from_, entry m e.to_ e.from_⟩ : Edge W) ∈ L

/-- The pairs `(i, to)` over which the two nested loops of `solve` run. -/
def matchingPairs (matching : List (List Nat)) : List (Nat × Nat) :=
  (List.range matching.length).flatMap fun i => (matching.getD i []).map fun to_ => (i, to_)

/-- The matching that `solve` computes, and the edge list it merges it into. -/
structure Merged [LinearOrderedSemiring W] [FloorSemiring W] (n : Nat) (m : Matrix W)
    (M : List (List Nat)) (L : List (Edge W)) : Prop where
  matching : findMinimumWeightMatching m (oddDegreeVertices (Kruskal.getMinSpanningTree m)) =
    some M
  merged : mergedEdges m = some L
  length : M.length = n
  paired : ∀ v ∈ oddDegreeVertices (Kruskal.getMinSpanningTree m),
    ∃ u ∈ oddDegreeVertices (Kruskal.getMinSpanningTree m),
      u ≠ v ∧ M.getD v [] = [u] ∧ M.getD u [] = [v]
  unpaired : ∀ v, v ∉ oddDegreeVertices (Kruskal.getMinSpanningTree m) → M.getD v [] = []
  ok : MergedOK n m L
  tree : ∀ e ∈ extractEdges (Kruskal.getMinSpanningTree m), e ∈ L
  mem : ∀ a b, (⟨a, b, entry m a b⟩ : Edge W) ∈ L ↔
    (a < n ∧ b < n ∧ (entry (Kruskal.getMinSpanningTree m) a b ≠ 0 ∨ b ∈ M.getD a []))

/-- A walk with every occurrence of a vertex after its first one removed. -/
def firstOccurrences : List Nat → List Nat
  | [] => []
  | x :: xs => x :: (firstOccurrences xs).filter (fun y => y != x)

/-- The distance matrix of the unit square with corners `0 .. 3` in cyclic order, sides of
length `1` and diagonals of length `d`. -/
def unitSquare [Zero W] [One W] (d : W) : Matrix W :=
  [[0, 1, d, 1], [1, 0, 1, d], [d, 1, 0, 1], [1, d, 1, 0]]

/-- A matrix with every entry converted to `size_t`. -/
def floorMatrix [LinearOrderedSemiring W] [FloorSemiring W] (m : Matrix W) : Matrix Nat :=
  m.map fun row => row.map Nat.floor

/-- The number of distinct neighbours of a vertex in a remaining-edge table: the non-zero
entries of its row. -/
def neighbourCount (table : List (List Nat)) (v : Nat) : Nat :=
  (table.getD v []).countP fun c => c != 0

/-- The value of a sequence of vertex ids read as digits in base `n`. -/
def digitsValue (n : Nat) (l : List Nat) : Nat :=
  l.foldl (fun acc d => acc * n + d) 0

/-- The all-zero matrix on two vertices. -/
def zero2 : Matrix Nat := [[0, 0], [0, 0]]

/-- Two vertices at distance `1`. -/
def pair2 : Matrix Nat := [[0, 1], [1, 0]]

/-- Three points on a line: vertex `0` at `3`, vertex `1` at `2`, vertex `2` at `0`. -/
def line3 : Matrix Nat := [[0, 1, 3], [1, 0, 2], [3, 2, 0]]

/-- The triangle `0 - 1 - 2`, every edge listed in both directions. -/
def triangle : List (Edge Nat) :=
  [⟨0, 1, 1⟩, ⟨1, 0, 1⟩, ⟨1, 2, 1⟩, ⟨2, 1, 1⟩, ⟨0, 2, 1⟩, ⟨2, 0, 1⟩]

/-- Two vertices at distance `d`. -/
def shortPair [Zero W] (d : W) : Matrix W := [[0, d], [d, 0]]

/-- Two vertices at distance one half. -/
def halfPair : Matrix ℚ := shortPair (1 / 2)

/-- Four vertices; the weight between `0` and `1` is `0`, the mark of a missing edge. -/
def sparse4 : Matrix Nat := [[0, 0, 1, 2], [0, 0, 2, 1], [1, 2, 0, 2], [2, 1, 2, 0]]

/-- Two separate edges `0 - 1` and `2 - 3`, each listed in both directions. -/
def twoParts : List (Edge Nat) := [⟨0, 1, 1⟩, ⟨1, 0, 1⟩, ⟨2, 3, 1⟩, ⟨3, 2, 1⟩]

/-- Three vertices at distance `0xFFFFFFFF` from one another. -/
def far3 : Matrix Nat :=
  [[0, 4294967295, 4294967295], [4294967295, 0, 4294967295], [4294967295, 4294967295, 0]]

/-- Three points on a line in the order `0, 1, 2`. -/
def ordered3 : Matrix Nat := [[0, 1, 2], [1, 0, 1], [2, 1, 0]]

/-- Three points on a line in the order `0, 2, 1`. -/
def swapped3 : Matrix Nat := [[0, 3, 1], [3, 0, 2], [1, 2, 0]]

/-- A matrix of natural numbers as a matrix of weights. -/
def castMatrix [NatCast W] (m : Matrix Nat) : Matrix W :=
  m.map fun row => row.map Nat.cast

/-- Another symmetric matrix on four vertices, with zero diagonal. -/
def otherSquare : Matrix Nat := [[0, 1, 5, 9], [1, 0, 9, 1], [5, 9, 0, 9], [9, 1, 9, 0]]

/-- The distance matrix of points on a line, at the positions `ps`. -/
def lineOf (ps : List Nat) : Matrix Nat :=
  ps.map fun a => ps.map fun b => if a ≤ b then b - a else a - b

end Notions

/-! ## Lemmas and theorems -/

section Theorems

variable {W : Type}

theorem getD_set_list {α : Type} (l : List α) (i j : Nat) (v d : α) :
    (l.set i v).getD j d = if i = j ∧ i < l.length then v else l.getD j d := by
  simp only [List.getD_eq_getElem?_getD, List.getElem?_set]
  by_cases h : i = j
  · subst h
    by_cases h2 : i < l.length
    · simp [h2]
    · simp [h2, List.getElem?_eq_none (Nat.le_of_not_lt h2)]
  · simp [h]

theorem isSquare_replicate [Zero W] (n : Nat) :
    IsSquare n (List.replicate n (List.replicate n (0 : W))) := by
  refine ⟨by simp, ?_⟩
  intro i hi
  rw [List.getD_eq_getElem _ _ (by simpa using hi)]
  simp

theorem entry_replicate [Zero W] (n a b : Nat) :
    entry (List.replicate n (List.replicate n (0 : W))) a b = 0 := by
  unfold entry
  simp only [List.getD_eq_getElem?_getD, List.getElem?_replicate]
  by_cases ha : a < n
  · simp only [ha, if_true, Option.getD_some, List.getElem?_replicate]
    by_cases hb : b < n <;> simp [hb]
  · simp [ha]

theorem isSquare_setEntry {n : Nat} {m : Matrix W} (h : IsSquare n m) (i j : Nat) (v : W) :
    IsSquare n (setEntry m i j v) := by
  refine ⟨by simp [setEntry, h.1], ?_⟩
  intro k hk
  unfold setEntry
  rw [getD_set_list]
  split
  · next h1 => rw [List.length_set]; rw [h1.1]; exact h.2 k hk
  · exact h.2 k hk

theorem entry_setEntry [Zero W] {n : Nat} {m : Matrix W} (h : IsSquare n m) (i j : Nat) (v : W)
    (hi : i < n) (hj : j < n) (a b : Nat) :
    entry (setEntry m i j v) a b = if i = a ∧ j = b then v else entry m a b := by
  unfold entry setEntry
  rw [getD_set_list]
  by_cases h1 : i = a
  · subst h1
    rw [if_pos ⟨rfl, by rw [h.1]; exact hi⟩, getD_set_list]
    by_cases h2 : j = b
    · subst h2
      rw [if_pos ⟨rfl, by rw [h.2 i hi]; exact hj⟩, if_pos ⟨rfl, rfl⟩]
    · rw [if_neg (fun hh => h2 hh.1), if_neg (fun hh => h2 hh.2)]
  · rw [if_neg (fun hh => h1 hh.1), if_neg (fun hh => h1 hh.1)]

theorem entry_eq_zero_of_ge [Zero W] {n : Nat} {m : Matrix W} (h : IsSquare n m) (a b : Nat)
    (hab : n ≤ a ∨ n ≤ b) : entry m a b = 0 := by
  unfold entry
  by_cases ha : a < n
  · have hb : n ≤ b := by omega
    exact List.getD_eq_default _ _ (by rw [h.2 a ha]; exact hb)
  · have : m.getD a [] = [] := List.getD_eq_default _ _ (by rw [h.1]; omega)
    rw [this]; rfl

theorem isSquare_fillEdges {n : Nat} (edges : List (Edge W)) :
    ∀ {r : Matrix W}, IsSquare n r → IsSquare n (fillEdges r edges) := by
  induction edges with
  | nil => intro r h; exact h
  | cons e es ih =>
    intro r h
    exact ih (isSquare_setEntry (isSquare_setEntry h _ _ _) _ _ _)

theorem entry_fillEdges_of_not_mem [Zero W] {n : Nat} (edges : List (Edge W)) :
    ∀ {r : Matrix W}, IsSquare n r → (∀ e ∈ edges, e.from_ < n ∧ e.to_ < n) →
      ∀ a b, (∀ e ∈ edges, ¬ e.joins a b) → entry (fillEdges r edges) a b = entry r a b := by
  induction edges with
  | nil => intro r _ _ a b _; rfl
  | cons e es ih =>
    intro r h hlt a b hno
    have he := hlt e (List.mem_cons_self _ _)
    have h1 := isSquare_setEntry h e.from_ e.to_ e.distance
    have h2 := isSquare_setEntry h1 e.to_ e.from_ e.distance
    have := ih h2 (fun e' he' => hlt e' (List.mem_cons_of_mem _ he')) a b
      (fun e' he' => hno e' (List.mem_cons_of_mem _ he'))
    unfold fillEdges at this ⊢
    rw [List.foldl_cons, this, entry_setEntry h1 _ _ _ he.2 he.1,
      entry_setEntry h _ _ _ he.1 he.2]
    have hj := hno e (List.mem_cons_self _ _)
    rw [if_neg (fun hh => hj (Or.inr ⟨hh.2, hh.1⟩)), if_neg (fun hh => hj (Or.inl hh))]

theorem entry_fillEdges_of_mem [Zero W] {n : Nat} (edges : List (Edge W)) :
    ∀ {r : Matrix W}, IsSquare n r → (∀ e ∈ edges, e.from_ < n ∧ e.to_ < n) →
      edges.Pairwise (fun e1 e2 => ¬ e2.joins e1.from_ e1.to_) →
      ∀ e ∈ edges, ∀ a b, e.joins a b → entry (fillEdges r edges) a b = e.distance := by
  induction edges with
  | nil => intro r _ _ _ e he; simp at he
  | cons e0 es ih =>
    intro r h hlt hpw e he a b hj
    have he0 := hlt e0 (List.mem_cons_self _ _)
    have h1 := isSquare_setEntry h e0.from_ e0.to_ e0.distance
    have h2 := isSquare_setEntry h1 e0.to_ e0.from_ e0.distance
    have hlt' : ∀ e' ∈ es, e'.from_ < n ∧ e'.to_ < n :=
      fun e' he' => hlt e' (List.mem_cons_of_mem _ he')
    rcases List.mem_cons.mp he with rfl | he
    · have hno : ∀ e' ∈ es, ¬ e'.joins a b := by
        intro e' he' hj'
        have := (List.pairwise_cons.mp hpw).1 e' he'
        apply this
        rcases hj with ⟨h3, h4⟩ | ⟨h3, h4⟩
        · rw [h3, h4]; exact hj'
        · rw [h3, h4]
          rcases hj' with hj' | hj'
          · exact Or.inr hj'
          · exact Or.inl hj'
      have := entry_fillEdges_of_not_mem es h2 hlt' a b hno
      unfold fillEdges at this ⊢
      rw [List.foldl_cons, this, entry_setEntry h1 _ _ _ he0.2 he0.1,
        entry_setEntry h _ _ _ he0.1 he0.2]
      rcases hj with ⟨h3, h4⟩ | ⟨h3, h4⟩
      · by_cases h5 : e.to_ = a ∧ e.from_ = b
        · rw [if_pos h5]
        · rw [if_neg h5, if_pos ⟨h3, h4⟩]
      · rw [if_pos ⟨h4, h3⟩]
    · have := ih h2 hlt' (List.pairwise_cons.mp hpw).2 e he a b hj
      unfold fillEdges at this ⊢
      rw [List.foldl_cons, this]

theorem maxIdx_foldl_ge (edges : List (Edge W)) :
    ∀ acc : Nat, acc ≤ edges.foldl (fun acc e => max (max e.from_ e.to_) acc) acc ∧
      ∀ e ∈ edges, e.from_ ≤ edges.foldl (fun acc e => max (max e.from_ e.to_) acc) acc ∧
        e.to_ ≤ edges.foldl (fun acc e => max (max e.from_ e.to_) acc) acc := by
  induction edges with
  | nil => intro acc; simp
  | cons e es ih =>
    intro acc
    have h := ih (max (max e.from_ e.to_) acc)
    simp only [List.foldl_cons]
    refine ⟨by omega, ?_⟩
    intro e' he'
    rcases List.mem_cons.mp he' with rfl | he'
    · constructor <;> omega
    · exact h.2 e' he'

theorem le_maxIdx (edges : List (Edge W)) (e : Edge W) (he : e ∈ edges) :
    e.from_ ≤ maxIdx edges ∧ e.to_ ≤ maxIdx edges :=
  (maxIdx_foldl_ge edges 0).2 e he

theorem maxIdx_foldl_le (edges : List (Edge W)) (k : Nat) :
    ∀ acc : Nat, acc ≤ k → (∀ e ∈ edges, e.from_ ≤ k ∧ e.to_ ≤ k) →
      edges.foldl (fun acc e => max (max e.from_ e.to_) acc) acc ≤ k := by
  induction edges with
  | nil => intro acc h _; simpa using h
  | cons e es ih =>
    intro acc h hall
    simp only [List.foldl_cons]
    have := hall e (List.mem_cons_self _ _)
    exact ih _ (by omega) (fun e' he' => hall e' (List.mem_cons_of_mem _ he'))

theorem maxIdx_le (edges : List (Edge W)) (k : Nat) (h : ∀ e ∈ edges, e.from_ ≤ k ∧ e.to_ ≤ k) :
    maxIdx edges ≤ k :=
  maxIdx_foldl_le edges k 0 (Nat.zero_le _) h

theorem createCompleteGraph_eq [Zero W] (edges : List (Edge W)) :
    createCompleteGraph edges =
      fillEdges (List.replicate (maxIdx edges + 1) (List.replicate (maxIdx edges + 1) 0)) edges :=
  rfl

theorem Edge.joins_symm {e : Edge W} {a b : Nat} (h : e.joins a b) : e.joins b a :=
  h.elim Or.inr Or.inl

theorem edgeRel_symm (es : List (Edge W)) : Symmetric (edgeRel es) := by
  rintro a b ⟨e, he, hj⟩
  exact ⟨e, he, Edge.joins_symm hj⟩

theorem reach_symm {r : Nat → Nat → Prop} (hr : Symmetric r) {a b : Nat}
    (h : Relation.ReflTransGen r a b) : Relation.ReflTransGen r b a :=
  Relation.ReflTransGen.symmetric hr h

/-- Reachability after one more undirected edge `x - y` is added to a relation. -/
theorem reach_insert {r : Nat → Nat → Prop} {x y a b : Nat}
    (h : Relation.ReflTransGen (fun a b => r a b ∨ (a = x ∧ b = y) ∨ (a = y ∧ b = x)) a b) :
    Relation.ReflTransGen r a b ∨
      (Relation.ReflTransGen r a x ∧ Relation.ReflTransGen r y b) ∨
      (Relation.ReflTransGen r a y ∧ Relation.ReflTransGen r x b) := by
  induction h with
  | refl => exact Or.inl Relation.ReflTransGen.refl
  | tail _ hbc ih =>
    rcases ih with h1 | ⟨h1, h2⟩ | ⟨h1, h2⟩
    · rcases hbc with h3 | ⟨rfl, rfl⟩ | ⟨rfl, rfl⟩
      · exact Or.inl (h1.tail h3)
      · exact Or.inr (Or.inl ⟨h1, Relation.ReflTransGen.refl⟩)
      · exact Or.inr (Or.inr ⟨h1, Relation.ReflTransGen.refl⟩)
    · rcases hbc with h3 | ⟨rfl, rfl⟩ | ⟨rfl, rfl⟩
      · exact Or.inr (Or.inl ⟨h1, h2.tail h3⟩)
      · exact Or.inr (Or.inl ⟨h1, Relation.ReflTransGen.refl⟩)
      · exact Or.inl h1
    · rcases hbc with h3 | ⟨rfl, rfl⟩ | ⟨rfl, rfl⟩
      · exact Or.inr (Or.inr ⟨h1, h2.tail h3⟩)
      · exact Or.inl h1
      · exact Or.inr (Or.inr ⟨h1, Relation.ReflTransGen.refl⟩)

theorem getD_relabel (cs : List Nat) (o c v : Nat) (hv : v < cs.length) :
    (Kruskal.relabel cs o c).getD v 0 = if cs.getD v 0 = o then c else cs.getD v 0 := by
  unfold Kruskal.relabel
  rw [List.getD_eq_getElem _ _ (by simpa using hv), List.getD_eq_getElem _ _ hv]
  simp

theorem getD_range (n v : Nat) (hv : v < n) : (List.range n).getD v 0 = v := by
  rw [List.getD_eq_getElem _ _ (by simpa using hv)]
  simp

theorem reach_lt [Zero W] {n : Nat} {es : List (Edge W)}
    (hwf : ∀ e ∈ es, e.from_ < n ∧ e.to_ < n) {u v : Nat}
    (h : Relation.ReflTransGen (edgeRel es) u v) (hu : u < n) : v < n := by
  induction h with
  | refl => exact hu
  | tail _ hbc _ =>
    obtain ⟨e, he, hj⟩ := hbc
    have := hwf e he
    rcases hj with ⟨_, h2⟩ | ⟨h1, _⟩
    · omega
    · omega

theorem KInv.reject_step [Zero W] {n : Nat} {m : Matrix W} {l : List (Edge W)} {e : Edge W}
    {st : List Nat × List (Edge W)} (h : KInv n m (e :: l) st)
    (hc : st.1.getD e.from_ 0 = st.1.getD e.to_ 0) : KInv n m l st := by
  refine ⟨h.len, h.lt, h.idem, h.reach, h.wf, h.count, h.forest, h.distinct, ?_⟩
  intro a b hab hb hne
  rcases List.mem_cons.mp (h.cross a b hab hb hne) with h1 | h1
  · exfalso
    apply hne
    rw [← h1] at hc
    exact hc
  · exact h1

theorem KInv.accept_step [Zero W] {n : Nat} {m : Matrix W} {l : List (Edge W)} {e : Edge W}
    {st : List Nat × List (Edge W)} (h : KInv n m (e :: l) st)
    (he : e.from_ ≤ e.to_ ∧ e.to_ < n ∧ e.distance = entry m e.from_ e.to_)
    (hc : st.1.getD e.from_ 0 ≠ st.1.getD e.to_ 0) :
    KInv n m l
      (Kruskal.relabel st.1 (st.1.getD e.to_ 0) (st.1.getD e.from_ 0), st.2 ++ [e]) := by
  obtain ⟨cs, acc⟩ := st
  simp only at h hc ⊢
  have hxy : e.from_ < e.to_ := by
    rcases Nat.lt_or_ge e.from_ e.to_ with h1 | h1
    · exact h1
    · exfalso; apply hc; rw [Nat.le_antisymm he.1 h1]
  have hx : e.from_ < n := by omega
  have hy : e.to_ < n := he.2.1
  have hlen := h.len
  simp only at hlen
  have hget : ∀ v, v < n → (Kruskal.relabel cs (cs.getD e.to_ 0) (cs.getD e.from_ 0)).getD v 0 =
      if cs.getD v 0 = cs.getD e.to_ 0 then cs.getD e.from_ 0 else cs.getD v 0 :=
    fun v hv => getD_relabel cs _ _ v (by omega)
  have hsub : ∀ a b, edgeRel acc a b → edgeRel (acc ++ [e]) a b := by
    rintro a b ⟨e1, h1, h2⟩
    exact ⟨e1, List.mem_append_left _ h1, h2⟩
  have hacc_lt : ∀ e1 ∈ acc, e1.from_ < n ∧ e1.to_ < n := by
    intro e1 h1
    have := h.wf e1 h1
    omega
  have hnew : ∀ a b, edgeRel (acc ++ [e]) a b →
      edgeRel acc a b ∨ (a = e.from_ ∧ b = e.to_) ∨ (a = e.to_ ∧ b = e.from_) := by
    rintro a b ⟨e1, h1, h2⟩
    rcases List.mem_append.mp h1 with h3 | h3
    · exact Or.inl ⟨e1, h3, h2⟩
    · rw [List.mem_singleton.mp h3] at h2
      rcases h2 with ⟨h4, h5⟩ | ⟨h4, h5⟩
      · exact Or.inr (Or.inl ⟨h4.symm, h5.symm⟩)
      · exact Or.inr (Or.inr ⟨h5.symm, h4.symm⟩)
  have hreach := h.reach
  simp only at hreach
  have hxy_reach : ¬ Relation.ReflTransGen (edgeRel acc) e.from_ e.to_ :=
    fun hr => hc ((hreach _ _ hx hy).mpr hr)
  refine ⟨?_, ?_, ?_, ?_, ?_, ?_, ?_, ?_, ?_⟩
  · simp [Kruskal.relabel, hlen]
  · intro v hv
    simp only
    rw [hget v hv]
    split
    · exact h.lt _ hx
    · exact h.lt _ hv
  · intro v hv
    simp only
    rw [hget v hv]
    split
    · rw [hget _ (h.lt _ hx), h.idem _ hx, if_neg hc]
    · next h1 =>
      rw [hget _ (h.lt _ hv), h.idem _ hv, if_neg h1]
  · intro u v hu hv
    simp only
    rw [hget u hu, hget v hv]
    constructor
    · intro h1
      by_cases h2 : cs.getD u 0 = cs.getD v 0
      · exact ((hreach u v hu hv).mp h2).mono hsub
      · have hedge : edgeRel (acc ++ [e]) e.from_ e.to_ :=
          ⟨e, List.mem_append_right _ (List.mem_singleton_self _), Or.inl ⟨rfl, rfl⟩⟩
        by_cases h3 : cs.getD u 0 = cs.getD e.to_ 0
        · rw [if_pos h3] at h1
          by_cases h4 : cs.getD v 0 = cs.getD e.to_ 0
          · exact absurd (h3.trans h4.symm) h2
          · rw [if_neg h4] at h1
            have r1 := ((hreach u _ hu hy).mp h3).mono hsub
            have r2 := ((hreach _ v hx hv).mp h1).mono hsub
            exact r1.trans ((reach_symm (edgeRel_symm _)
              (Relation.ReflTransGen.single hedge)).trans r2)
        · rw [if_neg h3] at h1
          by_cases h4 : cs.getD v 0 = cs.getD e.to_ 0
          · rw [if_pos h4] at h1
            have r1 := ((hreach u _ hu hx).mp h1).mono hsub
            have r2 := ((hreach _ v hy hv).mp h4.symm).mono hsub
            exact r1.trans ((Relation.ReflTransGen.single hedge).trans r2)
          · rw [if_neg h4] at h1
            exact absurd h1 h2
    · intro h1
      have h2 := reach_insert (h1.mono hnew)
      rcases h2 with h2 | ⟨h2, h3⟩ | ⟨h2, h3⟩
      · rw [(hreach u v hu hv).mpr h2]
      · have e1 := (hreach u _ hu hx).mpr h2
        have e2 := (hreach _ v hy hv).mpr h3
        rw [e1, ← e2, if_neg hc, if_pos rfl]
      · have e1 := (hreach u _ hu hy).mpr h2
        have e2 := (hreach _ v hx hv).mpr h3
        rw [e1, ← e2, if_pos rfl, if_neg hc]
  · intro e1 h1
    rcases List.mem_append.mp h1 with h2 | h2
    · exact h.wf e1 h2
    · rw [List.mem_singleton.mp h2]
      exact ⟨hxy, hy, he.2.2⟩
  · simp only [List.length_append, List.length_singleton]
    have hcount := h.count
    simp only at hcount
    have hold : cs.getD e.to_ 0 < n := h.lt _ hy
    have hfix : (Finset.range n).filter (fun v => cs.getD v 0 = v) =
        insert (cs.getD e.to_ 0) ((Finset.range n).filter (fun v =>
          (Kruskal.relabel cs (cs.getD e.to_ 0) (cs.getD e.from_ 0)).getD v 0 = v)) := by
      ext v
      simp only [Finset.mem_filter, Finset.mem_range, Finset.mem_insert]
      constructor
      · rintro ⟨hv, h1⟩
        by_cases h2 : v = cs.getD e.to_ 0
        · exact Or.inl h2
        · refine Or.inr ⟨hv, ?_⟩
          rw [hget v hv, h1, if_neg h2]
      · rintro (h1 | ⟨hv, h1⟩)
        · rw [h1]
          exact ⟨hold, h.idem _ hy⟩
        · refine ⟨hv, ?_⟩
          rw [hget v hv] at h1
          split at h1
          · next h2 =>
            exfalso
            rw [← h1] at h2
            rw [h.idem _ hx] at h2
            exact hc h2
          · exact h1
    have hnot : cs.getD e.to_ 0 ∉ (Finset.range n).filter (fun v =>
        (Kruskal.relabel cs (cs.getD e.to_ 0) (cs.getD e.from_ 0)).getD v 0 = v) := by
      simp only [Finset.mem_filter, Finset.mem_range, not_and]
      intro _
      rw [hget _ hold, h.idem _ hy, if_pos rfl]
      exact hc
    rw [hfix, Finset.card_insert_of_not_mem hnot] at hcount
    omega
  · intro e1 h1
    simp only
    rcases List.mem_append.mp h1 with h2 | h2
    · intro hr
      have hr2 : Relation.ReflTransGen (fun a b => (edgeRel acc a b ∧ ¬ e1.joins a b) ∨
          (a = e.from_ ∧ b = e.to_) ∨ (a = e.to_ ∧ b = e.from_)) e1.from_ e1.to_ := by
        refine hr.mono ?_
        rintro a b ⟨h3, h4⟩
        rcases hnew a b h3 with h5 | h5
        · exact Or.inl ⟨h5, h4⟩
        · exact Or.inr h5
      have hmono : ∀ a b, Relation.ReflTransGen (fun a b => edgeRel acc a b ∧ ¬ e1.joins a b) a b →
          Relation.ReflTransGen (edgeRel acc) a b := fun a b hh => hh.mono (fun _ _ h3 => h3.1)
      have hedge1 : Relation.ReflTransGen (edgeRel acc) e1.from_ e1.to_ :=
        Relation.ReflTransGen.single ⟨e1, h2, Or.inl ⟨rfl, rfl⟩⟩
      rcases reach_insert hr2 with h3 | ⟨h3, h4⟩ | ⟨h3, h4⟩
      · exact h.forest e1 h2 h3
      · apply hxy_reach
        exact (reach_symm (edgeRel_symm _) (hmono _ _ h3)).trans
          (hedge1.trans (reach_symm (edgeRel_symm _) (hmono _ _ h4)))
      · apply hxy_reach
        exact (hmono _ _ h4).trans
          ((reach_symm (edgeRel_symm _) hedge1).trans (hmono _ _ h3))
    · rw [List.mem_singleton.mp h2]
      intro hr
      apply hxy_reach
      refine hr.mono ?_
      rintro a b ⟨h3, h4⟩
      rcases hnew a b h3 with h5 | ⟨h5, h6⟩ | ⟨h5, h6⟩
      · exact h5
      · exact absurd (Or.inl ⟨h5.symm, h6.symm⟩) h4
      · exact absurd (Or.inr ⟨h6.symm, h5.symm⟩) h4
  · simp only
    rw [List.pairwise_append]
    refine ⟨h.distinct, List.pairwise_singleton _ _, ?_⟩
    intro e1 h1 e2 h2
    rw [List.mem_singleton.mp h2]
    intro hj
    apply hxy_reach
    have hedge1 : Relation.ReflTransGen (edgeRel acc) e1.from_ e1.to_ :=
      Relation.ReflTransGen.single ⟨e1, h1, Or.inl ⟨rfl, rfl⟩⟩
    rcases hj with ⟨h3, h4⟩ | ⟨h3, h4⟩
    · rw [h3, h4]; exact hedge1
    · rw [h3, h4]; exact reach_symm (edgeRel_symm _) hedge1
  · intro a b hab hb hne
    simp only at hne
    have ha : a < n := by omega
    rw [hget a ha, hget b hb] at hne
    have hne2 : cs.getD a 0 ≠ cs.getD b 0 := by
      intro h1
      apply hne
      rw [h1]
    rcases List.mem_cons.mp (h.cross a b hab hb hne2) with h1 | h1
    · exfalso
      apply hne
      have h2 : e.from_ = a := by rw [← h1]
      have h3 : e.to_ = b := by rw [← h1]
      rw [← h2, ← h3, if_neg hc, if_pos rfl]
    · exact h1

theorem pairRel_symm (S : Finset (Nat × Nat)) : Symmetric (pairRel S) :=
  fun _ _ h => h.elim Or.inr Or.inl

/-- On a path between two vertices with different labels there is a last edge that leaves
the label of the start; the rest of the path avoids that label. -/
theorem exists_crossing {r : Nat → Nat → Prop} (c : Nat → Nat) {u v : Nat}
    (h : Relation.ReflTransGen r u v) (hne : c u ≠ c v) :
    ∃ p q, r p q ∧ c p = c u ∧ c q ≠ c u ∧
      Relation.ReflTransGen (fun a b => r a b ∧ c a ≠ c u ∧ c b ≠ c u) q v := by
  have key : ∀ a, Relation.ReflTransGen r a v →
      (Relation.ReflTransGen (fun a b => r a b ∧ c a ≠ c u ∧ c b ≠ c u) a v ∧ c a ≠ c u) ∨
      ∃ p q, r p q ∧ c p = c u ∧ c q ≠ c u ∧
        Relation.ReflTransGen (fun a b => r a b ∧ c a ≠ c u ∧ c b ≠ c u) q v := by
    intro a ha
    induction ha using Relation.ReflTransGen.head_induction_on with
    | refl => exact Or.inl ⟨Relation.ReflTransGen.refl, fun h1 => hne h1.symm⟩
    | head hab _ ih =>
      rcases ih with ⟨h1, h2⟩ | h1
      · rename_i a b _
        by_cases h3 : c a = c u
        · exact Or.inr ⟨a, b, hab, h3, h2, h1⟩
        · exact Or.inl ⟨Relation.ReflTransGen.head ⟨hab, h3, h2⟩ h1, h3⟩
      · exact Or.inr h1
  rcases key u h with ⟨_, h2⟩ | h1
  · exact absurd rfl h2
  · exact h1

theorem MInv.exchange_step [LinearOrderedSemiring W] {n : Nat} {m : Matrix W}
    {l : List (Edge W)} {e : Edge W} {st : List Nat × List (Edge W)}
    (h : KInv n m (e :: l) st)
    (he : e.from_ ≤ e.to_ ∧ e.to_ < n ∧ e.distance = entry m e.from_ e.to_)
    (hc : st.1.getD e.from_ 0 ≠ st.1.getD e.to_ 0)
    (hsorted : ∀ e1 ∈ l, e.distance ≤ e1.distance)
    (hM : MInv n m st.2) : MInv n m (st.2 ++ [e]) := by
  obtain ⟨cs, acc⟩ := st
  simp only at h hc hM ⊢
  have hx : e.from_ < n := by omega
  have hy : e.to_ < n := he.2.1
  have hreach := h.reach
  simp only at hreach
  intro S hS
  obtain ⟨S1, hS1, hsub, hw⟩ := hM S hS
  by_cases hmem : (e.from_, e.to_) ∈ S1
  · refine ⟨S1, hS1, ?_, hw⟩
    intro e1 h1
    rcases List.mem_append.mp h1 with h2 | h2
    · exact hsub e1 h2
    · rw [List.mem_singleton.mp h2]; exact hmem
  · obtain ⟨p, q, hpq, hcp, hcq, havoid⟩ :=
      exists_crossing (fun v => cs.getD v 0) (hS1.2 _ _ hx hy) hc
    -- the crossing edge in its stored direction
    obtain ⟨f, hf, hfj⟩ : ∃ f ∈ S1, (f = (p, q) ∨ f = (q, p)) := by
      rcases hpq with h1 | h1
      · exact ⟨_, h1, Or.inl rfl⟩
      · exact ⟨_, h1, Or.inr rfl⟩
    have hfwf := hS1.1 f hf
    have hp : p < n := by rcases hfj with rfl | rfl <;> simp only at hfwf <;> omega
    have hq : q < n := by rcases hfj with rfl | rfl <;> simp only at hfwf <;> omega
    have hfc : cs.getD f.1 0 ≠ cs.getD f.2 0 := by
      rcases hfj with rfl | rfl
      · simp only; rw [hcp]; exact fun h1 => hcq h1.symm
      · simp only; rw [hcp]; exact hcq
    have hfl : (⟨f.1, f.2, entry m f.1 f.2⟩ : Edge W) ∈ l := by
      rcases List.mem_cons.mp (h.cross f.1 f.2 hfwf.1 hfwf.2 hfc) with h1 | h1
      · exfalso
        apply hmem
        have h2 : e.from_ = f.1 := by rw [← h1]
        have h3 : e.to_ = f.2 := by rw [← h1]
        rw [h2, h3]; exact hf
      · exact h1
    have hle : entry m e.from_ e.to_ ≤ entry m f.1 f.2 := by
      have := hsorted _ hfl
      rw [he.2.2] at this
      exact this
    have hacc : ∀ e1 ∈ acc, (e1.from_, e1.to_) ∈ S1.erase f := by
      intro e1 h1
      refine Finset.mem_erase.mpr ⟨?_, hsub e1 h1⟩
      intro h2
      apply hfc
      have h3 := h.wf e1 h1
      have h4 : Relation.ReflTransGen (edgeRel acc) e1.from_ e1.to_ :=
        Relation.ReflTransGen.single ⟨e1, h1, Or.inl ⟨rfl, rfl⟩⟩
      have h5 := (hreach _ _ (by omega) h3.2.1).mpr h4
      rw [← h2]
      exact h5
    refine ⟨insert (e.from_, e.to_) (S1.erase f), ⟨?_, ?_⟩, ?_, ?_⟩
    · intro p1 h1
      rcases Finset.mem_insert.mp h1 with h2 | h2
      · rw [h2]
        simp only
        refine ⟨?_, hy⟩
        rcases Nat.lt_or_ge e.from_ e.to_ with h3 | h3
        · exact h3
        · exfalso; apply hc; rw [Nat.le_antisymm he.1 h3]
      · exact hS1.1 p1 (Finset.mem_of_mem_erase h2)
    · -- connectivity after the exchange
      set S2 := insert (e.from_, e.to_) (S1.erase f) with hS2
      have hkeep : ∀ a b, pairRel S1 a b → ¬ (f = (a, b) ∨ f = (b, a)) → pairRel S2 a b := by
        intro a b h1 h2
        rcases h1 with h1 | h1
        · exact Or.inl (Finset.mem_insert_of_mem
            (Finset.mem_erase.mpr ⟨fun h3 => h2 (Or.inl h3.symm), h1⟩))
        · exact Or.inr (Finset.mem_insert_of_mem
            (Finset.mem_erase.mpr ⟨fun h3 => h2 (Or.inr h3.symm), h1⟩))
      have r1 : Relation.ReflTransGen (pairRel S2) p e.from_ := by
        have := (hreach p e.from_ hp hx).mp hcp
        refine this.mono ?_
        rintro a b ⟨e1, h1, h2⟩
        have h3 : (e1.from_, e1.to_) ∈ S2 := Finset.mem_insert_of_mem (hacc e1 h1)
        rcases h2 with ⟨h4, h5⟩ | ⟨h4, h5⟩
        · left; rw [← h4, ← h5]; exact h3
        · right; rw [← h4, ← h5]; exact h3
      have r2 : Relation.ReflTransGen (pairRel S2) e.from_ e.to_ :=
        Relation.ReflTransGen.single (Or.inl (Finset.mem_insert_self _ _))
      have r3 : Relation.ReflTransGen (pairRel S2) q e.to_ := by
        refine havoid.mono ?_
        rintro a b ⟨h1, h2, h3⟩
        refine hkeep a b h1 ?_
        rintro (h4 | h4)
        · rcases hfj with h5 | h5
          · rw [h5] at h4
            exact h2 (by rw [← (Prod.mk.inj h4).1]; exact hcp)
          · rw [h5] at h4
            exact h3 (by rw [← (Prod.mk.inj h4).2]; exact hcp)
        · rcases hfj with h5 | h5
          · rw [h5] at h4
            exact h3 (by rw [← (Prod.mk.inj h4).1]; exact hcp)
          · rw [h5] at h4
            exact h2 (by rw [← (Prod.mk.inj h4).2]; exact hcp)
      have rpq : Relation.ReflTransGen (pairRel S2) p q :=
        r1.trans (r2.trans (reach_symm (pairRel_symm _) r3))
      have hstep : ∀ a b, pairRel S1 a b → Relation.ReflTransGen (pairRel S2) a b := by
        intro a b h1
        by_cases h2 : f = (a, b) ∨ f = (b, a)
        · have h3 : (a = p ∧ b = q) ∨ (a = q ∧ b = p) := by
            rcases h2 with h2 | h2 <;> rcases hfj with h5 | h5 <;> rw [h5] at h2 <;>
              have h6 := Prod.mk.inj h2 <;> omega
          rcases h3 with ⟨rfl, rfl⟩ | ⟨rfl, rfl⟩
          · exact rpq
          · exact reach_symm (pairRel_symm _) rpq
        · exact Relation.ReflTransGen.single (hkeep a b h1 h2)
      have hall : ∀ u v, Relation.ReflTransGen (pairRel S1) u v →
          Relation.ReflTransGen (pairRel S2) u v := by
        intro u v huv
        induction huv with
        | refl => exact Relation.ReflTransGen.refl
        | tail _ hbc ih => exact ih.trans (hstep _ _ hbc)
      intro u v hu hv
      exact hall u v (hS1.2 u v hu hv)
    · intro e1 h1
      rcases List.mem_append.mp h1 with h2 | h2
      · exact Finset.mem_insert_of_mem (hacc e1 h2)
      · rw [List.mem_singleton.mp h2]; exact Finset.mem_insert_self _ _
    · have h1 : (e.from_, e.to_) ∉ S1.erase f := fun h2 => hmem (Finset.mem_of_mem_erase h2)
      have h2 : weight m (insert (e.from_, e.to_) (S1.erase f)) =
          entry m e.from_ e.to_ + weight m (S1.erase f) := by
        unfold weight
        rw [Finset.sum_insert h1]
      have h3 : weight m S1 = entry m f.1 f.2 + weight m (S1.erase f) := by
        unfold weight
        rw [Finset.add_sum_erase S1 (fun p => entry m p.1 p.2) hf]
      rw [h2]
      calc entry m e.from_ e.to_ + weight m (S1.erase f)
          ≤ entry m f.1 f.2 + weight m (S1.erase f) := add_le_add_right hle _
        _ = weight m S1 := h3.symm
        _ ≤ weight m S := hw

/-- The invariants at the end of the loop over a sorted edge list. -/
theorem kruskal_fold [LinearOrderedSemiring W] {n : Nat} {m : Matrix W} :
    ∀ (l : List (Edge W)) (st : List Nat × List (Edge W)),
      l.Pairwise (fun a b => a.distance ≤ b.distance) →
      (∀ e ∈ l, e.from_ ≤ e.to_ ∧ e.to_ < n ∧ e.distance = entry m e.from_ e.to_) →
      KInv n m l st → MInv n m st.2 →
      KInv n m [] (l.foldl Kruskal.kruskalStep st) ∧
        MInv n m (l.foldl Kruskal.kruskalStep st).2 := by
  intro l
  induction l with
  | nil => intro st _ _ h1 h2; exact ⟨h1, h2⟩
  | cons e l ih =>
    intro st hs hwf hK hM
    have he := hwf e (List.mem_cons_self _ _)
    have hs1 := List.pairwise_cons.mp hs
    rw [List.foldl_cons]
    by_cases hc : st.1.getD e.from_ 0 = st.1.getD e.to_ 0
    · have : Kruskal.kruskalStep st e = st := by
        unfold Kruskal.kruskalStep
        rw [if_neg (fun h => h hc)]
      rw [this]
      exact ih st hs1.2 (fun e1 h1 => hwf e1 (List.mem_cons_of_mem _ h1))
        (hK.reject_step hc) hM
    · have : Kruskal.kruskalStep st e =
          (Kruskal.relabel st.1 (st.1.getD e.to_ 0) (st.1.getD e.from_ 0), st.2 ++ [e]) := by
        unfold Kruskal.kruskalStep
        rw [if_pos hc]
      rw [this]
      exact ih _ hs1.2 (fun e1 h1 => hwf e1 (List.mem_cons_of_mem _ h1))
        (hK.accept_step he hc) (MInv.exchange_step hK he hc hs1.1 hM)

theorem mem_allEdges [Zero W] {n : Nat} {m : Matrix W} (hsq : IsSquare n m) (e : Edge W) :
    e ∈ Kruskal.allEdges m ↔
      e.from_ ≤ e.to_ ∧ e.to_ < n ∧ e.distance = entry m e.from_ e.to_ := by
  unfold Kruskal.allEdges
  simp only [List.mem_flatMap, List.mem_range, List.mem_map, List.mem_range'_1]
  constructor
  · rintro ⟨i, hi, j, ⟨hij, hj⟩, rfl⟩
    rw [hsq.1] at hi
    rw [hsq.2 i hi] at hj
    exact ⟨hij, show j < n by omega, rfl⟩
  · rintro ⟨h1, h2, h3⟩
    have hi : e.from_ < n := by omega
    refine ⟨e.from_, by rw [hsq.1]; exact hi, e.to_, ⟨h1, ?_⟩, ?_⟩
    · rw [hsq.2 _ hi]; omega
    · rw [← h3]

theorem sortEdges_perm [LinearOrder W] (l : List (Edge W)) : (Kruskal.sortEdges l).Perm l :=
  List.perm_insertionSort _ l

theorem sortEdges_sorted [LinearOrder W] (l : List (Edge W)) :
    (Kruskal.sortEdges l).Pairwise (fun a b => a.distance ≤ b.distance) := by
  have : IsTotal (Edge W) (fun a b => a.distance ≤ b.distance) :=
    ⟨fun a b => le_total a.distance b.distance⟩
  have : IsTrans (Edge W) (fun a b => a.distance ≤ b.distance) :=
    ⟨fun a b c h1 h2 => le_trans h1 h2⟩
  exact List.sorted_insertionSort (fun a b : Edge W => a.distance ≤ b.distance) l

theorem KInv.init [Zero W] {n : Nat} {m : Matrix W} (l : List (Edge W))
    (hl : ∀ a b, a < b → b < n → (⟨a, b, entry m a b⟩ : Edge W) ∈ l) :
    KInv n m l (List.range n, []) := by
  refine ⟨by simp, ?_, ?_, ?_, ?_, ?_, ?_, ?_, ?_⟩
  · intro v hv; simp only; rw [getD_range n v hv]; exact hv
  · intro v hv; simp only; rw [getD_range n v hv, getD_range n v hv]
  · intro u v hu hv
    simp only
    rw [getD_range n u hu, getD_range n v hv]
    constructor
    · rintro rfl; exact Relation.ReflTransGen.refl
    · intro h
      induction h with
      | refl => rfl
      | tail _ hbc _ =>
        obtain ⟨e, he, _⟩ := hbc
        simp at he
  · intro e he; simp at he
  · simp only [List.length_nil, Nat.zero_add]
    have : (Finset.range n).filter (fun v => (List.range n).getD v 0 = v) = Finset.range n := by
      apply Finset.filter_true_of_mem
      intro v hv
      exact getD_range n v (Finset.mem_range.mp hv)
    rw [this, Finset.card_range]
  · intro e he; simp at he
  · exact List.Pairwise.nil
  · intro a b hab hb _
    exact hl a b hab hb

theorem minEdges_spec [LinearOrderedSemiring W] {n : Nat} {m : Matrix W} (hsq : IsSquare n m)
    (hn : 1 ≤ n) : TreeEdges n m (Kruskal.minEdges m) := by
  have hmem : ∀ e ∈ Kruskal.sortEdges (Kruskal.allEdges m),
      e.from_ ≤ e.to_ ∧ e.to_ < n ∧ e.distance = entry m e.from_ e.to_ := by
    intro e he
    exact (mem_allEdges hsq e).mp ((sortEdges_perm _).mem_iff.mp he)
  have hinit : KInv n m (Kruskal.sortEdges (Kruskal.allEdges m)) (List.range n, []) := by
    apply KInv.init
    intro a b hab hb
    exact (sortEdges_perm _).mem_iff.mpr
      ((mem_allEdges hsq _).mpr ⟨Nat.le_of_lt hab, hb, rfl⟩)
  have hM0 : MInv n m ([] : List (Edge W)) := by
    intro S hS
    exact ⟨S, hS, by simp, le_refl _⟩
  have hlen : m.length = n := hsq.1
  obtain ⟨hK, hM⟩ := kruskal_fold _ _ (sortEdges_sorted _) hmem hinit hM0
  unfold Kruskal.minEdges
  rw [hlen]
  set st := List.foldl Kruskal.kruskalStep (List.range n, [])
    (Kruskal.sortEdges (Kruskal.allEdges m)) with hst
  have hsame : ∀ a b, a < n → b < n → st.1.getD a 0 = st.1.getD b 0 := by
    intro a b ha hb
    by_contra hne
    rcases Nat.lt_trichotomy a b with h1 | h1 | h1
    · have := hK.cross a b h1 hb hne
      simp at this
    · exact hne (by rw [h1])
    · have := hK.cross b a h1 ha (fun h => hne h.symm)
      simp at this
  have h0 : 0 < n := hn
  have hfix : (Finset.range n).filter (fun v => st.1.getD v 0 = v) = {st.1.getD 0 0} := by
    ext v
    simp only [Finset.mem_filter, Finset.mem_range, Finset.mem_singleton]
    constructor
    · rintro ⟨hv, h1⟩
      rw [← h1]
      exact hsame v 0 hv h0
    · intro h1
      rw [h1]
      exact ⟨hK.lt 0 h0, hK.idem 0 h0⟩
  have hcount := hK.count
  rw [hfix, Finset.card_singleton] at hcount
  exact ⟨hK.wf, hK.distinct, hcount, fun u v hu hv => (hK.reach u v hu hv).mp (hsame u v hu hv),
    hK.forest, hM⟩

theorem mem_upperPairs (n : Nat) (p : Nat × Nat) : p ∈ upperPairs n ↔ p.1 < p.2 ∧ p.2 < n := by
  unfold upperPairs
  simp only [Finset.mem_filter, Finset.mem_product, Finset.mem_range]
  omega

theorem reach_last {r : Nat → Nat → Prop} {u v : Nat} (h : Relation.ReflTransGen r u v)
    (hne : u ≠ v) : ∃ w, r w v := by
  cases h with
  | refl => exact absurd rfl hne
  | tail _ hbc => exact ⟨_, hbc⟩

theorem maxIdx_treeEdges [OrderedSemiring W] {n : Nat} {m : Matrix W} {K : List (Edge W)}
    (hK : TreeEdges n m K) (hn : 1 ≤ n) : maxIdx K + 1 = n := by
  have hle : maxIdx K ≤ n - 1 := by
    apply maxIdx_le
    intro e he
    have := hK.wf e he
    omega
  rcases Nat.lt_or_ge 1 n with h1 | h1
  · obtain ⟨w, e, he, hj⟩ := reach_last (hK.connected 0 (n - 1) (by omega) (by omega)) (by omega)
    have := le_maxIdx K e he
    rcases hj with ⟨_, h3⟩ | ⟨h2, _⟩ <;> omega
  · omega

/-- The entries of the matrix that `createCompleteGraph` builds from the tree edges. -/
theorem entry_tree [OrderedSemiring W] {n : Nat} {m : Matrix W} {K : List (Edge W)}
    (hK : TreeEdges n m K) (hn : 1 ≤ n) :
    IsSquare n (createCompleteGraph K) ∧
      (∀ e ∈ K, ∀ a b, e.joins a b → entry (createCompleteGraph K) a b = e.distance) ∧
      (∀ a b, (∀ e ∈ K, ¬ e.joins a b) → entry (createCompleteGraph K) a b = 0) := by
  have hmax := maxIdx_treeEdges hK hn
  have hlt : ∀ e ∈ K, e.from_ < n ∧ e.to_ < n := by
    intro e he
    have := hK.wf e he
    omega
  rw [createCompleteGraph_eq, hmax]
  refine ⟨isSquare_fillEdges K (isSquare_replicate n), ?_, ?_⟩
  · intro e he a b hj
    exact entry_fillEdges_of_mem K (isSquare_replicate n) hlt hK.distinct e he a b hj
  · intro a b hno
    rw [entry_fillEdges_of_not_mem K (isSquare_replicate n) hlt a b hno, entry_replicate]

theorem entry_tree_symm [OrderedSemiring W] {n : Nat} {m : Matrix W} {K : List (Edge W)}
    (hK : TreeEdges n m K) (hn : 1 ≤ n) (a b : Nat) :
    entry (createCompleteGraph K) a b = entry (createCompleteGraph K) b a := by
  obtain ⟨_, h1, h2⟩ := entry_tree hK hn
  by_cases h : ∃ e ∈ K, e.joins a b
  · obtain ⟨e, he, hj⟩ := h
    rw [h1 e he a b hj, h1 e he b a (Edge.joins_symm hj)]
  · have h3 : ∀ e ∈ K, ¬ e.joins a b := fun e he hj => h ⟨e, he, hj⟩
    rw [h2 a b h3, h2 b a (fun e he hj => h3 e he (Edge.joins_symm hj))]

theorem entry_tree_ne_zero [OrderedSemiring W] {n : Nat} {m : Matrix W} {K : List (Edge W)}
    (hK : TreeEdges n m K) (hn : 1 ≤ n)
    (hpos : ∀ a b, a < b → b < n → 0 < entry m a b) (a b : Nat) :
    entry (createCompleteGraph K) a b ≠ 0 ↔ edgeRel K a b := by
  obtain ⟨_, h1, h2⟩ := entry_tree hK hn
  constructor
  · intro h
    by_contra hno
    exact h (h2 a b (fun e he hj => hno ⟨e, he, hj⟩))
  · rintro ⟨e, he, hj⟩
    rw [h1 e he a b hj]
    have := hK.wf e he
    rw [this.2.2]
    exact ne_of_gt (hpos _ _ this.1 this.2.1)

theorem matrixGraph_tree_adj [OrderedSemiring W] {n : Nat} {m : Matrix W} {K : List (Edge W)}
    (hK : TreeEdges n m K) (hn : 1 ≤ n)
    (hpos : ∀ a b, a < b → b < n → 0 < entry m a b) (a b : Nat) :
    (matrixGraph (createCompleteGraph K)).Adj a b ↔ edgeRel K a b := by
  unfold matrixGraph
  rw [SimpleGraph.fromRel_adj, entry_tree_ne_zero hK hn hpos, entry_tree_ne_zero hK hn hpos]
  constructor
  · rintro ⟨_, h | h⟩
    · exact h
    · exact edgeRel_symm K h
  · intro h
    refine ⟨?_, Or.inl h⟩
    obtain ⟨e, he, hj⟩ := h
    have := hK.wf e he
    rcases hj with ⟨h1, h2⟩ | ⟨h1, h2⟩ <;> omega

theorem edgePairs_tree [OrderedSemiring W] [DecidableEq W] {n : Nat} {m : Matrix W}
    {K : List (Edge W)} (hK : TreeEdges n m K) (hn : 1 ≤ n)
    (hpos : ∀ a b, a < b → b < n → 0 < entry m a b) :
    edgePairs n (createCompleteGraph K) = (K.map fun e => (e.from_, e.to_)).toFinset := by
  ext p
  unfold edgePairs
  rw [Finset.mem_filter, mem_upperPairs, entry_tree_ne_zero hK hn hpos, List.mem_toFinset,
    List.mem_map]
  constructor
  · rintro ⟨⟨h1, _⟩, e, he, hj⟩
    refine ⟨e, he, ?_⟩
    have := hK.wf e he
    rcases hj with ⟨h3, h4⟩ | ⟨h3, h4⟩
    · rw [h3, h4]
    · omega
  · rintro ⟨e, he, rfl⟩
    have := hK.wf e he
    exact ⟨⟨this.1, this.2.1⟩, e, he, Or.inl ⟨rfl, rfl⟩⟩

theorem nodup_tree_pairs [OrderedSemiring W] {n : Nat} {m : Matrix W}
    {K : List (Edge W)} (hK : TreeEdges n m K) : (K.map fun e => (e.from_, e.to_)).Nodup := by
  unfold List.Nodup
  rw [List.pairwise_map]
  refine hK.distinct.imp ?_
  intro e1 e2 h heq
  apply h
  have h1 := (Prod.mk.inj heq).1
  have h2 := (Prod.mk.inj heq).2
  exact Or.inl ⟨h1.symm, h2.symm⟩

theorem card_edgePairs_tree [OrderedSemiring W] [DecidableEq W] {n : Nat} {m : Matrix W}
    {K : List (Edge W)} (hK : TreeEdges n m K) (hn : 1 ≤ n)
    (hpos : ∀ a b, a < b → b < n → 0 < entry m a b) :
    (edgePairs n (createCompleteGraph K)).card = n - 1 := by
  rw [edgePairs_tree hK hn hpos, List.toFinset_card_of_nodup (nodup_tree_pairs hK),
    List.length_map]
  have := hK.length
  omega

theorem reachable_tree [OrderedSemiring W] {n : Nat} {m : Matrix W} {K : List (Edge W)}
    (hK : TreeEdges n m K) (hn : 1 ≤ n)
    (hpos : ∀ a b, a < b → b < n → 0 < entry m a b) (u v : Nat) (hu : u < n) (hv : v < n) :
    (matrixGraph (createCompleteGraph K)).Reachable u v := by
  rw [SimpleGraph.reachable_iff_reflTransGen]
  refine (hK.connected u v hu hv).mono ?_
  intro a b h
  exact (matrixGraph_tree_adj hK hn hpos a b).mpr h

theorem acyclic_tree [OrderedSemiring W] {n : Nat} {m : Matrix W} {K : List (Edge W)}
    (hK : TreeEdges n m K) (hn : 1 ≤ n)
    (hpos : ∀ a b, a < b → b < n → 0 < entry m a b) :
    (matrixGraph (createCompleteGraph K)).IsAcyclic := by
  rw [SimpleGraph.isAcyclic_iff_forall_adj_isBridge]
  intro v w hvw
  rw [SimpleGraph.isBridge_iff]
  refine ⟨hvw, ?_⟩
  rw [SimpleGraph.reachable_iff_reflTransGen]
  obtain ⟨e, he, hj⟩ := (matrixGraph_tree_adj hK hn hpos v w).mp hvw
  intro hr
  have hr2 : Relation.ReflTransGen (fun a b => edgeRel K a b ∧ ¬ e.joins a b) v w := by
    refine hr.mono ?_
    intro a b hab
    rw [SimpleGraph.sdiff_adj, SimpleGraph.fromEdgeSet_adj] at hab
    refine ⟨(matrixGraph_tree_adj hK hn hpos a b).mp hab.1, ?_⟩
    intro hj2
    apply hab.2
    have hne : a ≠ b := by
      have := hK.wf e he
      rcases hj2 with ⟨h1, h2⟩ | ⟨h1, h2⟩ <;> omega
    refine ⟨?_, hne⟩
    rw [Set.mem_singleton_iff, Sym2.eq_iff]
    rcases hj with ⟨h1, h2⟩ | ⟨h1, h2⟩ <;> rcases hj2 with ⟨h3, h4⟩ | ⟨h3, h4⟩ <;> omega
  have hsymm : Symmetric (fun a b => edgeRel K a b ∧ ¬ e.joins a b) := by
    intro a b h
    exact ⟨edgeRel_symm K h.1, fun h2 => h.2 (Edge.joins_symm h2)⟩
  rcases hj with ⟨h1, h2⟩ | ⟨h1, h2⟩
  · rw [← h1, ← h2] at hr2
    exact hK.forest e he hr2
  · rw [← h1, ← h2] at hr2
    exact hK.forest e he (reach_symm hsymm hr2)

theorem IsDistanceMatrix.upper [OrderedSemiring W] {n : Nat} {m : Matrix W}
    (h : IsDistanceMatrix n m) : ∀ a b, a < b → b < n → 0 < entry m a b :=
  fun a b hab hb => h.pos a (by omega) b hb (by omega)

theorem tree_carries_weights [OrderedSemiring W] {n : Nat} {m : Matrix W} {K : List (Edge W)}
    (hK : TreeEdges n m K) (hn : 1 ≤ n)
    (hsym : ∀ a, a < n → ∀ b, b < n → entry m a b = entry m b a) (a b : Nat)
    (h : entry (createCompleteGraph K) a b ≠ 0) :
    entry (createCompleteGraph K) a b = entry m a b := by
  obtain ⟨_, h1, h2⟩ := entry_tree hK hn
  by_cases hex : ∃ e ∈ K, e.joins a b
  · obtain ⟨e, he, hj⟩ := hex
    rw [h1 e he a b hj]
    have hw := hK.wf e he
    rw [hw.2.2]
    rcases hj with ⟨h3, h4⟩ | ⟨h3, h4⟩
    · rw [h3, h4]
    · rw [h3, h4]
      exact hsym b (by omega) a (by omega)
  · exact absurd (h2 a b (fun e he hj => hex ⟨e, he, hj⟩)) h

theorem weight_tree [OrderedSemiring W] [DecidableEq W] {n : Nat} {m : Matrix W}
    {K : List (Edge W)} (hK : TreeEdges n m K) (hn : 1 ≤ n)
    (hsym : ∀ a, a < n → ∀ b, b < n → entry m a b = entry m b a) :
    weight (createCompleteGraph K) (upperPairs n) =
      weight m (edgePairs n (createCompleteGraph K)) := by
  unfold weight edgePairs
  rw [← Finset.sum_filter_ne_zero]
  apply Finset.sum_congr rfl
  intro p hp
  exact tree_carries_weights hK hn hsym p.1 p.2 (Finset.mem_filter.mp hp).2

theorem spanningTree_tree [OrderedSemiring W] [DecidableEq W] {n : Nat} {m : Matrix W}
    {K : List (Edge W)} (hK : TreeEdges n m K) (hn : 1 ≤ n)
    (hpos : ∀ a b, a < b → b < n → 0 < entry m a b) :
    IsSpanningTree n (edgePairs n (createCompleteGraph K)) := by
  rw [edgePairs_tree hK hn hpos]
  have hmem : ∀ a b, edgeRel K a b →
      pairRel (K.map fun e => (e.from_, e.to_)).toFinset a b := by
    rintro a b ⟨e, he, hj⟩
    have h1 : (e.from_, e.to_) ∈ (K.map fun e => (e.from_, e.to_)).toFinset :=
      List.mem_toFinset.mpr (List.mem_map.mpr ⟨e, he, rfl⟩)
    rcases hj with ⟨h3, h4⟩ | ⟨h3, h4⟩
    · left; rw [← h3, ← h4]; exact h1
    · right; rw [← h3, ← h4]; exact h1
  refine ⟨⟨?_, ?_⟩, ?_⟩
  · intro p hp
    obtain ⟨e, he, rfl⟩ := List.mem_map.mp (List.mem_toFinset.mp hp)
    have := hK.wf e he
    exact ⟨this.1, this.2.1⟩
  · intro u v hu hv
    exact (hK.connected u v hu hv).mono hmem
  · intro p hp hr
    obtain ⟨e, he, rfl⟩ := List.mem_map.mp (List.mem_toFinset.mp hp)
    apply hK.forest e he
    refine hr.mono ?_
    have hone : ∀ a b, (a, b) ∈ ((K.map fun e => (e.from_, e.to_)).toFinset.erase
        (e.from_, e.to_)) → edgeRel K a b ∧ ¬ e.joins a b := by
      intro a b hab
      obtain ⟨hne, hab⟩ := Finset.mem_erase.mp hab
      obtain ⟨e1, he1, h1⟩ := List.mem_map.mp (List.mem_toFinset.mp hab)
      have h2 := (Prod.mk.inj h1).1
      have h3 := (Prod.mk.inj h1).2
      refine ⟨⟨e1, he1, Or.inl ⟨h2, h3⟩⟩, ?_⟩
      have hw := hK.wf e he
      have hw1 := hK.wf e1 he1
      rintro (⟨h4, h5⟩ | ⟨h4, h5⟩)
      · exact hne (by rw [h4, h5])
      · omega
    intro a b hab
    rcases hab with hab | hab
    · exact hone a b hab
    · have := hone b a hab
      exact ⟨edgeRel_symm K this.1, fun hj => this.2 (Edge.joins_symm hj)⟩

theorem weight_tree_le [OrderedSemiring W] [DecidableEq W] {n : Nat} {m : Matrix W}
    {K : List (Edge W)} (hK : TreeEdges n m K) (hn : 1 ≤ n)
    (hpos : ∀ a b, a < b → b < n → 0 < entry m a b) (S : Finset (Nat × Nat))
    (hS : Spans n S) : weight m (edgePairs n (createCompleteGraph K)) ≤ weight m S := by
  obtain ⟨S1, hS1, hsub, hw⟩ := hK.minimal S hS
  refine le_trans ?_ hw
  unfold weight
  apply Finset.sum_le_sum_of_subset_of_nonneg
  · intro p hp
    rw [edgePairs_tree hK hn hpos] at hp
    obtain ⟨e, he, rfl⟩ := List.mem_map.mp (List.mem_toFinset.mp hp)
    exact hsub e he
  · intro p hp _
    have := hS1.1 p hp
    exact le_of_lt (hpos _ _ this.1 this.2)

theorem usePair_comm (t i a b : Nat) : usePair t i a b = usePair i t a b := by
  unfold usePair; rw [Nat.add_comm]

theorem usePair_swap (t i a b : Nat) : usePair t i a b = usePair t i b a := by
  have h1 : (t = b ∧ i = a) ↔ (i = a ∧ t = b) := and_comm
  have h2 : (i = b ∧ t = a) ↔ (t = a ∧ i = b) := and_comm
  unfold usePair
  simp only [h1, h2]
  rw [Nat.add_comm]

theorem usePair_diag (t i a : Nat) : usePair t i a a = if t = a ∧ i = a then 2 else 0 := by
  unfold usePair
  by_cases h1 : t = a <;> by_cases h2 : i = a <;> simp [h1, h2]

theorem sum_usePair (n t i v : Nat) (ht : t < n) (hi : i < n) :
    ∑ b ∈ Finset.range n, usePair t i v b = useDeg t i v := by
  unfold usePair useDeg
  rw [Finset.sum_add_distrib]
  congr 1
  · by_cases h : t = v
    · simp [h, Finset.mem_range.mpr hi]
    · simp [h]
  · by_cases h : i = v
    · simp [h, Finset.mem_range.mpr ht]
    · simp [h]

theorem decEntry_eq (vc : List (List Nat)) (i j : Nat) :
    decEntry vc i j = setEntry vc i j ((entry vc i j + SIZE_MOD - 1) % SIZE_MOD) := rfl

theorem dec_mod (x : Nat) (h0 : x ≠ 0) (h1 : x < SIZE_MOD) :
    (x + SIZE_MOD - 1) % SIZE_MOD = x - 1 := by
  unfold SIZE_MOD at *
  omega

/-- The two decrements of a round that follows an edge `t - i`. -/
theorem decPair_spec {n : Nat} {vc : List (List Nat)} (h : TableOK n vc) {t i : Nat}
    (ht : t < n) (hi : i < n) (hne : entry vc t i ≠ 0) :
    TableOK n (decEntry (decEntry vc t i) i t) ∧
      ∀ a b, entry vc a b = entry (decEntry (decEntry vc t i) i t) a b + usePair t i a b := by
  have hsq1 : IsSquare n (decEntry vc t i) := by
    rw [decEntry_eq]; exact isSquare_setEntry h.square _ _ _
  have hsq2 : IsSquare n (decEntry (decEntry vc t i) i t) := by
    rw [decEntry_eq (decEntry vc t i)]; exact isSquare_setEntry hsq1 _ _ _
  have e1 : ∀ a b, entry (decEntry vc t i) a b =
      if t = a ∧ i = b then entry vc t i - 1 else entry vc a b := by
    intro a b
    rw [decEntry_eq, entry_setEntry h.square _ _ _ ht hi, dec_mod _ hne (h.bound _ _)]
  have hne2 : entry (decEntry vc t i) i t ≠ 0 := by
    rw [e1]
    by_cases hti : t = i
    · subst hti
      rw [if_pos ⟨rfl, rfl⟩]
      obtain ⟨k, hk⟩ := h.diag t
      omega
    · rw [if_neg (fun hh => hti hh.1), h.symm]
      exact hne
  have hb2 : entry (decEntry vc t i) i t < SIZE_MOD := by
    rw [e1]
    split
    · have := h.bound t i; omega
    · exact h.bound _ _
  have e2 : ∀ a b, entry (decEntry (decEntry vc t i) i t) a b =
      if i = a ∧ t = b then entry (decEntry vc t i) i t - 1 else entry (decEntry vc t i) a b := by
    intro a b
    rw [decEntry_eq (decEntry vc t i), entry_setEntry hsq1 _ _ _ hi ht, dec_mod _ hne2 hb2]
  have key : ∀ a b, entry vc a b = entry (decEntry (decEntry vc t i) i t) a b + usePair t i a b := by
    intro a b
    rw [e2, e1, e1]
    unfold usePair
    have hsym := h.symm t i
    have hpos : 0 < entry vc t i := Nat.pos_of_ne_zero hne
    by_cases hA : t = a ∧ i = b
    · obtain ⟨rfl, rfl⟩ := hA
      by_cases hti : t = i
      · subst hti
        obtain ⟨k, hk⟩ := h.diag t
        simp only [and_self, if_true]
        omega
      · have hit : ¬ (i = t) := fun hh => hti hh.symm
        simp only [hti, hit, and_self, and_false, false_and, if_true, if_false]
        omega
    · by_cases hB : i = a ∧ t = b
      · obtain ⟨rfl, rfl⟩ := hB
        have hti : ¬ (t = i) := fun hh => hA ⟨hh, hh.symm⟩
        have hit : ¬ (i = t) := fun hh => hti hh.symm
        simp only [hti, hit, and_self, and_false, false_and, if_true, if_false]
        omega
      · simp only [hA, hB, if_false]
        omega
  refine ⟨⟨hsq2, ?_, ?_, ?_⟩, key⟩
  · intro a b
    have k1 := key a b
    have k2 := key b a
    rw [usePair_swap t i b a, h.symm b a] at k2
    omega
  · intro a b
    have := key a b
    have := h.bound a b
    omega
  · intro a
    have k1 := key a a
    obtain ⟨k, hk⟩ := h.diag a
    rw [usePair_diag] at k1
    split at k1
    · exact ⟨k - 1, by omega⟩
    · exact ⟨k, by omega⟩

theorem rowSum_dec {n : Nat} {vc vc2 : List (List Nat)} {t i : Nat} (ht : t < n) (hi : i < n)
    (h : ∀ a b, entry vc a b = entry vc2 a b + usePair t i a b) (v : Nat) :
    rowSum n vc v = rowSum n vc2 v + useDeg t i v := by
  unfold rowSum
  rw [← sum_usePair n t i v ht hi, ← Finset.sum_add_distrib]
  exact Finset.sum_congr rfl (fun b _ => h v b)

theorem total_dec {n : Nat} {vc vc2 : List (List Nat)} {t i : Nat} (ht : t < n) (hi : i < n)
    (h : ∀ a b, entry vc a b = entry vc2 a b + usePair t i a b) :
    total n vc = total n vc2 + 2 := by
  unfold total
  have : ∑ a ∈ Finset.range n, useDeg t i a = 2 := by
    unfold useDeg
    rw [Finset.sum_add_distrib]
    simp [Finset.mem_range.mpr ht, Finset.mem_range.mpr hi]
  rw [← this, ← Finset.sum_add_distrib]
  exact Finset.sum_congr rfl (fun a _ => rowSum_dec ht hi h a)

/-- The scan of a row for its first non-zero entry. -/
theorem scan_spec {n : Nat} {vc : List (List Nat)} (hsq : IsSquare n vc) {v : Nat} (hv : v < n) :
    ((vc.getD v []).findIdx (fun c => c != 0) = (vc.getD v []).length →
        ∀ b, entry vc v b = 0) ∧
    ((vc.getD v []).findIdx (fun c => c != 0) ≠ (vc.getD v []).length →
        (vc.getD v []).findIdx (fun c => c != 0) < n ∧
        entry vc v ((vc.getD v []).findIdx (fun c => c != 0)) ≠ 0) := by
  have hlen := hsq.2 v hv
  constructor
  · intro h b
    unfold entry
    by_cases hb : b < (vc.getD v []).length
    · rw [List.getD_eq_getElem _ _ hb]
      have := @List.not_of_lt_findIdx Nat (fun c => c != 0) (vc.getD v []) b
        (by rw [h]; exact hb)
      simpa using this
    · exact List.getD_eq_default _ _ (by omega)
  · intro h
    have hlt : (vc.getD v []).findIdx (fun c => c != 0) < (vc.getD v []).length :=
      lt_of_le_of_ne (List.findIdx_le_length _) h
    refine ⟨by rw [← hlen]; exact hlt, ?_⟩
    unfold entry
    rw [List.getD_eq_getElem _ _ hlt]
    have := @List.findIdx_getElem Nat (fun c => c != 0) (vc.getD v []) hlt
    simpa using this

theorem eulerLoop_nil (fuel : Nat) (vc : List (List Nat)) (path : List Nat) :
    eulerLoop (fuel + 1) vc [] path = some path := rfl

theorem eulerLoop_pop (fuel : Nat) (vc : List (List Nat)) (v : Nat) (stack path : List Nat)
    (h : (vc.getD v []).findIdx (fun c => c != 0) = (vc.getD v []).length) :
    eulerLoop (fuel + 1) vc (v :: stack) path = eulerLoop fuel vc stack (path ++ [v]) := by
  simp only [eulerLoop]
  rw [if_pos h]

theorem eulerLoop_push (fuel : Nat) (vc : List (List Nat)) (v : Nat) (stack path : List Nat)
    (h : (vc.getD v []).findIdx (fun c => c != 0) ≠ (vc.getD v []).length) :
    eulerLoop (fuel + 1) vc (v :: stack) path =
      eulerLoop fuel
        (decEntry (decEntry vc v ((vc.getD v []).findIdx (fun c => c != 0)))
          ((vc.getD v []).findIdx (fun c => c != 0)) v)
        ((vc.getD v []).findIdx (fun c => c != 0) :: v :: stack) path := by
  simp only [eulerLoop]
  rw [if_neg h]

/-- More fuel does not change a result. -/
theorem eulerLoop_mono : ∀ (fuel k : Nat) (vc : List (List Nat)) (stack path p : List Nat),
    eulerLoop fuel vc stack path = some p → eulerLoop (fuel + k) vc stack path = some p := by
  intro fuel
  induction fuel with
  | zero => intro k vc stack path p h; simp [eulerLoop] at h
  | succ fuel ih =>
    intro k vc stack path p h
    cases stack with
    | nil =>
      rw [show fuel + 1 + k = (fuel + k) + 1 by omega]
      rw [eulerLoop_nil] at h ⊢
      exact h
    | cons v stack =>
      rw [show fuel + 1 + k = (fuel + k) + 1 by omega]
      by_cases hs : (vc.getD v []).findIdx (fun c => c != 0) = (vc.getD v []).length
      · rw [eulerLoop_pop _ _ _ _ _ hs] at h ⊢
        exact ih k _ _ _ _ h
      · rw [eulerLoop_push _ _ _ _ _ hs] at h ⊢
        exact ih k _ _ _ _ h

/-- The loop of `getEulerPath` ends, and every property that its two kinds of rounds keep
holds at the end. -/
theorem eulerLoop_run (n : Nat) (I : List (List Nat) → List Nat → List Nat → Prop)
    (hpop : ∀ vc v st p, TableOK n vc → (∀ x ∈ v :: st, x < n) → I vc (v :: st) p →
      (∀ b, entry vc v b = 0) → I vc st (p ++ [v]))
    (hpush : ∀ vc v st p i vc2, TableOK n vc → (∀ x ∈ v :: st, x < n) → I vc (v :: st) p →
      i < n → entry vc v i ≠ 0 → TableOK n vc2 →
      (∀ a b, entry vc a b = entry vc2 a b + usePair v i a b) → I vc2 (i :: v :: st) p) :
    ∀ (fuel : Nat) (vc : List (List Nat)) (stack path : List Nat),
      TableOK n vc → (∀ x ∈ stack, x < n) → I vc stack path →
      total n vc + stack.length < fuel →
      ∃ vcf p, eulerLoop fuel vc stack path = some p ∧ I vcf [] p ∧ TableOK n vcf := by
  intro fuel
  induction fuel with
  | zero => intro vc stack path _ _ _ h; omega
  | succ fuel ih =>
    intro vc stack path hT hst hI hfuel
    cases stack with
    | nil => exact ⟨vc, path, rfl, hI, hT⟩
    | cons v stack =>
      have hv : v < n := hst v (List.mem_cons_self _ _)
      obtain ⟨s1, s2⟩ := scan_spec hT.square hv
      by_cases hs : (vc.getD v []).findIdx (fun c => c != 0) = (vc.getD v []).length
      · rw [eulerLoop_pop _ _ _ _ _ hs]
        apply ih vc stack (path ++ [v]) hT (fun x hx => hst x (List.mem_cons_of_mem _ hx))
          (hpop vc v stack path hT hst hI (s1 hs))
        simp only [List.length_cons] at hfuel
        omega
      · rw [eulerLoop_push _ _ _ _ _ hs]
        obtain ⟨hi, hne⟩ := s2 hs
        obtain ⟨hT2, hrel⟩ := decPair_spec hT hv hi hne
        apply ih _ _ path hT2
        · intro x hx
          rcases List.mem_cons.mp hx with rfl | hx
          · exact hi
          · exact hst x hx
        · exact hpush vc v stack path _ _ hT hst hI hi hne hT2 hrel
        · have := total_dec hv hi hrel
          simp only [List.length_cons] at hfuel ⊢
          omega

theorem usePair_ne_zero {t i a b : Nat} (h : usePair t i a b ≠ 0) :
    (a = t ∧ b = i) ∨ (a = i ∧ b = t) := by
  unfold usePair at h
  by_cases h1 : t = a ∧ i = b
  · exact Or.inl ⟨h1.1.symm, h1.2.symm⟩
  · by_cases h2 : i = a ∧ t = b
    · exact Or.inr ⟨h2.1.symm, h2.2.symm⟩
    · simp [h1, h2] at h

theorem ICov.cov_pop {n : Nat} {g0 : Nat → Nat → Nat} {vc : List (List Nat)} {v : Nat}
    {st p : List Nat} (hst : ∀ x ∈ v :: st, x < n) (h : ICov n g0 vc (v :: st) p)
    (hz : ∀ b, entry vc v b = 0) : ICov n g0 vc st (p ++ [v]) := by
  have hmem : ∀ x, (x ∈ v :: st ∨ x ∈ p) → (x ∈ st ∨ x ∈ p ++ [v]) := by
    intro x hx
    rcases hx with hx | hx
    · rcases List.mem_cons.mp hx with rfl | hx
      · exact Or.inr (List.mem_append_right _ (List.mem_singleton_self _))
      · exact Or.inl hx
    · exact Or.inr (List.mem_append_left _ hx)
  have hmem2 : ∀ x, (x ∈ st ∨ x ∈ p ++ [v]) → (x ∈ v :: st ∨ x ∈ p) := by
    intro x hx
    rcases hx with hx | hx
    · exact Or.inl (List.mem_cons_of_mem _ hx)
    · rcases List.mem_append.mp hx with hx | hx
      · exact Or.inr hx
      · exact Or.inl (by rw [List.mem_singleton.mp hx]; exact List.mem_cons_self _ _)
  refine ⟨?_, ?_, h.le, hmem 0 h.start, fun x hx => h.reach x (hmem2 x hx), ?_, ?_⟩
  · intro x hx b
    rcases List.mem_append.mp hx with hx | hx
    · exact h.done x hx b
    · rw [List.mem_singleton.mp hx]; exact hz b
  · intro x y hxy
    exact ⟨hmem x (h.used x y hxy).1, hmem y (h.used x y hxy).2⟩
  · intro x hx
    rcases List.mem_append.mp hx with hx | hx
    · exact h.lt x hx
    · rw [List.mem_singleton.mp hx]; exact hst v (List.mem_cons_self _ _)
  · have := h.size
    simp only [List.length_append, List.length_cons, List.length_singleton, List.length_nil]
      at this ⊢
    omega

theorem ICov.cov_push {n : Nat} {g0 : Nat → Nat → Nat} {vc vc2 : List (List Nat)} {v i : Nat}
    {st p : List Nat} (hst : ∀ x ∈ v :: st, x < n) (h : ICov n g0 vc (v :: st) p)
    (hi : i < n) (hne : entry vc v i ≠ 0)
    (hrel : ∀ a b, entry vc a b = entry vc2 a b + usePair v i a b) :
    ICov n g0 vc2 (i :: v :: st) p := by
  have hmem : ∀ x, (x ∈ v :: st ∨ x ∈ p) → (x ∈ i :: v :: st ∨ x ∈ p) := by
    intro x hx
    rcases hx with hx | hx
    · exact Or.inl (List.mem_cons_of_mem _ hx)
    · exact Or.inr hx
  have hvmem : v ∈ i :: v :: st := List.mem_cons_of_mem _ (List.mem_cons_self _ _)
  have himem : i ∈ i :: v :: st := List.mem_cons_self _ _
  refine ⟨?_, ?_, ?_, hmem 0 h.start, ?_, h.lt, ?_⟩
  · intro x hx b
    have := h.done x hx b
    have := hrel x b
    omega
  · intro x y hxy
    by_cases h1 : entry vc x y = g0 x y
    · have h2 : usePair v i x y ≠ 0 := by
        have := hrel x y
        omega
      rcases usePair_ne_zero h2 with ⟨rfl, rfl⟩ | ⟨rfl, rfl⟩
      · exact ⟨Or.inl hvmem, Or.inl himem⟩
      · exact ⟨Or.inl himem, Or.inl hvmem⟩
    · exact ⟨hmem x (h.used x y h1).1, hmem y (h.used x y h1).2⟩
  · intro x y
    have := h.le x y
    have := hrel x y
    omega
  · intro x hx
    rcases hx with hx | hx
    · rcases List.mem_cons.mp hx with rfl | hx
      · have hv := h.reach v (Or.inl (List.mem_cons_self _ _))
        refine hv.tail ?_
        have := h.le v x
        show g0 v x ≠ 0
        omega
      · exact h.reach x (Or.inl hx)
    · exact h.reach x (Or.inr hx)
  · have := h.size
    have := total_dec (hst v (List.mem_cons_self _ _)) hi hrel
    simp only [List.length_cons] at *
    omega

/-- The walk returned from a table that is symmetric: it visits exactly the vertices that can
be reached from vertex `0`, and uses exactly the edges between them. -/
theorem eulerLoop_cover {n : Nat} {vc : List (List Nat)} (hT : TableOK n vc) (hn : 0 < n) :
    ∃ p, (∀ fuel, total n vc + 1 < fuel → eulerLoop fuel vc [0] [] = some p) ∧
      (∀ v, v ∈ p ↔ Relation.ReflTransGen (fun a b => entry vc a b ≠ 0) 0 v) ∧
      (∀ v ∈ p, v < n) ∧
      2 * p.length = (∑ a ∈ (Finset.range n).filter (fun a => a ∈ p), rowSum n vc a) + 2 := by
  have h0 : ICov n (entry vc) vc [0] [] := by
    refine ⟨by simp, by simp, fun _ _ => le_refl _, Or.inl (List.mem_singleton_self _), ?_,
      by simp, ?_⟩
    · intro v hv
      rcases hv with hv | hv
      · rw [List.mem_singleton.mp hv]
      · simp at hv
    · simp only [List.length_nil, List.length_singleton]
      unfold total rowSum
      omega
  have hst0 : ∀ x ∈ [0], x < n := by
    intro x hx
    rw [List.mem_singleton.mp hx]; exact hn
  obtain ⟨vcf, p, hrun, hI, hTf⟩ := eulerLoop_run n (ICov n (entry vc))
    (fun vc1 v st p1 _ hst hI hz => hI.cov_pop hst hz)
    (fun vc1 v st p1 i vc2 _ hst hI hi hne _ hrel => hI.cov_push hst hi hne hrel)
    (total n vc + 2) vc [0] [] hT hst0 h0 (by simp)
  have hstart : 0 ∈ p := by
    rcases hI.start with h | h
    · simp at h
    · exact h
  have hclosed : ∀ x y, x ∈ p → entry vc x y ≠ 0 → y ∈ p := by
    intro x y hx hxy
    have h1 := hI.done x hx y
    have h2 : entry vcf x y ≠ entry vc x y := by omega
    rcases (hI.used x y h2).2 with h | h
    · simp at h
    · exact h
  have hmem : ∀ v, v ∈ p ↔ Relation.ReflTransGen (fun a b => entry vc a b ≠ 0) 0 v := by
    intro v
    constructor
    · intro hv
      exact hI.reach v (Or.inr hv)
    · intro hv
      induction hv with
      | refl => exact hstart
      | tail _ hbc ih => exact hclosed _ _ ih hbc
  refine ⟨p, ?_, hmem, hI.lt, ?_⟩
  · intro fuel hfuel
    obtain ⟨k, rfl⟩ : ∃ k, fuel = total n vc + 2 + k := ⟨fuel - (total n vc + 2), by omega⟩
    exact eulerLoop_mono _ k _ _ _ _ hrun
  · -- the entries that are left lie in rows outside of the walk and are untouched
    have hrest : ∀ a b, entry vcf a b = if a ∈ p then 0 else entry vc a b := by
      intro a b
      split
      · next ha => exact hI.done a ha b
      · next ha =>
        by_contra hne
        rcases (hI.used a b hne).1 with h | h
        · simp at h
        · exact ha h
    have hsize := hI.size
    simp only [List.length_nil, Nat.add_zero] at hsize
    have htot : total n vcf + ∑ a ∈ (Finset.range n).filter (fun a => a ∈ p), rowSum n vc a =
        ∑ a ∈ Finset.range n, ∑ b ∈ Finset.range n, entry vc a b := by
      unfold total rowSum
      rw [Finset.sum_filter, ← Finset.sum_add_distrib]
      apply Finset.sum_congr rfl
      intro a _
      by_cases ha : a ∈ p
      · rw [if_pos ha]
        have : ∑ b ∈ Finset.range n, entry vcf a b = 0 := by
          apply Finset.sum_eq_zero
          intro b _
          rw [hrest, if_pos ha]
        omega
      · rw [if_neg ha]
        have : ∑ b ∈ Finset.range n, entry vcf a b = ∑ b ∈ Finset.range n, entry vc a b := by
          apply Finset.sum_congr rfl
          intro b _
          rw [hrest, if_neg ha]
        omega
    omega

theorem ucount_cons_cons (x y : Nat) (rest : List Nat) (a b : Nat) :
    ucount (x :: y :: rest) a b = usePair x y a b + ucount (y :: rest) a b := rfl

theorem ucount_single (x a b : Nat) : ucount [x] a b = 0 := rfl

theorem ucount_nil (a b : Nat) : ucount [] a b = 0 := rfl

theorem ucount_append (l1 : List Nat) (x : Nat) (l2 : List Nat) (a b : Nat) :
    ucount (l1 ++ x :: l2) a b = ucount (l1 ++ [x]) a b + ucount (x :: l2) a b := by
  induction l1 with
  | nil => simp [ucount_single]
  | cons y l1 ih =>
    cases l1 with
    | nil =>
      simp only [List.cons_append, List.nil_append, ucount_cons_cons, ucount_single]
      omega
    | cons z l1 =>
      simp only [List.cons_append, ucount_cons_cons] at ih ⊢
      omega

theorem IEul.eul_pop {n : Nat} {g0 : Nat → Nat → Nat} {vc : List (List Nat)} {v : Nat}
    {st p : List Nat} (h : IEul n g0 vc (v :: st) p)
    (hz : ∀ b, entry vc v b = 0) : IEul n g0 vc st (p ++ [v]) := by
  obtain ⟨S2, S1, hsplit, hemp, hacct, hpar⟩ := h
  cases S1 with
  | nil =>
    have := hemp rfl
    subst this
    simp at hsplit
  | cons a S1 =>
    have hrow : rowSum n vc v = 0 := by
      unfold rowSum
      exact Finset.sum_eq_zero (fun b _ => hz b)
    have hva : v = a := by
      by_contra hne
      have := (hpar v).mpr ⟨by simpa using hne, Or.inl (by simp)⟩
      rw [hrow] at this
      exact absurd this (by decide)
    subst hva
    refine ⟨[], st, rfl, fun _ => rfl, ?_, ?_⟩
    · intro x y
      rw [hacct x y]
      have h1 : ucount ([] ++ List.take 1 st) x y = 0 := by
        cases st with
        | nil => rfl
        | cons s st => rfl
      rw [h1]
      have h2 : ucount (p ++ [v] ++ st) x y =
          ucount (p ++ v :: S1) x y + ucount (S2 ++ List.take 1 (v :: S1)) x y := by
        cases S2 with
        | nil =>
          simp only [List.nil_append, List.cons.injEq, true_and] at hsplit
          subst hsplit
          simp [ucount_single]
        | cons s S2 =>
          simp only [List.cons_append, List.cons.injEq] at hsplit
          obtain ⟨rfl, rfl⟩ := hsplit
          simp only [List.take_succ_cons, List.take_zero, List.append_assoc, List.cons_append,
            List.nil_append]
          rw [ucount_append p v (S2 ++ v :: S1), ucount_append p v S1]
          rw [show v :: (S2 ++ v :: S1) = (v :: S2) ++ v :: S1 by simp]
          rw [ucount_append (v :: S2) v S1]
          simp only [List.cons_append]
          omega
      omega
    · intro u
      have := hpar u
      simp only [List.head?_cons, ne_eq, not_true_eq_false, false_and, iff_false] at this ⊢
      exact this

theorem IEul.eul_push {n : Nat} {g0 : Nat → Nat → Nat} {vc vc2 : List (List Nat)} {v i : Nat}
    {st p : List Nat} (hv : v < n) (hi : i < n) (h : IEul n g0 vc (v :: st) p)
    (hrel : ∀ a b, entry vc a b = entry vc2 a b + usePair v i a b) :
    IEul n g0 vc2 (i :: v :: st) p := by
  obtain ⟨S2, S1, hsplit, hemp, hacct, hpar⟩ := h
  cases S1 with
  | nil =>
    have := hemp rfl
    subst this
    simp at hsplit
  | cons a S1 =>
    refine ⟨i :: S2, a :: S1, by rw [hsplit]; rfl, by simp, ?_, ?_⟩
    · intro x y
      rw [hacct x y, hrel x y]
      have h1 : ucount (i :: S2 ++ List.take 1 (a :: S1)) x y =
          usePair i v x y + ucount (S2 ++ List.take 1 (a :: S1)) x y := by
        cases S2 with
        | nil =>
          simp only [List.nil_append, List.cons.injEq] at hsplit
          obtain ⟨rfl, _⟩ := hsplit
          rfl
        | cons s S2 =>
          simp only [List.cons_append, List.cons.injEq] at hsplit
          obtain ⟨rfl, _⟩ := hsplit
          rfl
      rw [h1, usePair_comm i v]
      omega
    · intro u
      have h1 := hpar u
      have h2 := rowSum_dec hv hi hrel u
      simp only [List.head?_cons, ne_eq, Option.some.injEq] at h1 ⊢
      rw [Nat.odd_iff] at h1 ⊢
      unfold useDeg at h2
      split_ifs at h2 <;> omega

/-- The walk returned from a symmetric table in which every vertex has even degree and every
edge can be reached from vertex `0`: it runs along every edge exactly once. -/
theorem eulerLoop_euler {n : Nat} {vc : List (List Nat)} (hT : TableOK n vc) (hn : 0 < n)
    (heven : ∀ u, Even (rowSum n vc u))
    (hconn : ∀ a b, entry vc a b ≠ 0 →
      Relation.ReflTransGen (fun a b => entry vc a b ≠ 0) 0 a) :
    ∃ p, (∀ fuel, total n vc + 1 < fuel → eulerLoop fuel vc [0] [] = some p) ∧
      (∀ x y, ucount p x y = entry vc x y) ∧ 2 * p.length = total n vc + 2 := by
  have h0 : ICov n (entry vc) vc [0] [] := by
    refine ⟨by simp, by simp, fun _ _ => le_refl _, Or.inl (List.mem_singleton_self _), ?_,
      by simp, ?_⟩
    · intro v hv
      rcases hv with hv | hv
      · rw [List.mem_singleton.mp hv]
      · simp at hv
    · simp only [List.length_nil, List.length_singleton]
      unfold total rowSum
      omega
  have h1 : IEul n (entry vc) vc [0] [] := by
    refine ⟨[], [0], rfl, by simp, ?_, ?_⟩
    · intro x y
      simp [ucount_single]
    · intro u
      have := heven u
      rw [← Nat.not_odd_iff_even] at this
      simp [this]
  have hst0 : ∀ x ∈ [0], x < n := by
    intro x hx
    rw [List.mem_singleton.mp hx]; exact hn
  obtain ⟨vcf, p, hrun, ⟨hI, hE⟩, hTf⟩ := eulerLoop_run n
    (fun vc1 st p1 => ICov n (entry vc) vc1 st p1 ∧ IEul n (entry vc) vc1 st p1)
    (fun vc1 v st p1 _ hst hI hz => ⟨hI.1.cov_pop hst hz, hI.2.eul_pop hz⟩)
    (fun vc1 v st p1 i vc2 _ hst hI hi hne _ hrel =>
      ⟨hI.1.cov_push hst hi hne hrel, hI.2.eul_push (hst v (List.mem_cons_self _ _)) hi hrel⟩)
    (total n vc + 2) vc [0] [] hT hst0 ⟨h0, h1⟩ (by simp)
  have hstart : 0 ∈ p := by
    rcases hI.start with h | h
    · simp at h
    · exact h
  have hclosed : ∀ x y, x ∈ p → entry vc x y ≠ 0 → y ∈ p := by
    intro x y hx hxy
    have h1 := hI.done x hx y
    have h2 : entry vcf x y ≠ entry vc x y := by omega
    rcases (hI.used x y h2).2 with h | h
    · simp at h
    · exact h
  have hmem : ∀ v, Relation.ReflTransGen (fun a b => entry vc a b ≠ 0) 0 v → v ∈ p := by
    intro v hv
    induction hv with
    | refl => exact hstart
    | tail _ hbc ih => exact hclosed _ _ ih hbc
  have hzero : ∀ x y, entry vcf x y = 0 := by
    intro x y
    by_cases hxy : entry vc x y = 0
    · have := hI.le x y
      omega
    · exact hI.done x (hmem x (hconn x y hxy)) y
  refine ⟨p, ?_, ?_, ?_⟩
  · intro fuel hfuel
    obtain ⟨k, rfl⟩ : ∃ k, fuel = total n vc + 2 + k := ⟨fuel - (total n vc + 2), by omega⟩
    exact eulerLoop_mono _ k _ _ _ _ hrun
  · intro x y
    obtain ⟨S2, S1, hsplit, _, hacct, _⟩ := hE
    have hS1 : S1 = [] := by
      cases S2 with
      | nil => simpa using hsplit.symm
      | cons s S2 => simp at hsplit
    have hS2 : S2 = [] := by
      cases S2 with
      | nil => rfl
      | cons s S2 => simp at hsplit
    subst hS1; subst hS2
    have := hacct x y
    rw [hzero x y] at this
    simp only [List.append_nil, List.take_nil, List.nil_append, ucount_nil] at this
    omega
  · have hsize := hI.size
    have : total n vcf = 0 := by
      unfold total rowSum
      exact Finset.sum_eq_zero (fun a _ => Finset.sum_eq_zero (fun b _ => hzero a b))
    rw [this] at hsize
    simp only [List.length_nil, Nat.add_zero] at hsize
    unfold total rowSum
    omega

theorem dirCount_cons (e : Edge W) (es : List (Edge W)) (a b : Nat) :
    dirCount (e :: es) a b = dirCount es a b + if e.from_ = a ∧ e.to_ = b then 1 else 0 := by
  unfold dirCount
  rw [List.countP_cons]
  simp only [Bool.and_eq_true, beq_iff_eq]

theorem dirCount_le (es : List (Edge W)) (a b : Nat) : dirCount es a b ≤ es.length :=
  List.countP_le_length _

theorem incEntry_eq (vc : List (List Nat)) (i j : Nat) :
    incEntry vc i j = setEntry vc i j ((entry vc i j + 1) % SIZE_MOD) := rfl

theorem entry_foldl_inc (n : Nat) (es : List (Edge W)) :
    ∀ (r : List (List Nat)), IsSquare n r → (∀ e ∈ es, e.from_ < n ∧ e.to_ < n) →
      (∀ a b, entry r a b + dirCount es a b < SIZE_MOD) →
      IsSquare n (es.foldl (fun r e => incEntry r e.from_ e.to_) r) ∧
      ∀ a b, entry (es.foldl (fun r e => incEntry r e.from_ e.to_) r) a b =
        entry r a b + dirCount es a b := by
  induction es with
  | nil => intro r hr _ _; exact ⟨hr, fun a b => by simp [dirCount]⟩
  | cons e es ih =>
    intro r hr hlt hb
    have he := hlt e (List.mem_cons_self _ _)
    have hsq1 : IsSquare n (incEntry r e.from_ e.to_) := by
      rw [incEntry_eq]; exact isSquare_setEntry hr _ _ _
    have hent : ∀ a b, entry (incEntry r e.from_ e.to_) a b =
        entry r a b + if e.from_ = a ∧ e.to_ = b then 1 else 0 := by
      intro a b
      rw [incEntry_eq, entry_setEntry hr _ _ _ he.1 he.2]
      by_cases h : e.from_ = a ∧ e.to_ = b
      · rw [if_pos h, if_pos h]
        obtain ⟨rfl, rfl⟩ := h
        have := hb e.from_ e.to_
        rw [dirCount_cons, if_pos ⟨rfl, rfl⟩] at this
        exact Nat.mod_eq_of_lt (by omega)
      · rw [if_neg h, if_neg h]; rfl
    have := ih (incEntry r e.from_ e.to_) hsq1
      (fun e1 h1 => hlt e1 (List.mem_cons_of_mem _ h1))
      (by
        intro a b
        have := hb a b
        rw [dirCount_cons] at this
        rw [hent]
        omega)
    refine ⟨this.1, ?_⟩
    intro a b
    rw [List.foldl_cons, this.2 a b, hent, dirCount_cons]
    omega

theorem convertEdges_spec (edges : List (Edge W)) (hlen : edges.length < SIZE_MOD) :
    IsSquare (maxIdx edges + 1) (convertEdges edges) ∧
      ∀ a b, entry (convertEdges edges) a b = dirCount edges a b := by
  have := entry_foldl_inc (maxIdx edges + 1) edges
    (List.replicate (maxIdx edges + 1) (List.replicate (maxIdx edges + 1) 0))
    (isSquare_replicate _)
    (by
      intro e he
      have := le_maxIdx edges e he
      omega)
    (by
      intro a b
      rw [entry_replicate]
      have := dirCount_le edges a b
      omega)
  refine ⟨this.1, ?_⟩
  intro a b
  have h2 := this.2 a b
  rw [entry_replicate, Nat.zero_add] at h2
  exact h2

theorem sum_dirCount (n : Nat) (es : List (Edge W)) (hlt : ∀ e ∈ es, e.to_ < n) (v : Nat) :
    ∑ b ∈ Finset.range n, dirCount es v b = degreeOf es v := by
  induction es with
  | nil => simp [dirCount, degreeOf]
  | cons e es ih =>
    have he := hlt e (List.mem_cons_self _ _)
    simp only [dirCount_cons]
    rw [Finset.sum_add_distrib, ih (fun e1 h1 => hlt e1 (List.mem_cons_of_mem _ h1))]
    unfold degreeOf
    rw [List.countP_cons]
    congr 1
    by_cases h : e.from_ = v
    · simp [h, Finset.mem_range.mpr he]
    · simp [h]

theorem sum_degreeOf (n : Nat) (es : List (Edge W)) (hlt : ∀ e ∈ es, e.from_ < n) :
    ∑ a ∈ Finset.range n, degreeOf es a = es.length := by
  induction es with
  | nil => simp [degreeOf]
  | cons e es ih =>
    have he := hlt e (List.mem_cons_self _ _)
    unfold degreeOf at ih ⊢
    simp only [List.countP_cons, List.length_cons]
    rw [Finset.sum_add_distrib, ih (fun e1 h1 => hlt e1 (List.mem_cons_of_mem _ h1))]
    simp [Finset.mem_range.mpr he]

theorem dirCount_eq_zero (edges : List (Edge W)) (a b : Nat)
    (h : maxIdx edges < a ∨ maxIdx edges < b) : dirCount edges a b = 0 := by
  unfold dirCount
  rw [List.countP_eq_zero]
  intro e he
  have := le_maxIdx edges e he
  simp only [Bool.and_eq_true, beq_iff_eq]
  omega

theorem degreeOf_eq_zero (edges : List (Edge W)) (v : Nat) (h : maxIdx edges < v) :
    degreeOf edges v = 0 := by
  unfold degreeOf
  rw [List.countP_eq_zero]
  intro e he
  have := le_maxIdx edges e he
  simp only [beq_iff_eq]
  omega

theorem ListsBothDirections.all {edges : List (Edge W)} (h : ListsBothDirections edges) :
    (∀ a b, dirCount edges a b = dirCount edges b a) ∧ ∀ a, Even (dirCount edges a a) := by
  constructor
  · intro a b
    by_cases hab : a ≤ maxIdx edges ∧ b ≤ maxIdx edges
    · exact h.1 a hab.1 b hab.2
    · rw [dirCount_eq_zero edges a b (by omega), dirCount_eq_zero edges b a (by omega)]
  · intro a
    by_cases ha : a ≤ maxIdx edges
    · exact h.2 a ha
    · rw [dirCount_eq_zero edges a a (by omega)]
      exact ⟨0, rfl⟩

theorem walkPairs_cons_cons (x y : Nat) (rest : List Nat) :
    walkPairs (x :: y :: rest) = s(x, y) :: walkPairs (y :: rest) := rfl

theorem usePair_eq_sym2 (x y a b : Nat) :
    usePair x y a b = (if a = b then 2 else 1) * (if s(x, y) = s(a, b) then 1 else 0) := by
  unfold usePair
  by_cases hs : s(x, y) = s(a, b)
  · rw [if_pos hs]
    rw [Sym2.eq_iff] at hs
    split_ifs <;> omega
  · rw [if_neg hs]
    rw [Sym2.eq_iff] at hs
    split_ifs <;> omega

theorem ucount_eq_count (p : List Nat) (a b : Nat) :
    ucount p a b = (if a = b then 2 else 1) * (walkPairs p).count s(a, b) := by
  induction p with
  | nil => simp [ucount_nil, walkPairs]
  | cons x p ih =>
    cases p with
    | nil => simp [ucount_single, walkPairs]
    | cons y rest =>
      rw [ucount_cons_cons, walkPairs_cons_cons, List.count_cons, ih, usePair_eq_sym2,
        Nat.mul_add, Nat.add_comm]
      simp only [beq_iff_eq]

theorem count_edges_sym2 (edges : List (Edge W)) (a b : Nat) :
    (edges.map fun e => s(e.from_, e.to_)).count s(a, b) =
      if a = b then dirCount edges a a else dirCount edges a b + dirCount edges b a := by
  induction edges with
  | nil => simp [dirCount]
  | cons e es ih =>
    rw [List.map_cons, List.count_cons, ih]
    simp only [dirCount_cons, beq_iff_eq, Sym2.eq_iff]
    split_ifs <;> omega

theorem walkPairs_eq_edges (edges : List (Edge W)) (p : List Nat)
    (hsym : ∀ a b, dirCount edges a b = dirCount edges b a)
    (h : ∀ a b, ucount p a b = dirCount edges a b) :
    (Multiset.ofList (walkPairs p) + Multiset.ofList (walkPairs p) : Multiset (Sym2 Nat)) =
      Multiset.ofList (edges.map fun e => s(e.from_, e.to_)) := by
  rw [Multiset.ext]
  intro z
  induction z using Sym2.ind with
  | _ a b =>
    rw [Multiset.count_add, Multiset.coe_count, Multiset.coe_count, count_edges_sym2]
    have h1 := ucount_eq_count p a b
    rw [h a b] at h1
    by_cases hab : a = b
    · subst hab
      simp only [if_true] at h1 ⊢
      omega
    · simp only [hab, if_false] at h1 ⊢
      have := hsym a b
      omega

/-- The walk that `getEulerPath` returns for a connected edge list with even degrees. -/
theorem getEulerPath_euler (edges : List (Edge W)) (root : Nat)
    (hlen : edges.length < SIZE_MOD) (hboth : ListsBothDirections edges)
    (hconn : ∀ e ∈ edges, Relation.ReflTransGen (edgeRel edges) 0 e.from_)
    (heven : ∀ v, v ≤ maxIdx edges → Even (degreeOf edges v)) :
    ∃ p, (∀ fuel, edges.length + 1 < fuel → getEulerPath fuel edges root = some p) ∧
      2 * p.length = edges.length + 2 ∧ ∀ a b, ucount p a b = dirCount edges a b := by
  have hboth := hboth.all
  have heven : ∀ v, Even (degreeOf edges v) := by
    intro v
    by_cases hv : v ≤ maxIdx edges
    · exact heven v hv
    · rw [degreeOf_eq_zero edges v (by omega)]
      exact ⟨0, rfl⟩
  obtain ⟨hsq, hent⟩ := convertEdges_spec edges hlen
  have hlt : ∀ e ∈ edges, e.from_ < maxIdx edges + 1 ∧ e.to_ < maxIdx edges + 1 := by
    intro e he
    have := le_maxIdx edges e he
    omega
  have hT : TableOK (maxIdx edges + 1) (convertEdges edges) := by
    refine ⟨hsq, ?_, ?_, ?_⟩
    · intro a b; rw [hent, hent]; exact hboth.1 a b
    · intro a b; rw [hent]; have := dirCount_le edges a b; omega
    · intro a; rw [hent]; exact hboth.2 a
  have hrow : ∀ u, rowSum (maxIdx edges + 1) (convertEdges edges) u = degreeOf edges u := by
    intro u
    unfold rowSum
    rw [← sum_dirCount _ edges (fun e he => (hlt e he).2) u]
    exact Finset.sum_congr rfl (fun b _ => hent u b)
  have htotal : total (maxIdx edges + 1) (convertEdges edges) = edges.length := by
    unfold total
    rw [← sum_degreeOf _ edges (fun e he => (hlt e he).1)]
    exact Finset.sum_congr rfl (fun a _ => hrow a)
  have hpos : ∀ a b, dirCount edges a b ≠ 0 → ∃ e ∈ edges, e.from_ = a ∧ e.to_ = b := by
    intro a b h
    unfold dirCount at h
    obtain ⟨e, he, h2⟩ := List.countP_pos_iff.mp (Nat.pos_of_ne_zero h)
    simp only [Bool.and_eq_true, beq_iff_eq] at h2
    exact ⟨e, he, h2⟩
  have hadj : ∀ a b, edgeRel edges a b → entry (convertEdges edges) a b ≠ 0 := by
    rintro a b ⟨e, he, hj⟩
    rw [hent]
    have h1 : dirCount edges e.from_ e.to_ ≠ 0 := by
      unfold dirCount
      apply Nat.ne_of_gt
      exact List.countP_pos_iff.mpr ⟨e, he, by simp⟩
    rcases hj with ⟨h2, h3⟩ | ⟨h2, h3⟩
    · rw [← h2, ← h3]; exact h1
    · rw [← h2, ← h3, hboth.1]; exact h1
  obtain ⟨p, hrun, hcnt, hsize⟩ := eulerLoop_euler hT (Nat.succ_pos _)
    (fun u => by rw [hrow]; exact heven u)
    (by
      intro a b hab
      rw [hent] at hab
      obtain ⟨e, he, h1, _⟩ := hpos a b hab
      rw [← h1]
      exact (hconn e he).mono hadj)
  refine ⟨p, ?_, ?_, ?_⟩
  · intro fuel hfuel
    unfold getEulerPath
    exact hrun fuel (by rw [htotal]; exact hfuel)
  · rw [hsize, htotal]
  · intro a b
    rw [hcnt, hent]

theorem toSizeT_zero [LinearOrderedSemiring W] [FloorSemiring W] : toSizeT (0 : W) = 0 := by
  unfold toSizeT
  split
  · exact Nat.floor_zero
  · rfl

theorem toSizeT_of_lt [LinearOrderedSemiring W] [FloorSemiring W] {v : W}
    (h : v < ((SIZE_MOD : Nat) : W)) : toSizeT v = Nat.floor v := by
  unfold toSizeT
  rw [if_pos h]

/-- A weight of at least `1` that fits `size_t` converts to a non-zero value. -/
theorem toSizeT_ne_zero [LinearOrderedSemiring W] [FloorSemiring W] {v : W} (h1 : 1 ≤ v)
    (h : v < ((SIZE_MOD : Nat) : W)) : toSizeT v ≠ 0 := by
  rw [toSizeT_of_lt h]
  have := Nat.floor_pos.mpr h1
  omega

/-- A weight below `1` converts to zero. -/
theorem toSizeT_of_lt_one [LinearOrderedSemiring W] [FloorSemiring W] {v : W} (h : v < 1) :
    toSizeT v = 0 := by
  unfold toSizeT
  split
  · exact Nat.floor_eq_zero.mpr h
  · rfl

/-- The conversion of a non-negative value only depends on its integer part. -/
theorem toSizeT_floor [LinearOrderedSemiring W] [FloorSemiring W] {v : W} (hv : 0 ≤ v) :
    toSizeT v = toSizeT (Nat.floor v) := by
  unfold toSizeT
  simp only [Nat.cast_id, Nat.floor_nat, id_eq]
  by_cases h : v < ((SIZE_MOD : Nat) : W)
  · rw [if_pos h, if_pos ((Nat.floor_lt hv).mpr h)]
  · rw [if_neg h, if_neg (fun h1 => h ((Nat.floor_lt hv).mp h1))]

theorem toSizeT_one [LinearOrderedSemiring W] [FloorSemiring W] : toSizeT (1 : W) = 1 := by
  have h : (1 : W) < ((SIZE_MOD : Nat) : W) := by
    have : ((1 : Nat) : W) < ((SIZE_MOD : Nat) : W) := Nat.cast_lt.mpr (by decide)
    simpa using this
  rw [toSizeT_of_lt h, Nat.floor_one]

theorem countP_eq_sum_getD {α : Type} (d : α) (p : α → Bool) (row : List α) :
    row.countP p = ∑ j ∈ Finset.range row.length, if p (row.getD j d) then 1 else 0 := by
  induction row with
  | nil => simp
  | cons x xs ih =>
    rw [List.countP_cons, List.length_cons, Finset.sum_range_succ', ih]
    simp only [List.getD_cons_succ, List.getD_cons_zero]

theorem sum_symm_even (f : Nat → Nat → Nat) (hs : ∀ i j, f i j = f j i) (hd : ∀ i, f i i = 0) :
    ∀ n, Even (∑ i ∈ Finset.range n, ∑ j ∈ Finset.range n, f i j) := by
  intro n
  induction n with
  | zero => simp
  | succ n ih =>
    rw [Finset.sum_range_succ]
    simp only [Finset.sum_range_succ, hd, Nat.add_zero]
    rw [Finset.sum_add_distrib]
    have : ∑ i ∈ Finset.range n, f i n = ∑ j ∈ Finset.range n, f n j :=
      Finset.sum_congr rfl (fun i _ => hs i n)
    rw [this]
    obtain ⟨k, hk⟩ := ih
    exact ⟨k + ∑ j ∈ Finset.range n, f n j, by omega⟩

theorem odd_filter_parity (d : Nat → Nat) : ∀ n,
    ((List.range n).filter fun i => d i % 2 != 0).length % 2 =
      (∑ i ∈ Finset.range n, d i) % 2 := by
  intro n
  induction n with
  | zero => simp
  | succ n ih =>
    rw [List.range_succ, List.filter_append, List.length_append, Finset.sum_range_succ]
    by_cases h : d n % 2 = 0
    · have : ([n].filter fun i => d i % 2 != 0) = [] := by simp [h]
      rw [this]
      simp only [List.length_nil]
      omega
    · have : ([n].filter fun i => d i % 2 != 0) = [n] := by
        have h2 : d n % 2 = 1 := by omega
        simp [h2]
      rw [this]
      simp only [List.length_singleton]
      omega

/-- The degree that `solve` counts in a row of a square matrix, as a sum over the row. -/
theorem degree_eq_sum [LinearOrderedSemiring W] [FloorSemiring W] {n : Nat} {t : Matrix W}
    (hsq : IsSquare n t) (i : Nat) (hi : i < n) :
    degree (t.getD i []) =
      ∑ j ∈ Finset.range n, if toSizeT (entry t i j) ≠ 0 then 1 else 0 := by
  unfold degree
  rw [countP_eq_sum_getD 0, hsq.2 i hi]
  apply Finset.sum_congr rfl
  intro j _
  unfold entry
  simp only [bne_iff_ne, ne_eq]

/-- The handshake lemma for the degrees that `solve` counts: in a symmetric matrix with a
zero diagonal the number of vertices of odd degree is even. -/
theorem even_oddDegreeVertices [LinearOrderedSemiring W] [FloorSemiring W] {n : Nat} {t : Matrix W}
    (hsq : IsSquare n t) (hsym : ∀ a b, entry t a b = entry t b a)
    (hdiag : ∀ a, entry t a a = 0) : Even (oddDegreeVertices t).length := by
  unfold oddDegreeVertices
  rw [hsq.1]
  have h1 : ((List.range n).filter fun i => degree (t.getD i []) % 2 != 0) =
      (List.range n).filter fun i =>
        (∑ j ∈ Finset.range n, if toSizeT (entry t i j) ≠ 0 then 1 else 0) % 2 != 0 := by
    apply List.filter_congr
    intro i hi
    rw [degree_eq_sum hsq i (List.mem_range.mp hi)]
  rw [h1, Nat.even_iff, odd_filter_parity (fun i =>
    ∑ j ∈ Finset.range n, if toSizeT (entry t i j) ≠ 0 then 1 else 0) n]
  rw [← Nat.even_iff]
  apply sum_symm_even
  · intro i j; rw [hsym i j]
  · intro i; rw [hdiag i, toSizeT_zero]; simp

theorem oddDegreeVertices_nodup [LinearOrderedSemiring W] [FloorSemiring W] (t : Matrix W) :
    (oddDegreeVertices t).Nodup :=
  (List.nodup_range _).filter _

theorem oddDegreeVertices_lt [LinearOrderedSemiring W] [FloorSemiring W] (t : Matrix W) (v : Nat)
    (h : v ∈ oddDegreeVertices t) : v < t.length := by
  unfold oddDegreeVertices at h
  exact List.mem_range.mp (List.mem_filter.mp h).1

theorem mem_extractEdges [Zero W] [DecidableEq W] {n : Nat} {t : Matrix W} (hsq : IsSquare n t)
    (e : Edge W) :
    e ∈ extractEdges t ↔
      e.from_ < n ∧ e.to_ < n ∧ entry t e.from_ e.to_ ≠ 0 ∧
        e.distance = entry t e.from_ e.to_ := by
  unfold extractEdges
  simp only [List.mem_flatMap, List.mem_range, List.mem_filterMap]
  constructor
  · rintro ⟨i, hi, j, hj, h⟩
    rw [hsq.1] at hi
    rw [hsq.2 i hi] at hj
    split at h
    · next hne =>
      have := Option.some.inj h
      subst this
      exact ⟨hi, hj, hne, rfl⟩
    · cases h
  · rintro ⟨h1, h2, h3, h4⟩
    refine ⟨e.from_, by rw [hsq.1]; exact h1, e.to_, by rw [hsq.2 _ h1]; exact h2, ?_⟩
    rw [if_pos h3, ← h4]

theorem nodup_extractEdges [Zero W] [DecidableEq W] (t : Matrix W) :
    (extractEdges t).Nodup := by
  unfold extractEdges
  rw [List.nodup_flatMap]
  constructor
  · intro i _
    apply List.Nodup.filterMap _ (List.nodup_range _)
    intro a b e ha hb
    simp only [Option.mem_def] at ha hb
    split at ha
    · split at hb
      · have h1 := Option.some.inj ha
        have h2 := Option.some.inj hb
        rw [← h2] at h1
        exact (Edge.mk.inj h1).2.1
      · cases hb
    · cases ha
  · apply (List.nodup_range _).imp
    intro i j hij
    simp only [Function.onFun]
    rw [List.disjoint_left]
    intro e h1 h2
    simp only [List.mem_filterMap] at h1 h2
    obtain ⟨a, _, ha⟩ := h1
    obtain ⟨b, _, hb⟩ := h2
    split at ha
    · split at hb
      · have h3 := Option.some.inj ha
        have h4 := Option.some.inj hb
        rw [← h4] at h3
        exact hij (Edge.mk.inj h3).1
      · cases hb
    · cases ha

theorem mergeStep_eq [Zero W] [DecidableEq W] {n : Nat} {m : Matrix W} {L : List (Edge W)}
    (h : MergedOK n m L) {i to_ : Nat} (hne : i ≠ to_)
    (hsym : entry m i to_ = entry m to_ i) :
    mergeStep m L i to_ =
      if (⟨to_, i, entry m i to_⟩ : Edge W) ∈ L then L
      else L ++ [⟨to_, i, entry m i to_⟩, ⟨i, to_, entry m to_ i⟩] := by
  unfold mergeStep
  by_cases h1 : (⟨to_, i, entry m i to_⟩ : Edge W) ∈ L
  · have h2 : (⟨i, to_, entry m to_ i⟩ : Edge W) ∈ L := by
      have := h.symm _ h1
      simp only at this
      rw [hsym] at this
      exact this
    simp only [h1, if_true, h2]
  · have h2 : (⟨i, to_, entry m to_ i⟩ : Edge W) ∉ L := by
      intro h3
      have := h.symm _ h3
      simp only at this
      rw [← hsym] at this
      exact h1 this
    have h3 : (⟨i, to_, entry m to_ i⟩ : Edge W) ∉ L ++ [⟨to_, i, entry m i to_⟩] := by
      intro h4
      rcases List.mem_append.mp h4 with h5 | h5
      · exact h2 h5
      · have := List.mem_singleton.mp h5
        exact hne (Edge.mk.inj this).1
    simp only [h1, if_false, h3]
    simp

theorem MergedOK.step [Zero W] [DecidableEq W] {n : Nat} {m : Matrix W} {L : List (Edge W)}
    (h : MergedOK n m L) {i to_ : Nat} (hne : i ≠ to_) (hi : i < n) (ht : to_ < n)
    (hsym : entry m i to_ = entry m to_ i) : MergedOK n m (mergeStep m L i to_) := by
  rw [mergeStep_eq h hne hsym]
  split
  · exact h
  · next h1 =>
    have h2 : (⟨i, to_, entry m to_ i⟩ : Edge W) ∉ L := by
      intro h3
      have := h.symm _ h3
      simp only at this
      rw [← hsym] at this
      exact h1 this
    refine ⟨?_, ?_, ?_⟩
    · rw [List.nodup_append]
      refine ⟨h.nodup, ?_, ?_⟩
      · rw [List.nodup_cons]
        refine ⟨?_, List.nodup_singleton _⟩
        intro h3
        have := List.mem_singleton.mp h3
        exact hne (Edge.mk.inj this).1.symm
      · rw [List.disjoint_right]
        intro e he
        rcases List.mem_cons.mp he with rfl | he
        · exact h1
        · rw [List.mem_singleton.mp he]; exact h2
    · intro e he
      rcases List.mem_append.mp he with he | he
      · exact h.wf e he
      · rcases List.mem_cons.mp he with rfl | he
        · exact ⟨ht, hi, fun hh => hne hh.symm, hsym⟩
        · rw [List.mem_singleton.mp he]
          exact ⟨hi, ht, hne, hsym.symm⟩
    · intro e he
      rcases List.mem_append.mp he with he | he
      · exact List.mem_append_left _ (h.symm e he)
      · apply List.mem_append_right
        rcases List.mem_cons.mp he with rfl | he
        · simp only
          rw [hsym]
          simp
        · rw [List.mem_singleton.mp he]
          simp only
          rw [← hsym]
          simp

theorem mergeMatching_eq [Zero W] [DecidableEq W] (m : Matrix W) (matching : List (List Nat))
    (edges : List (Edge W)) :
    mergeMatching m matching edges =
      (matchingPairs matching).foldl (fun es p => mergeStep m es p.1 p.2) edges := by
  unfold mergeMatching matchingPairs
  generalize List.range matching.length = is
  induction is generalizing edges with
  | nil => rfl
  | cons i is ih =>
    rw [List.foldl_cons, List.flatMap_cons, List.foldl_append, ih, List.foldl_map]

theorem mem_matchingPairs (matching : List (List Nat)) (p : Nat × Nat) :
    p ∈ matchingPairs matching ↔ p.1 < matching.length ∧ p.2 ∈ matching.getD p.1 [] := by
  unfold matchingPairs
  simp only [List.mem_flatMap, List.mem_range, List.mem_map]
  constructor
  · rintro ⟨i, hi, t, ht, rfl⟩
    exact ⟨hi, ht⟩
  · rintro ⟨h1, h2⟩
    exact ⟨p.1, h1, p.2, h2, rfl⟩

/-- What the merge of the matching into the tree edges keeps and adds. -/
theorem mergeFold_spec [Zero W] [DecidableEq W] {n : Nat} {m : Matrix W}
    (ps : List (Nat × Nat)) :
    ∀ L : List (Edge W), MergedOK n m L →
      (∀ p ∈ ps, p.1 ≠ p.2 ∧ p.1 < n ∧ p.2 < n ∧ entry m p.1 p.2 = entry m p.2 p.1) →
      MergedOK n m (ps.foldl (fun es p => mergeStep m es p.1 p.2) L) ∧
      (∀ e ∈ L, e ∈ ps.foldl (fun es p => mergeStep m es p.1 p.2) L) ∧
      (∀ p ∈ ps, (⟨p.1, p.2, entry m p.1 p.2⟩ : Edge W) ∈
        ps.foldl (fun es p => mergeStep m es p.1 p.2) L) ∧
      (∀ e ∈ ps.foldl (fun es p => mergeStep m es p.1 p.2) L,
        e ∈ L ∨ (e.from_, e.to_) ∈ ps ∨ (e.to_, e.from_) ∈ ps) := by
  induction ps with
  | nil => intro L h _; exact ⟨h, fun e he => he, by simp, fun e he => Or.inl he⟩
  | cons p ps ih =>
    intro L h hps
    obtain ⟨hne, hi, ht, hsym⟩ := hps p (List.mem_cons_self _ _)
    have hstep := h.step hne hi ht hsym
    obtain ⟨h1, h2, h3, h4⟩ := ih _ hstep (fun q hq => hps q (List.mem_cons_of_mem _ hq))
    have hsub : ∀ e ∈ L, e ∈ mergeStep m L p.1 p.2 := by
      intro e he
      rw [mergeStep_eq h hne hsym]
      split
      · exact he
      · exact List.mem_append_left _ he
    have hnew : (⟨p.1, p.2, entry m p.1 p.2⟩ : Edge W) ∈ mergeStep m L p.1 p.2 := by
      rw [mergeStep_eq h hne hsym]
      split
      · next h5 =>
        have := h.symm _ h5
        simp only at this
        exact this
      · rw [hsym]; simp
    have hold : ∀ e ∈ mergeStep m L p.1 p.2,
        e ∈ L ∨ (e.from_, e.to_) = p ∨ (e.to_, e.from_) = p := by
      intro e he
      rw [mergeStep_eq h hne hsym] at he
      split at he
      · exact Or.inl he
      · rcases List.mem_append.mp he with he | he
        · exact Or.inl he
        · rcases List.mem_cons.mp he with rfl | he
          · exact Or.inr (Or.inr rfl)
          · rw [List.mem_singleton.mp he]
            exact Or.inr (Or.inl rfl)
    rw [List.foldl_cons]
    refine ⟨h1, fun e he => h2 e (hsub e he), ?_, ?_⟩
    · intro q hq
      rcases List.mem_cons.mp hq with rfl | hq
      · exact h2 _ hnew
      · exact h3 q hq
    · intro e he
      rcases h4 e he with h5 | h5 | h5
      · rcases hold e h5 with h6 | h6 | h6
        · exact Or.inl h6
        · exact Or.inr (Or.inl (by rw [h6]; exact List.mem_cons_self _ _))
        · exact Or.inr (Or.inr (by rw [h6]; exact List.mem_cons_self _ _))
      · exact Or.inr (Or.inl (List.mem_cons_of_mem _ h5))
      · exact Or.inr (Or.inr (List.mem_cons_of_mem _ h5))

theorem length_pushBack (t : List (List Nat)) (i v : Nat) : (pushBack t i v).length = t.length := by
  simp [pushBack]

theorem getD_pushBack (t : List (List Nat)) (i v j : Nat) :
    (pushBack t i v).getD j [] =
      if i = j ∧ i < t.length then t.getD i [] ++ [v] else t.getD j [] := by
  unfold pushBack
  rw [getD_set_list]

theorem minElementFrom_lt {α : Type} (comp : α → α → Bool) :
    ∀ (xs : List α) (best : α) (bestIdx i : Nat), bestIdx < i →
      minElementFrom comp best bestIdx xs i < i + xs.length := by
  intro xs
  induction xs with
  | nil => intro best bestIdx i h; simpa [minElementFrom] using h
  | cons x xs ih =>
    intro best bestIdx i h
    simp only [minElementFrom, List.length_cons]
    split
    · have := ih x i (i + 1) (Nat.lt_succ_self i); omega
    · have := ih best bestIdx (i + 1) (by omega); omega

theorem minElement_lt {α : Type} (comp : α → α → Bool) (l : List α) (k : Nat)
    (h : minElement comp l = some k) : k < l.length := by
  cases l with
  | nil => simp [minElement] at h
  | cons x xs =>
    simp only [minElement, Option.some.injEq] at h
    have := minElementFrom_lt comp xs x 0 1 (by omega)
    simp only [List.length_cons]; omega

theorem matchingLoop_spec [LinearOrder W] [Zero W] (m : Matrix W) :
    ∀ (fuel : Nat) (odd : List Nat) (t : List (List Nat)),
      odd.length ≤ fuel → Even odd.length → odd.Nodup → (∀ v ∈ odd, v < t.length) →
      ∃ t1, matchingLoop m fuel odd t = some t1 ∧ t1.length = t.length ∧
        (∀ v ∈ odd, ∃ u ∈ odd, u ≠ v ∧ t1.getD v [] = t.getD v [] ++ [u] ∧
          t1.getD u [] = t.getD u [] ++ [v]) ∧
        (∀ v, v ∉ odd → t1.getD v [] = t.getD v []) := by
  intro fuel
  induction fuel with
  | zero =>
    intro odd t hlen _ _ _
    have : odd = [] := List.length_eq_zero.mp (Nat.le_zero.mp hlen)
    subst this
    exact ⟨t, by simp [matchingLoop]⟩
  | succ fuel ih =>
    intro odd t hlen heven hnd hlt
    cases odd with
    | nil => exact ⟨t, by simp [matchingLoop]⟩
    | cons vertex rest =>
      have hrest : rest ≠ [] := by
        rintro rfl
        simp at heven
      obtain ⟨x, xs, rfl⟩ := List.exists_cons_of_ne_nil hrest
      obtain ⟨k, hk⟩ : ∃ k, minElement (isCloser m vertex) (x :: xs) = some k := ⟨_, rfl⟩
      have hklt := minElement_lt _ _ _ hk
      set rest := x :: xs with hrestdef
      set u := rest.getD k 0 with hu
      have hu_mem : u ∈ rest := by
        rw [hu, List.getD_eq_getElem _ _ hklt]; exact List.getElem_mem _
      have hvn : vertex ∉ rest := (List.nodup_cons.mp hnd).1
      have hrnd : rest.Nodup := (List.nodup_cons.mp hnd).2
      have huv : u ≠ vertex := fun h => hvn (h ▸ hu_mem)
      have hperm : rest.Perm (u :: rest.eraseIdx k) := by
        have h1 : rest.eraseIdx k = rest.erase u := by
          rw [hu, List.getD_eq_getElem _ _ hklt]
          exact (List.Nodup.erase_getElem hrnd k hklt).symm
        rw [h1]; exact List.perm_cons_erase hu_mem
      have hnd2 : (u :: rest.eraseIdx k).Nodup := hperm.nodup_iff.mp hrnd
      have hlen2 : (rest.eraseIdx k).length + 1 = rest.length := by
        have := hperm.length_eq; simp only [List.length_cons] at this; omega
      set t2 := pushBack (pushBack t u vertex) vertex u with ht2
      have ht2len : t2.length = t.length := by simp [ht2, length_pushBack]
      have hrl : rest.length = xs.length + 1 := by simp [hrestdef]
      obtain ⟨t1, h1, h2, h3, h4⟩ := ih (rest.eraseIdx k) t2
        (by simp only [List.length_cons] at hlen; omega)
        (by
          have h5 : Even (rest.length + 1) := by simpa using heven
          rw [← hlen2] at h5
          rcases h5 with ⟨a, ha⟩
          exact ⟨a - 1, by omega⟩)
        (List.nodup_cons.mp hnd2).2
        (by
          intro v hv
          rw [ht2len]
          exact hlt v (List.mem_cons_of_mem _ (hperm.mem_iff.mpr (List.mem_cons_of_mem _ hv))))
      have hunot : u ∉ rest.eraseIdx k := (List.nodup_cons.mp hnd2).1
      have hvnot : vertex ∉ rest.eraseIdx k := fun h =>
        hvn (hperm.mem_iff.mpr (List.mem_cons_of_mem _ h))
      have hult : u < t.length := hlt u (List.mem_cons_of_mem _ hu_mem)
      have hvlt : vertex < t.length := hlt vertex (List.mem_cons_self _ _)
      have e1 : t2.getD vertex [] = t.getD vertex [] ++ [u] := by
        rw [ht2]; simp only [getD_pushBack, length_pushBack]
        rw [if_pos ⟨trivial, hvlt⟩, if_neg (fun h => huv h.1)]
      have e2 : t2.getD u [] = t.getD u [] ++ [vertex] := by
        rw [ht2]; simp only [getD_pushBack, length_pushBack]
        rw [if_neg (fun h => huv h.1.symm), if_pos ⟨trivial, hult⟩]
      have e3 : ∀ w, w ≠ u → w ≠ vertex → t2.getD w [] = t.getD w [] := by
        intro w hw1 hw2
        rw [ht2]; simp only [getD_pushBack, length_pushBack]
        rw [if_neg (fun h => hw2 h.1.symm), if_neg (fun h => hw1 h.1.symm)]
      refine ⟨t1, ?_, by rw [h2, ht2len], ?_, ?_⟩
      · simp only [matchingLoop, hk]; exact h1
      · intro v hv
        rcases List.mem_cons.mp hv with rfl | hv
        · exact ⟨u, List.mem_cons_of_mem _ hu_mem, huv, by rw [h4 _ hvnot, e1],
            by rw [h4 _ hunot, e2]⟩
        · rcases List.mem_cons.mp (hperm.mem_iff.mp hv) with rfl | hv2
          · exact ⟨vertex, List.mem_cons_self _ _, Ne.symm huv, by rw [h4 _ hunot, e2],
              by rw [h4 _ hvnot, e1]⟩
          · obtain ⟨w, hw, hwv, hw1, hw2⟩ := h3 v hv2
            have hvu : v ≠ u := fun h => hunot (h ▸ hv2)
            have hvv : v ≠ vertex := fun h => hvnot (h ▸ hv2)
            have hwu : w ≠ u := fun h => hunot (h ▸ hw)
            have hwv2 : w ≠ vertex := fun h => hvnot (h ▸ hw)
            refine ⟨w, List.mem_cons_of_mem _ (hperm.mem_iff.mpr (List.mem_cons_of_mem _ hw)),
              hwv, ?_, ?_⟩
            · rw [hw1, e3 v hvu hvv]
            · rw [hw2, e3 w hwu hwv2]
      · intro v hv
        have hvv : v ≠ vertex := fun h => hv (h ▸ List.mem_cons_self _ _)
        have hvu : v ≠ u := fun h => hv (h ▸ List.mem_cons_of_mem _ hu_mem)
        have : v ∉ rest.eraseIdx k := fun h =>
          hv (List.mem_cons_of_mem _ (hperm.mem_iff.mpr (List.mem_cons_of_mem _ h)))
        rw [h4 v this, e3 v hvu hvv]

theorem total_convertEdges (edges : List (Edge W)) (hlen : edges.length < SIZE_MOD) :
    total (maxIdx edges + 1) (convertEdges edges) = edges.length := by
  obtain ⟨_, hent⟩ := convertEdges_spec edges hlen
  have hlt : ∀ e ∈ edges, e.from_ < maxIdx edges + 1 ∧ e.to_ < maxIdx edges + 1 := by
    intro e he
    have := le_maxIdx edges e he
    omega
  unfold total
  rw [← sum_degreeOf _ edges (fun e he => (hlt e he).1)]
  apply Finset.sum_congr rfl
  intro a _
  unfold rowSum
  rw [← sum_dirCount _ edges (fun e he => (hlt e he).2) a]
  exact Finset.sum_congr rfl (fun b _ => hent a b)

theorem MergedOK.dirCount_eq [Zero W] [DecidableEq W] {n : Nat} {m : Matrix W}
    {L : List (Edge W)} (h : MergedOK n m L) (a b : Nat) :
    dirCount L a b = if (⟨a, b, entry m a b⟩ : Edge W) ∈ L then 1 else 0 := by
  have h1 : dirCount L a b = L.count ⟨a, b, entry m a b⟩ := by
    unfold dirCount
    rw [List.count_eq_countP]
    apply List.countP_congr
    intro e he
    have hw := (h.wf e he).2.2.2
    simp only [Bool.and_eq_true, beq_iff_eq]
    constructor
    · rintro ⟨h2, h3⟩
      cases e
      simp only at h2 h3 hw
      subst h2; subst h3
      rw [hw]
    · intro h2
      rw [h2]
      exact ⟨rfl, rfl⟩
  rw [h1, List.count_eq_of_nodup h.nodup]

theorem MergedOK.mem_swap [Zero W] [DecidableEq W] {n : Nat} {m : Matrix W}
    {L : List (Edge W)} (h : MergedOK n m L) (a b : Nat) :
    (⟨a, b, entry m a b⟩ : Edge W) ∈ L ↔ (⟨b, a, entry m b a⟩ : Edge W) ∈ L :=
  ⟨fun h1 => h.symm _ h1, fun h1 => h.symm _ h1⟩

theorem MergedOK.bothDirections [Zero W] [DecidableEq W] {n : Nat} {m : Matrix W}
    {L : List (Edge W)} (h : MergedOK n m L) : ListsBothDirections L := by
  constructor
  · intro a _ b _
    rw [h.dirCount_eq, h.dirCount_eq]
    by_cases h1 : (⟨a, b, entry m a b⟩ : Edge W) ∈ L
    · rw [if_pos h1, if_pos ((h.mem_swap a b).mp h1)]
    · rw [if_neg h1, if_neg (fun h2 => h1 ((h.mem_swap a b).mpr h2))]
  · intro a _
    rw [h.dirCount_eq]
    have : (⟨a, a, entry m a a⟩ : Edge W) ∉ L := fun h1 => (h.wf _ h1).2.2.1 rfl
    rw [if_neg this]
    exact ⟨0, rfl⟩

theorem MergedOK.length_le [Zero W] [DecidableEq W] {n : Nat} {m : Matrix W}
    {L : List (Edge W)} (h : MergedOK n m L) : L.length ≤ n * n := by
  have hnd : (L.map fun e => (e.from_, e.to_)).Nodup := by
    rw [List.nodup_map_iff_inj_on h.nodup]
    intro e1 h1 e2 h2 heq
    have w1 := (h.wf e1 h1).2.2.2
    have w2 := (h.wf e2 h2).2.2.2
    cases e1; cases e2
    simp only [Prod.mk.injEq] at heq
    simp only at w1 w2
    obtain ⟨rfl, rfl⟩ := heq
    rw [w1, w2]
  have hsub : (L.map fun e => (e.from_, e.to_)).toFinset ⊆
      Finset.range n ×ˢ Finset.range n := by
    intro p hp
    obtain ⟨e, he, rfl⟩ := List.mem_map.mp (List.mem_toFinset.mp hp)
    have := h.wf e he
    simp only [Finset.mem_product, Finset.mem_range]
    exact ⟨this.1, this.2.1⟩
  have := Finset.card_le_card hsub
  rw [List.toFinset_card_of_nodup hnd, List.length_map, Finset.card_product,
    Finset.card_range] at this
  exact this

theorem MergedOK.maxIdx_lt [Zero W] {n : Nat} {m : Matrix W} {L : List (Edge W)}
    (h : MergedOK n m L) (hn : 1 ≤ n) : maxIdx L + 1 ≤ n := by
  have : maxIdx L ≤ n - 1 := by
    apply maxIdx_le
    intro e he
    have := h.wf e he
    omega
  omega

theorem MergedOK.tableOK [Zero W] [DecidableEq W] {n : Nat} {m : Matrix W}
    {L : List (Edge W)} (h : MergedOK n m L) (hlen : L.length < SIZE_MOD) :
    TableOK (maxIdx L + 1) (convertEdges L) := by
  obtain ⟨hsq, hent⟩ := convertEdges_spec L hlen
  have hb := h.bothDirections.all
  refine ⟨hsq, ?_, ?_, ?_⟩
  · intro a b; rw [hent, hent]; exact hb.1 a b
  · intro a b; rw [hent]; have := dirCount_le L a b; omega
  · intro a; rw [hent]; exact hb.2 a

/-- The facts about the tree matrix that the later stages of `solve` rely on. -/
theorem treeMatrix_facts [LinearOrderedSemiring W] {n : Nat} {m : Matrix W}
    (hm : IsDistanceMatrix n m) (hn : 1 ≤ n) :
    IsSquare n (Kruskal.getMinSpanningTree m) ∧
      (∀ a b, entry (Kruskal.getMinSpanningTree m) a b =
        entry (Kruskal.getMinSpanningTree m) b a) ∧
      (∀ a, entry (Kruskal.getMinSpanningTree m) a a = 0) ∧
      (∀ a b, entry (Kruskal.getMinSpanningTree m) a b ≠ 0 →
        a < n ∧ b < n ∧ entry (Kruskal.getMinSpanningTree m) a b = entry m a b) ∧
      (∀ u v, u < n → v < n → Relation.ReflTransGen
        (fun a b => entry (Kruskal.getMinSpanningTree m) a b ≠ 0) u v) := by
  have hK := minEdges_spec hm.square hn
  unfold Kruskal.getMinSpanningTree
  obtain ⟨hsq, h1, h2⟩ := entry_tree hK hn
  refine ⟨hsq, entry_tree_symm hK hn, ?_, ?_, ?_⟩
  · intro a
    apply h2
    intro e he hj
    have := hK.wf e he
    rcases hj with ⟨h3, h4⟩ | ⟨h3, h4⟩ <;> omega
  · intro a b hab
    have hlt : a < n ∧ b < n := by
      by_contra hcon
      apply hab
      apply entry_eq_zero_of_ge hsq
      omega
    exact ⟨hlt.1, hlt.2, tree_carries_weights hK hn hm.symm a b hab⟩
  · intro u v hu hv
    refine (hK.connected u v hu hv).mono ?_
    intro a b hab
    exact (entry_tree_ne_zero hK hn hm.upper a b).mpr hab

/-- The shape of the tree matrix for any square input: same dimension, symmetric, zero
diagonal. -/
theorem treeMatrix_shape [LinearOrderedSemiring W] {n : Nat} {m : Matrix W}
    (hsq : IsSquare n m) (hn : 1 ≤ n) :
    IsSquare n (Kruskal.getMinSpanningTree m) ∧
      (∀ a b, entry (Kruskal.getMinSpanningTree m) a b =
        entry (Kruskal.getMinSpanningTree m) b a) ∧
      (∀ a, entry (Kruskal.getMinSpanningTree m) a a = 0) := by
  have hK := minEdges_spec hsq hn
  unfold Kruskal.getMinSpanningTree
  obtain ⟨tsq, _, h2⟩ := entry_tree hK hn
  refine ⟨tsq, entry_tree_symm hK hn, ?_⟩
  intro a
  apply h2
  intro e he hj
  have hw := (hK.wf e he).1
  rcases hj with ⟨h3, h4⟩ | ⟨h3, h4⟩ <;> omega

theorem tree_of_one_vertex [LinearOrderedSemiring W] {m : Matrix W} (hsq : IsSquare 1 m) :
    Kruskal.getMinSpanningTree m = [[0]] := by
  have hK := minEdges_spec hsq (le_refl 1)
  have hlen := hK.length
  have hnil : Kruskal.minEdges m = [] := List.length_eq_zero.mp (by omega)
  unfold Kruskal.getMinSpanningTree
  rw [hnil]
  rfl

/-- The non-zero entries of the tree matrix are entries of the input, when that is
symmetric. -/
theorem treeMatrix_weights [LinearOrderedSemiring W] {n : Nat} {m : Matrix W}
    (hsq : IsSquare n m) (hn : 1 ≤ n)
    (hsym : ∀ a, a < n → ∀ b, b < n → entry m a b = entry m b a) (a b : Nat)
    (h : entry (Kruskal.getMinSpanningTree m) a b ≠ 0) :
    a < n ∧ b < n ∧ entry (Kruskal.getMinSpanningTree m) a b = entry m a b := by
  have hK := minEdges_spec hsq hn
  obtain ⟨tsq, _, _⟩ := treeMatrix_shape hsq hn
  have ha : a < n := by
    by_contra hlt
    exact h (entry_eq_zero_of_ge tsq a b (Or.inl (by omega)))
  have hb : b < n := by
    by_contra hlt
    exact h (entry_eq_zero_of_ge tsq a b (Or.inr (by omega)))
  exact ⟨ha, hb, tree_carries_weights hK hn hsym a b h⟩

theorem getD_replicate_nil (n v : Nat) :
    (List.replicate n ([] : List Nat)).getD v [] = [] := by
  simp only [List.getD_eq_getElem?_getD, List.getElem?_replicate]
  split <;> rfl

/-- The matching and the merged edge list exist and are well formed for every square
symmetric matrix. -/
theorem merged_of_symmetric [LinearOrderedSemiring W] [FloorSemiring W] {n : Nat}
    {m : Matrix W} (hsq : IsSquare n m)
    (hsym : ∀ a, a < n → ∀ b, b < n → entry m a b = entry m b a) (hn : 1 ≤ n) :
    ∃ M L, Merged n m M L := by
  obtain ⟨tsq, tsym, tdiag⟩ := treeMatrix_shape hsq hn
  have tw := treeMatrix_weights hsq hn hsym
  set t := Kruskal.getMinSpanningTree m with ht
  have hoddlt : ∀ v ∈ oddDegreeVertices t, v < n := by
    intro v hv
    have := oddDegreeVertices_lt t v hv
    rw [tsq.1] at this
    exact this
  obtain ⟨M, hM, hMlen, hpair, hunp⟩ := matchingLoop_spec m (oddDegreeVertices t).length
    (oddDegreeVertices t) (List.replicate m.length []) (le_refl _)
    (even_oddDegreeVertices tsq tsym tdiag) (oddDegreeVertices_nodup t)
    (by
      intro v hv
      rw [List.length_replicate, hsq.1]
      exact hoddlt v hv)
  rw [List.length_replicate, hsq.1] at hMlen
  have hpair2 : ∀ v ∈ oddDegreeVertices t, ∃ u ∈ oddDegreeVertices t,
      u ≠ v ∧ M.getD v [] = [u] ∧ M.getD u [] = [v] := by
    intro v hv
    obtain ⟨u, hu, huv, h1, h2⟩ := hpair v hv
    rw [getD_replicate_nil] at h1 h2
    exact ⟨u, hu, huv, h1, h2⟩
  have hunp2 : ∀ v, v ∉ oddDegreeVertices t → M.getD v [] = [] := by
    intro v hv
    rw [hunp v hv, getD_replicate_nil]
  have hmemM : ∀ a b, b ∈ M.getD a [] →
      a ∈ oddDegreeVertices t ∧ b ∈ oddDegreeVertices t ∧ a ≠ b ∧ a ∈ M.getD b [] := by
    intro a b hb
    by_cases ha : a ∈ oddDegreeVertices t
    · obtain ⟨u, hu, hua, h1, h2⟩ := hpair2 a ha
      rw [h1] at hb
      have := List.mem_singleton.mp hb
      subst this
      exact ⟨ha, hu, fun h => hua h.symm, by rw [h2]; exact List.mem_singleton_self _⟩
    · rw [hunp2 a ha] at hb
      simp at hb
  have hL0 : MergedOK n m (extractEdges t) := by
    refine ⟨nodup_extractEdges t, ?_, ?_⟩
    · intro e he
      obtain ⟨h1, h2, h3, h4⟩ := (mem_extractEdges tsq e).mp he
      refine ⟨h1, h2, ?_, ?_⟩
      · intro h5
        apply h3
        rw [h5]
        exact tdiag _
      · rw [h4]
        exact (tw _ _ h3).2.2
    · intro e he
      obtain ⟨h1, h2, h3, h4⟩ := (mem_extractEdges tsq e).mp he
      rw [mem_extractEdges tsq]
      have h5 : entry t e.to_ e.from_ ≠ 0 := by rw [tsym]; exact h3
      exact ⟨h2, h1, h5, ((tw _ _ h5).2.2).symm⟩
  have hps : ∀ p ∈ matchingPairs M,
      p.1 ≠ p.2 ∧ p.1 < n ∧ p.2 < n ∧ entry m p.1 p.2 = entry m p.2 p.1 := by
    intro p hp
    obtain ⟨_, h2⟩ := (mem_matchingPairs M p).mp hp
    obtain ⟨h3, h4, h5, _⟩ := hmemM _ _ h2
    exact ⟨h5, hoddlt _ h3, hoddlt _ h4, hsym _ (hoddlt _ h3) _ (hoddlt _ h4)⟩
  obtain ⟨hok, hsub, hnew, hold⟩ := mergeFold_spec (matchingPairs M) (extractEdges t) hL0 hps
  rw [← mergeMatching_eq] at hok hsub hnew hold
  refine ⟨M, mergeMatching m M (extractEdges t), ?_, ?_, hMlen, hpair2, hunp2, hok, hsub, ?_⟩
  · exact hM
  · unfold mergedEdges
    rw [← ht]
    unfold findMinimumWeightMatching
    rw [hM]
    rfl
  · intro a b
    constructor
    · intro h1
      have hw := hok.wf _ h1
      simp only at hw
      refine ⟨hw.1, hw.2.1, ?_⟩
      rcases hold _ h1 with h2 | h2 | h2
      · exact Or.inl ((mem_extractEdges tsq _).mp h2).2.2.1
      · exact Or.inr ((mem_matchingPairs M _).mp h2).2
      · have := ((mem_matchingPairs M _).mp h2).2
        exact Or.inr (hmemM _ _ this).2.2.2
    · rintro ⟨ha, hb, h1 | h1⟩
      · apply hsub
        rw [mem_extractEdges tsq]
        exact ⟨ha, hb, h1, ((tw _ _ h1).2.2).symm⟩
      · exact hnew (a, b) ((mem_matchingPairs M _).mpr ⟨by rw [hMlen]; exact ha, h1⟩)

theorem merged_spec [LinearOrderedSemiring W] [FloorSemiring W] {n : Nat} {m : Matrix W}
    (hm : IsDistanceMatrix n m) (hn : 1 ≤ n) : ∃ M L, Merged n m M L :=
  merged_of_symmetric hm.square hm.symm hn

theorem firstOccurrences_filter (p : Nat → Bool) (l : List Nat) :
    firstOccurrences (l.filter p) = (firstOccurrences l).filter p := by
  induction l with
  | nil => rfl
  | cons x xs ih =>
    by_cases hx : p x = true
    · rw [List.filter_cons_of_pos hx]
      simp only [firstOccurrences]
      rw [List.filter_cons_of_pos hx, ih, List.filter_filter, List.filter_filter]
      congr 1
      apply List.filter_congr
      intro y _
      exact Bool.and_comm _ _
    · rw [List.filter_cons_of_neg hx]
      simp only [firstOccurrences]
      rw [List.filter_cons_of_neg hx, ih, List.filter_filter]
      apply List.filter_congr
      intro y _
      by_cases hy : y = x
      · subst hy
        simp [hx]
      · simp [hy]

theorem mem_firstOccurrences (l : List Nat) (v : Nat) : v ∈ firstOccurrences l ↔ v ∈ l := by
  induction l with
  | nil => simp [firstOccurrences]
  | cons x xs ih =>
    simp only [firstOccurrences, List.mem_cons, List.mem_filter, ih, bne_iff_ne, ne_eq]
    by_cases h : v = x
    · simp [h]
    · simp [h]

theorem nodup_firstOccurrences (l : List Nat) : (firstOccurrences l).Nodup := by
  induction l with
  | nil => exact List.nodup_nil
  | cons x xs ih =>
    simp only [firstOccurrences]
    rw [List.nodup_cons]
    refine ⟨?_, ih.filter _⟩
    simp [List.mem_filter]

theorem hamiltonLoop_eq (l : List Nat) : ∀ visited : Nat → Bool,
    hamiltonLoop visited l = firstOccurrences (l.filter fun x => !visited x) := by
  induction l with
  | nil => intro visited; rfl
  | cons x xs ih =>
    intro visited
    by_cases hx : visited x = true
    · simp only [hamiltonLoop, hx, if_true]
      rw [List.filter_cons_of_neg (by simp [hx])]
      exact ih visited
    · simp only [hamiltonLoop, hx]
      rw [List.filter_cons_of_pos (by simpa using hx)]
      simp only [firstOccurrences, Bool.false_eq_true, if_false]
      rw [ih, ← firstOccurrences_filter, List.filter_filter]
      congr 2
      apply List.filter_congr
      intro y _
      by_cases hy : y = x
      · subst hy
        simp
      · simp [Function.update_noteq hy, hy]

theorem intRoundTrip_of_lt (x : Nat) (h : x < 2 ^ 31) : intRoundTrip x = x := by
  unfold intRoundTrip
  have : x % 2 ^ 32 = x := Nat.mod_eq_of_lt (by omega)
  rw [this, if_pos h]

/-- For a walk whose first vertex fits an `int`, `getHamiltonPath` keeps exactly the first
occurrence of every vertex. -/
theorem getHamiltonPath_eq (first : Nat) (rest : List Nat) (h : first < 2 ^ 31) :
    getHamiltonPath (first :: rest) = some (firstOccurrences (first :: rest)) := by
  simp only [getHamiltonPath, firstOccurrences, intRoundTrip_of_lt first h]
  rw [hamiltonLoop_eq, firstOccurrences_filter]
  congr 2
  apply List.filter_congr
  intro y _
  by_cases hy : y = first
  · subst hy
    simp
  · simp [Function.update_noteq hy, hy]

theorem firstOccurrences_sublist (l : List Nat) : (firstOccurrences l).Sublist l := by
  induction l with
  | nil => exact List.Sublist.slnil
  | cons x xs ih =>
    simp only [firstOccurrences]
    exact List.Sublist.cons₂ x ((List.filter_sublist _).trans ih)

/-- The Euler walk that `solve` takes through the merged edge list, and its shortcut. -/
theorem solve_spec [LinearOrderedSemiring W] [FloorSemiring W] {n : Nat} {m : Matrix W}
    (hm : IsDistanceMatrix n m) (hn : 1 ≤ n) (hn31 : n ≤ 2 ^ 31) (root : Nat)
    {M : List (List Nat)} {L : List (Edge W)} (hML : Merged n m M L) :
    ∃ w, (∀ fuel, n * n + 1 < fuel → getEulerPath fuel L root = some w) ∧
      (∀ v, v ∈ w ↔ v < n) ∧
      (∀ fuel, n * n + 1 < fuel →
        CChristofidesSolver.solve fuel m root = some (firstOccurrences w)) := by
  obtain ⟨_, _, _, _, tconn⟩ := treeMatrix_facts hm hn
  have hLlen : L.length ≤ n * n := hML.ok.length_le
  have hnn : n * n < SIZE_MOD := by
    have : n * n ≤ 2 ^ 31 * 2 ^ 31 := Nat.mul_le_mul hn31 hn31
    unfold SIZE_MOD
    omega
  have hlen : L.length < SIZE_MOD := by omega
  have hT := hML.ok.tableOK hlen
  obtain ⟨_, hent⟩ := convertEdges_spec L hlen
  obtain ⟨w, hrun, hmem, hlt, _⟩ := eulerLoop_cover hT (Nat.succ_pos _)
  have hmax := hML.ok.maxIdx_lt hn
  have hw : ∀ v, v ∈ w ↔ v < n := by
    intro v
    constructor
    · intro hv
      have := hlt v hv
      omega
    · intro hv
      rw [hmem]
      refine (tconn 0 v (by omega) hv).mono ?_
      intro a b hab
      rw [hent, hML.ok.dirCount_eq]
      have hab2 : a < n ∧ b < n := by
        by_contra hcon
        apply hab
        apply entry_eq_zero_of_ge (treeMatrix_facts hm hn).1
        omega
      have : (⟨a, b, entry m a b⟩ : Edge W) ∈ L :=
        (hML.mem a b).mpr ⟨hab2.1, hab2.2, Or.inl hab⟩
      rw [if_pos this]
      exact one_ne_zero
  have hrun2 : ∀ fuel, n * n + 1 < fuel → getEulerPath fuel L root = some w := by
    intro fuel hfuel
    unfold getEulerPath
    apply hrun
    rw [total_convertEdges L hlen]
    omega
  refine ⟨w, hrun2, hw, ?_⟩
  intro fuel hfuel
  unfold CChristofidesSolver.solve
  rw [hML.merged]
  simp only [Option.bind_eq_bind, Option.some_bind]
  rw [hrun2 fuel hfuel]
  simp only [Option.some_bind]
  cases w with
  | nil =>
    have := (hw 0).mpr (by omega)
    simp at this
  | cons first rest =>
    apply getHamiltonPath_eq
    have := (hw first).mp (List.mem_cons_self _ _)
    omega

theorem perm_range_of_mem {p : List Nat} {n : Nat} (hnd : p.Nodup) (hmem : ∀ v, v ∈ p ↔ v < n) :
    p.Perm (List.range n) := by
  rw [List.perm_ext_iff_of_nodup hnd (List.nodup_range n)]
  intro v
  rw [hmem, List.mem_range]

/-- The path of `CChristofidesSolver.solve` is a rearrangement of the vertices `0 .. n-1`. -/
theorem solve_perm [LinearOrderedSemiring W] [FloorSemiring W] {n : Nat}
    {m : Matrix W} (hm : IsDistanceMatrix n m) (hn : 1 ≤ n) (hn31 : n ≤ 2 ^ 31) (root : Nat) :
    ∃ p, (∀ fuel, n * n + 1 < fuel → CChristofidesSolver.solve fuel m root = some p) ∧
      p.Perm (List.range n) := by
  obtain ⟨M, L, hML⟩ := merged_spec hm hn
  obtain ⟨w, _, hw, hsolve⟩ := solve_spec hm hn hn31 root hML
  exact ⟨firstOccurrences w, hsolve, perm_range_of_mem (nodup_firstOccurrences w)
    (fun v => by rw [mem_firstOccurrences]; exact hw v)⟩

theorem unitSquare_minEdges [LinearOrderedSemiring W] (d : W) (h1 : 1 < d) :
    Kruskal.minEdges (unitSquare d) = [⟨0, 1, 1⟩, ⟨0, 3, 1⟩, ⟨1, 2, 1⟩] := by
  have e0 : (0 : W) ≤ 1 := zero_le_one
  have e1 : (1 : W) ≤ d := le_of_lt h1
  have e2 : (0 : W) ≤ d := le_trans e0 e1
  have e3 : ¬ ((1 : W) ≤ 0) := not_le.mpr zero_lt_one
  have e4 : ¬ (d ≤ 1) := not_le.mpr h1
  have e5 : ¬ (d ≤ 0) := not_le.mpr (lt_of_lt_of_le zero_lt_one e1)
  have hall : Kruskal.allEdges (unitSquare d) =
      [⟨0, 0, 0⟩, ⟨0, 1, 1⟩, ⟨0, 2, d⟩, ⟨0, 3, 1⟩, ⟨1, 1, 0⟩, ⟨1, 2, 1⟩, ⟨1, 3, d⟩, ⟨2, 2, 0⟩,
        ⟨2, 3, 1⟩, ⟨3, 3, 0⟩] := by
    simp [Kruskal.allEdges, unitSquare, entry, List.range_succ, List.range']
  have hsort : Kruskal.sortEdges (Kruskal.allEdges (unitSquare d)) =
      [⟨0, 0, 0⟩, ⟨1, 1, 0⟩, ⟨2, 2, 0⟩, ⟨3, 3, 0⟩, ⟨0, 1, 1⟩, ⟨0, 3, 1⟩, ⟨1, 2, 1⟩, ⟨2, 3, 1⟩,
        ⟨0, 2, d⟩, ⟨1, 3, d⟩] := by
    rw [hall]
    simp [Kruskal.sortEdges, List.insertionSort, List.orderedInsert, e0, e1, e2, e3, e4, e5]
  unfold Kruskal.minEdges
  rw [hsort]
  simp [Kruskal.kruskalStep, Kruskal.relabel, unitSquare, List.range_succ]

theorem unitSquare_tree [LinearOrderedSemiring W] (d : W) (h1 : 1 < d) :
    Kruskal.getMinSpanningTree (unitSquare d) =
      [[0, 1, 0, 1], [1, 0, 1, 0], [0, 1, 0, 0], [1, 0, 0, 0]] := by
  unfold Kruskal.getMinSpanningTree
  rw [unitSquare_minEdges d h1]
  simp [createCompleteGraph, maxIdx, setEntry, List.replicate]

theorem unitSquare_odd [LinearOrderedSemiring W] [FloorSemiring W] (d : W) (h1 : 1 < d) :
    oddDegreeVertices (Kruskal.getMinSpanningTree (unitSquare d)) = [2, 3] := by
  rw [unitSquare_tree d h1]
  simp [oddDegreeVertices, degree, List.range_succ, List.filter, List.countP_cons,
    toSizeT_zero, toSizeT_one]

theorem unitSquare_merged [LinearOrderedSemiring W] [FloorSemiring W] (d : W) (h1 : 1 < d) :
    mergedEdges (unitSquare d) = some [⟨0, 1, 1⟩, ⟨0, 3, 1⟩, ⟨1, 0, 1⟩, ⟨1, 2, 1⟩, ⟨2, 1, 1⟩,
      ⟨3, 0, 1⟩, ⟨3, 2, 1⟩, ⟨2, 3, 1⟩] := by
  unfold mergedEdges
  rw [unitSquare_odd d h1, unitSquare_tree d h1]
  have hm : findMinimumWeightMatching (unitSquare d) [2, 3] = some [[], [], [3], [2]] := by
    simp [findMinimumWeightMatching, matchingLoop, minElement, minElementFrom, pushBack,
      unitSquare, List.replicate]
  rw [hm]
  simp [extractEdges, mergeMatching, mergeStep, entry, unitSquare, List.range_succ]

theorem unitSquare_euler (x : W) (fuel : Nat) (hfuel : 9 < fuel) (root : Nat) :
    getEulerPath fuel ([⟨0, 1, x⟩, ⟨0, 3, x⟩, ⟨1, 0, x⟩, ⟨1, 2, x⟩, ⟨2, 1, x⟩,
      ⟨3, 0, x⟩, ⟨3, 2, x⟩, ⟨2, 3, x⟩] : List (Edge W)) root = some [0, 3, 2, 1, 0] := by
  have htab : convertEdges ([⟨0, 1, x⟩, ⟨0, 3, x⟩, ⟨1, 0, x⟩, ⟨1, 2, x⟩, ⟨2, 1, x⟩,
      ⟨3, 0, x⟩, ⟨3, 2, x⟩, ⟨2, 3, x⟩] : List (Edge W)) =
      [[0, 1, 0, 1], [1, 0, 1, 0], [0, 1, 0, 1], [1, 0, 1, 0]] := by
    simp [convertEdges, maxIdx, incEntry, List.replicate, SIZE_MOD]
  unfold getEulerPath
  rw [htab]
  obtain ⟨k, rfl⟩ : ∃ k, fuel = 10 + k := ⟨fuel - 10, by omega⟩
  exact eulerLoop_mono 10 k _ _ _ _ (by decide)

theorem unitSquare_solve [LinearOrderedSemiring W] [FloorSemiring W] (d : W) (h1 : 1 < d)
    (fuel : Nat) (hfuel : 9 < fuel) (root : Nat) :
    CChristofidesSolver.solve fuel (unitSquare d) root = some [0, 3, 2, 1] := by
  unfold CChristofidesSolver.solve
  rw [unitSquare_merged d h1]
  simp only [Option.some_bind]
  rw [unitSquare_euler 1 fuel hfuel root]
  simp only [Option.some_bind]
  decide

theorem entry_floorMatrix [LinearOrderedSemiring W] [FloorSemiring W] (m : Matrix W)
    (a b : Nat) : entry (floorMatrix m) a b = Nat.floor (entry m a b) := by
  unfold entry floorMatrix
  simp only [List.getD_eq_getElem?_getD, List.getElem?_map]
  cases h1 : m[a]? with
  | none => simp
  | some row =>
    simp only [Option.map_some', Option.getD_some, List.getElem?_map]
    cases h2 : row[b]? with
    | none => simp
    | some x => simp

theorem calculate_length_floor [LinearOrderedSemiring W] [FloorSemiring W] (m : Matrix W)
    (hnn : ∀ a b, 0 ≤ entry m a b) (idxes : List Nat) :
    CBruteForceSolver.calculate_length m idxes =
      CBruteForceSolver.calculate_length (floorMatrix m) idxes := by
  unfold CBruteForceSolver.calculate_length
  congr 1
  funext length i
  rw [toSizeT_floor (add_nonneg (Nat.cast_nonneg _) (hnn _ _)), entry_floorMatrix, add_comm,
    Nat.floor_add_nat (hnn _ _)]
  simp only [Nat.cast_id]
  rw [Nat.add_comm]

/-- The brute-force search only sees the entries of the matrix through their conversion
to `size_t`. -/
theorem bruteLoop_floor [LinearOrderedSemiring W] [FloorSemiring W] (m : Matrix W)
    (hnn : ∀ a b, 0 ≤ entry m a b) :
    ∀ (fuel : Nat) (idxes : List Nat) (min_length : Nat) (min_sequence : List Nat),
      CBruteForceSolver.bruteLoop m fuel idxes min_length min_sequence =
        CBruteForceSolver.bruteLoop (floorMatrix m) fuel idxes min_length min_sequence := by
  intro fuel
  induction fuel with
  | zero => intro _ _ _; rfl
  | succ fuel ih =>
    intro idxes min_length min_sequence
    simp only [CBruteForceSolver.bruteLoop, calculate_length_floor m hnn, ih]

theorem bruteLoop_mono [LinearOrderedSemiring W] [FloorSemiring W] (m : Matrix W) :
    ∀ (fuel k : Nat) (idxes : List Nat) (min_length : Nat) (min_sequence p : List Nat),
      CBruteForceSolver.bruteLoop m fuel idxes min_length min_sequence = some p →
      CBruteForceSolver.bruteLoop m (fuel + k) idxes min_length min_sequence = some p := by
  intro fuel
  induction fuel with
  | zero => intro k idxes ml ms p h; simp [CBruteForceSolver.bruteLoop] at h
  | succ fuel ih =>
    intro k idxes ml ms p h
    rw [show fuel + 1 + k = (fuel + k) + 1 by omega]
    simp only [CBruteForceSolver.bruteLoop] at h ⊢
    split
    · next next hnp =>
      rw [hnp] at h
      simp only at h
      split at h
      · next hlt => rw [if_pos hlt]; exact ih k _ _ _ _ h
      · next hlt => rw [if_neg hlt]; exact ih k _ _ _ _ h
    · next hnp =>
      rw [hnp] at h
      exact h

theorem floorMatrix_unitSquare [LinearOrderedSemiring W] [FloorSemiring W] (d : W)
    (h1 : 1 < d) (h2 : d < 2) :
    floorMatrix (unitSquare d) = [[0, 1, 1, 1], [1, 0, 1, 1], [1, 1, 0, 1], [1, 1, 1, 0]] := by
  have hd : Nat.floor d = 1 := by
    rw [Nat.floor_eq_iff (le_of_lt (lt_trans zero_lt_one h1))]
    refine ⟨by simpa using le_of_lt h1, ?_⟩
    have : ((1 : Nat) : W) + 1 = 2 := by norm_num
    rw [this]
    exact h2
  simp [floorMatrix, unitSquare, hd]

theorem unitSquare_nonneg [LinearOrderedSemiring W] (d : W) (h1 : 1 < d) (a b : Nat) :
    0 ≤ entry (unitSquare d) a b := by
  have e0 : (0 : W) ≤ 1 := zero_le_one
  have e2 : (0 : W) ≤ d := le_trans e0 (le_of_lt h1)
  unfold entry unitSquare
  rcases a with _ | _ | _ | _ | a <;> rcases b with _ | _ | _ | _ | b <;>
    simp [e0, e2]

/-- On a first call the brute-force search returns `[0, 1, 2, 3]` on the unit square. -/
theorem unitSquare_brute [LinearOrderedSemiring W] [FloorSemiring W] (d : W) (h1 : 1 < d)
    (h2 : d < 2) (fuel : Nat) (hfuel : 23 < fuel) (root : Nat) :
    CBruteForceSolver.solve none fuel (unitSquare d) root = some [0, 1, 2, 3] := by
  unfold CBruteForceSolver.solve CBruteForceSolver.staticMatrix
  simp only [Option.getD_none]
  rw [bruteLoop_floor _ (unitSquare_nonneg d h1), floorMatrix_unitSquare d h1 h2]
  obtain ⟨k, rfl⟩ : ∃ k, fuel = 24 + k := ⟨fuel - 24, by omega⟩
  have hlen : (unitSquare d).length = 4 := rfl
  rw [hlen]
  exact bruteLoop_mono _ 24 k _ _ _ _ (by decide)

/-- On the unit square (sides `1`, diagonals `d` with `1 < d < 2`, as `d = √2` is) and for
every root, `CChristofidesSolver.solve` returns `[0, 3, 2, 1]` and, on a first call,
`CBruteForceSolver.solve` returns `[0, 1, 2, 3]`: two orders of the four vertices, each of
cost `4` as a tour (the consecutive edges and the closing edge). -/
theorem unitSquare_tours [LinearOrderedSemiring W] [FloorSemiring W] (d : W) (h1 : 1 < d)
    (h2 : d < 2) (root : Nat) :
    (∀ fuel, 9 < fuel → CChristofidesSolver.solve fuel (unitSquare d) root = some [0, 3, 2, 1]) ∧
    (∀ fuel, 23 < fuel →
      CBruteForceSolver.solve none fuel (unitSquare d) root = some [0, 1, 2, 3]) ∧
    [0, 3, 2, 1].Perm (List.range 4) ∧ [0, 1, 2, 3].Perm (List.range 4) ∧
    tourCost (unitSquare d) [0, 3, 2, 1] = 4 ∧ tourCost (unitSquare d) [0, 1, 2, 3] = 4 := by
  refine ⟨fun fuel hf => unitSquare_solve d h1 fuel hf root,
    fun fuel hf => unitSquare_brute d h1 h2 fuel hf root, by decide, by decide, ?_, ?_⟩
  · simp only [tourCost, pathCost, entry, unitSquare]
    norm_num
  · simp only [tourCost, pathCost, entry, unitSquare]
    norm_num

theorem one_lt_sqrt_two : (1 : Real) < Real.sqrt 2 :=
  (Real.lt_sqrt (by norm_num)).mpr (by norm_num)

theorem sqrt_two_lt_two : Real.sqrt 2 < 2 :=
  (Real.sqrt_lt' (by norm_num)).mpr (by norm_num)

theorem neighbourCount_eq_sum {k n : Nat} {table : List (List Nat)} (hsq : IsSquare k table)
    (hkn : k ≤ n) (v : Nat) :
    neighbourCount table v = ∑ b ∈ Finset.range n, if entry table v b ≠ 0 then 1 else 0 := by
  unfold neighbourCount
  rw [countP_eq_sum_getD 0]
  have hzero : ∀ b, (table.getD v []).length ≤ b → entry table v b = 0 := by
    intro b hb
    unfold entry
    exact List.getD_eq_default _ _ hb
  have hlen : (table.getD v []).length ≤ n := by
    by_cases hv : v < k
    · rw [hsq.2 v hv]; exact hkn
    · have : table.getD v [] = [] := List.getD_eq_default _ _ (by rw [hsq.1]; omega)
      rw [this]; simp
  have hsub : Finset.range (table.getD v []).length ⊆ Finset.range n := by
    intro x hx
    rw [Finset.mem_range] at hx ⊢
    omega
  rw [← Finset.sum_subset hsub]
  · apply Finset.sum_congr rfl
    intro b _
    unfold entry
    simp only [bne_iff_ne, ne_eq]
  · intro b _ hb
    rw [Finset.mem_range] at hb
    rw [hzero b (by omega)]
    simp

/-- The degree that `solve` counts is the number of non-zero entries of the row when no
weight lies strictly between `0` and `1` and every weight fits `size_t`. -/
theorem degree_eq_nonzero [LinearOrderedSemiring W] [FloorSemiring W] {n : Nat} {t : Matrix W}
    (hsq : IsSquare n t) (hone : ∀ a b, entry t a b ≠ 0 → 1 ≤ entry t a b)
    (hbig : ∀ a b, entry t a b < ((SIZE_MOD : Nat) : W)) (v : Nat) (hv : v < n) :
    degree (t.getD v []) = ∑ b ∈ Finset.range n, if entry t v b ≠ 0 then 1 else 0 := by
  rw [degree_eq_sum hsq v hv]
  apply Finset.sum_congr rfl
  intro b _
  by_cases h : entry t v b = 0
  · rw [h, toSizeT_zero]; simp
  · have h1 : toSizeT (entry t v b) ≠ 0 := toSizeT_ne_zero (hone v b h) (hbig v b)
    rw [if_pos h1, if_pos h]

theorem mem_oddDegreeVertices [LinearOrderedSemiring W] [FloorSemiring W] (t : Matrix W) (v : Nat) :
    v ∈ oddDegreeVertices t ↔ v < t.length ∧ degree (t.getD v []) % 2 ≠ 0 := by
  unfold oddDegreeVertices
  simp only [List.mem_filter, List.mem_range, bne_iff_ne, ne_eq]

/-- The parity of the degree of a vertex in the merged edge list. -/
theorem merged_degree [LinearOrderedSemiring W] [FloorSemiring W] {n : Nat} {m : Matrix W}
    (hm : IsDistanceMatrix n m) (hn : 1 ≤ n) (hn31 : n ≤ 2 ^ 31)
    (hone : ∀ a, a < n → ∀ b, b < n → a ≠ b → 1 ≤ entry m a b)
    (hbig : ∀ a, a < n → ∀ b, b < n → entry m a b < ((SIZE_MOD : Nat) : W))
    {M : List (List Nat)} {L : List (Edge W)} (hML : Merged n m M L) (v : Nat) (hv : v < n) :
    Even (neighbourCount (convertEdges L) v) ↔
      ∀ u ∈ M.getD v [], entry (Kruskal.getMinSpanningTree m) v u = 0 := by
  obtain ⟨tsq, tsym, tdiag, tw, _⟩ := treeMatrix_facts hm hn
  set t := Kruskal.getMinSpanningTree m with ht
  have hone_t : ∀ a b, entry t a b ≠ 0 → 1 ≤ entry t a b := by
    intro a b hab
    obtain ⟨ha, hb, hw⟩ := tw a b hab
    rw [hw]
    apply hone a ha b hb
    intro h
    apply hab
    rw [h]
    exact tdiag b
  have hbig_t : ∀ a b, entry t a b < ((SIZE_MOD : Nat) : W) := by
    intro a b
    by_cases hab : entry t a b = 0
    · rw [hab]
      exact Nat.cast_pos.mpr (by decide)
    · obtain ⟨ha, hb, hw⟩ := tw a b hab
      rw [hw]
      exact hbig a ha b hb
  have hLlen : L.length ≤ n * n := hML.ok.length_le
  have hnn : n * n < SIZE_MOD := by
    have : n * n ≤ 2 ^ 31 * 2 ^ 31 := Nat.mul_le_mul hn31 hn31
    unfold SIZE_MOD
    omega
  obtain ⟨hsq, hent⟩ := convertEdges_spec L (by omega)
  have hk := hML.ok.maxIdx_lt hn
  have hentry : ∀ b, b < n → (entry (convertEdges L) v b ≠ 0 ↔
      (entry t v b ≠ 0 ∨ b ∈ M.getD v [])) := by
    intro b hb
    rw [hent, hML.ok.dirCount_eq]
    have hmem := hML.mem v b
    constructor
    · intro h
      split at h
      · next h1 => exact (hmem.mp h1).2.2
      · exact absurd rfl h
    · intro h
      rw [if_pos (hmem.mpr ⟨hv, hb, h⟩)]
      exact one_ne_zero
  have hdeg := degree_eq_nonzero tsq hone_t hbig_t v hv
  have hcount : neighbourCount (convertEdges L) v =
      ∑ b ∈ Finset.range n, if (entry t v b ≠ 0 ∨ b ∈ M.getD v []) then 1 else 0 := by
    rw [neighbourCount_eq_sum hsq hk v]
    apply Finset.sum_congr rfl
    intro b hb
    have := hentry b (Finset.mem_range.mp hb)
    by_cases h : entry (convertEdges L) v b ≠ 0
    · rw [if_pos h, if_pos (this.mp h)]
    · rw [if_neg h, if_neg (fun h2 => h (this.mpr h2))]
  by_cases hodd : v ∈ oddDegreeVertices t
  · obtain ⟨u, hu, _, hMv, _⟩ := hML.paired v hodd
    have hun : u < n := by
      have := oddDegreeVertices_lt t u hu
      rw [tsq.1] at this
      exact this
    have hpar := ((mem_oddDegreeVertices t v).mp hodd).2
    rw [hMv]
    have hsplit : (∑ b ∈ Finset.range n,
        if (entry t v b ≠ 0 ∨ b ∈ M.getD v []) then 1 else 0) =
        (∑ b ∈ Finset.range n, if entry t v b ≠ 0 then 1 else 0) +
          if entry t v u = 0 then 1 else 0 := by
      have h1 : (if entry t v u = 0 then 1 else 0) =
          ∑ b ∈ Finset.range n, if b = u then (if entry t v b = 0 then 1 else 0) else 0 := by
        rw [Finset.sum_ite_eq' (Finset.range n) u, if_pos (Finset.mem_range.mpr hun)]
      rw [h1, ← Finset.sum_add_distrib]
      apply Finset.sum_congr rfl
      intro b _
      rw [hMv]
      simp only [List.mem_singleton]
      by_cases h3 : b = u
      · subst h3
        by_cases h2 : entry t v b = 0 <;> simp [h2]
      · by_cases h2 : entry t v b = 0 <;> simp [h2, h3]
    rw [hcount, hsplit, ← hdeg]
    simp only [List.mem_singleton, forall_eq]
    rw [Nat.even_iff]
    by_cases h : entry t v u = 0
    · simp only [h, if_true, iff_true]
      omega
    · simp only [h, if_false, iff_false]
      omega
  · have hMv := hML.unpaired v hodd
    have hpar : degree (t.getD v []) % 2 = 0 := by
      by_contra h
      exact hodd ((mem_oddDegreeVertices t v).mpr ⟨by rw [tsq.1]; exact hv, h⟩)
    rw [hcount, hMv]
    simp only [List.not_mem_nil, or_false, false_imp_iff, implies_true, iff_true]
    rw [← hdeg, Nat.even_iff]
    exact hpar

theorem findPivot_spec : ∀ (rest suf pre : List Nat) (p : Nat) (suf1 : List Nat),
    findPivot suf rest = some (pre, p, suf1) →
      rest.reverse ++ suf = pre.reverse ++ p :: suf1 ∧ ∃ s t, suf1 = s :: t ∧ p < s := by
  intro rest
  induction rest with
  | nil => intro suf pre p suf1 h; simp [findPivot] at h
  | cons x rest ih =>
    intro suf pre p suf1 h
    cases suf with
    | nil =>
      simp only [findPivot] at h
      obtain ⟨h1, h2⟩ := ih [x] pre p suf1 h
      refine ⟨?_, h2⟩
      rw [← h1]
      simp
    | cons s suf0 =>
      simp only [findPivot] at h
      split at h
      · next hlt =>
        simp only [Option.some.injEq, Prod.mk.injEq] at h
        obtain ⟨rfl, rfl, rfl⟩ := h
        exact ⟨by simp, s, suf0, rfl, hlt⟩
      · obtain ⟨h1, h2⟩ := ih (x :: s :: suf0) pre p suf1 h
        refine ⟨?_, h2⟩
        rw [← h1]
        simp

theorem lastGreater_spec (p : Nat) (suf : List Nat) (h : ∃ x ∈ suf, p < x) :
    lastGreater p suf < suf.length ∧ p < suf.getD (lastGreater p suf) 0 := by
  have hex : ∃ x ∈ suf.reverse, (fun x => decide (p < x)) x = true := by
    obtain ⟨x, hx, hpx⟩ := h
    exact ⟨x, List.mem_reverse.mpr hx, by simpa using hpx⟩
  have hk := List.findIdx_lt_length_of_exists hex
  rw [List.length_reverse] at hk
  have hj : lastGreater p suf < suf.length := by
    unfold lastGreater
    omega
  refine ⟨hj, ?_⟩
  have hk2 : suf.reverse.findIdx (fun x => decide (p < x)) < suf.reverse.length := by
    rw [List.length_reverse]; exact hk
  have := @List.findIdx_getElem Nat (fun x => decide (p < x)) suf.reverse hk2
  rw [List.getElem_reverse] at this
  rw [List.getD_eq_getElem _ _ hj]
  have hidx : suf.length - 1 - List.findIdx (fun x => decide (p < x)) suf.reverse =
      lastGreater p suf := rfl
  simp only [hidx] at this
  simpa using this

theorem set_perm_swap (l : List Nat) (j p : Nat) (hj : j < l.length) :
    (l.getD j 0 :: l.set j p).Perm (p :: l) := by
  induction l generalizing j with
  | nil => simp at hj
  | cons x xs ih =>
    cases j with
    | zero =>
      simp only [List.getD_cons_zero, List.set_cons_zero]
      exact List.Perm.swap _ _ _
    | succ j =>
      simp only [List.getD_cons_succ, List.set_cons_succ]
      have h1 := ih j (by simpa using hj)
      have h2 : (xs.getD j 0 :: x :: xs.set j p).Perm (x :: xs.getD j 0 :: xs.set j p) :=
        List.Perm.swap _ _ _
      have h3 : (x :: xs.getD j 0 :: xs.set j p).Perm (x :: p :: xs) := List.Perm.cons x h1
      have h4 : (x :: p :: xs).Perm (p :: x :: xs) := List.Perm.swap _ _ _
      exact h2.trans (h3.trans h4)

/-- The sequence that `std::next_permutation` leaves is a rearrangement of the one it got. -/
theorem nextPermutation_perm (l : List Nat) : (nextPermutation l).1.Perm l := by
  unfold nextPermutation
  split
  · exact List.reverse_perm l
  · next pre p suf hfp =>
    obtain ⟨h1, s, t, hs, hps⟩ := findPivot_spec _ _ _ _ _ hfp
    simp only [List.reverse_reverse, List.append_nil] at h1
    have hj := (lastGreater_spec p suf ⟨s, by rw [hs]; exact List.mem_cons_self _ _, hps⟩).1
    simp only
    rw [h1]
    apply List.Perm.append_left
    have h2 := set_perm_swap suf (lastGreater p suf) p hj
    have h3 : (suf.getD (lastGreater p suf) 0 :: (suf.set (lastGreater p suf) p).reverse).Perm
        (suf.getD (lastGreater p suf) 0 :: suf.set (lastGreater p suf) p) :=
      List.Perm.cons _ (List.reverse_perm _)
    exact h3.trans h2

theorem digitsValue_foldl (n : Nat) (l : List Nat) : ∀ acc : Nat,
    l.foldl (fun acc d => acc * n + d) acc = acc * n ^ l.length + digitsValue n l := by
  unfold digitsValue
  induction l with
  | nil => intro acc; simp
  | cons x xs ih =>
    intro acc
    simp only [List.foldl_cons, List.length_cons]
    rw [ih (acc * n + x), ih (0 * n + x)]
    ring

theorem digitsValue_append (n : Nat) (l1 l2 : List Nat) :
    digitsValue n (l1 ++ l2) = digitsValue n l1 * n ^ l2.length + digitsValue n l2 := by
  have := digitsValue_foldl n l2 (digitsValue n l1)
  unfold digitsValue at this ⊢
  rw [List.foldl_append]
  exact this

theorem digitsValue_cons (n x : Nat) (l : List Nat) :
    digitsValue n (x :: l) = x * n ^ l.length + digitsValue n l := by
  have := digitsValue_append n [x] l
  simp only [List.singleton_append] at this
  rw [this]
  simp [digitsValue]

theorem digitsValue_lt (n : Nat) (l : List Nat) (h : ∀ x ∈ l, x < n) :
    digitsValue n l < n ^ l.length := by
  induction l with
  | nil => simp [digitsValue]
  | cons x xs ih =>
    rw [digitsValue_cons, List.length_cons, pow_succ]
    have h1 := ih (fun y hy => h y (List.mem_cons_of_mem _ hy))
    have h2 := h x (List.mem_cons_self _ _)
    have h3 : x * n ^ xs.length + n ^ xs.length ≤ n ^ xs.length * n := by
      have : (x + 1) * n ^ xs.length ≤ n * n ^ xs.length :=
        Nat.mul_le_mul_right _ h2
      rw [Nat.mul_comm (n ^ xs.length) n]
      rw [Nat.add_mul, Nat.one_mul] at this
      exact this
    omega

/-- When `std::next_permutation` returns `true`, the value of the sequence has grown. -/
theorem nextPermutation_lt (n : Nat) (l l1 : List Nat) (hl : ∀ x ∈ l, x < n)
    (h : nextPermutation l = (l1, true)) : digitsValue n l < digitsValue n l1 := by
  unfold nextPermutation at h
  split at h
  · simp at h
  · next pre p suf hfp =>
    obtain ⟨h1, s, t, hs, hps⟩ := findPivot_spec _ _ _ _ _ hfp
    simp only [List.reverse_reverse, List.append_nil] at h1
    obtain ⟨hj, hgt⟩ := lastGreater_spec p suf ⟨s, by rw [hs]; exact List.mem_cons_self _ _, hps⟩
    simp only [Prod.mk.injEq, and_true] at h
    rw [← h, h1, digitsValue_append, digitsValue_append, digitsValue_cons, digitsValue_cons]
    simp only [List.length_cons, List.length_reverse, List.length_set]
    have hsuf : ∀ x ∈ suf, x < n := by
      intro x hx
      apply hl
      rw [h1]
      exact List.mem_append_right _ (List.mem_cons_of_mem _ hx)
    have hb := digitsValue_lt n suf hsuf
    have hmul : (p + 1) * n ^ suf.length ≤ suf.getD (lastGreater p suf) 0 * n ^ suf.length :=
      Nat.mul_le_mul_right _ hgt
    rw [Nat.add_mul, Nat.one_mul] at hmul
    omega

theorem pathCost_nonneg [OrderedSemiring W] {n : Nat} {m : Matrix W}
    (hnn : ∀ a, a < n → ∀ b, b < n → 0 ≤ entry m a b) :
    ∀ p : List Nat, (∀ v ∈ p, v < n) → 0 ≤ pathCost m p := by
  intro p
  induction p with
  | nil => intro _; exact le_refl _
  | cons x rest ih =>
    intro hp
    cases rest with
    | nil => exact le_refl _
    | cons z rest1 =>
      simp only [pathCost]
      exact add_nonneg
        (hnn x (hp x (List.mem_cons_self _ _)) z
          (hp z (List.mem_cons_of_mem _ (List.mem_cons_self _ _))))
        (ih (fun v hv => hp v (List.mem_cons_of_mem _ hv)))

/-- Under the triangle inequality, the weight between the first vertex of a path and any
vertex of the path is at most the cost of the path. -/
theorem entry_head_le_pathCost [OrderedSemiring W] {n : Nat} {m : Matrix W}
    (hnn : ∀ a, a < n → ∀ b, b < n → 0 ≤ entry m a b)
    (hdiag : ∀ a, a < n → entry m a a = 0)
    (htri : ∀ a, a < n → ∀ b, b < n → ∀ c, c < n → entry m a c ≤ entry m a b + entry m b c) :
    ∀ (rest : List Nat) (x y : Nat), (∀ v ∈ x :: rest, v < n) → y ∈ x :: rest →
      entry m x y ≤ pathCost m (x :: rest) := by
  intro rest
  induction rest with
  | nil =>
    intro x y hp hy
    simp only [List.mem_singleton] at hy
    subst hy
    rw [hdiag y (hp y (List.mem_cons_self _ _))]
    exact le_refl _
  | cons z rest1 ih =>
    intro x y hp hy
    have hx : x < n := hp x (List.mem_cons_self _ _)
    have hz : z < n := hp z (List.mem_cons_of_mem _ (List.mem_cons_self _ _))
    have hrest : ∀ v ∈ z :: rest1, v < n := fun v hv => hp v (List.mem_cons_of_mem _ hv)
    rcases List.mem_cons.mp hy with rfl | hy1
    · rw [hdiag y hx]
      exact pathCost_nonneg hnn _ hp
    · have h1 := ih z y hrest hy1
      have h2 := htri x hx z hz y (hrest y hy1)
      simp only [pathCost]
      exact le_trans h2 (add_le_add_left h1 _)

/-- Under symmetry and the triangle inequality, the weight between any two vertices of a
path is at most the cost of the path. -/
theorem entry_le_pathCost [OrderedSemiring W] {n : Nat} {m : Matrix W}
    (hnn : ∀ a, a < n → ∀ b, b < n → 0 ≤ entry m a b)
    (hdiag : ∀ a, a < n → entry m a a = 0)
    (hsymm : ∀ a, a < n → ∀ b, b < n → entry m a b = entry m b a)
    (htri : ∀ a, a < n → ∀ b, b < n → ∀ c, c < n → entry m a c ≤ entry m a b + entry m b c) :
    ∀ (p : List Nat) (a b : Nat), (∀ v ∈ p, v < n) → a ∈ p → b ∈ p →
      entry m a b ≤ pathCost m p := by
  intro p
  induction p with
  | nil => intro a b _ ha; simp at ha
  | cons x rest ih =>
    intro a b hp ha hb
    rcases List.mem_cons.mp ha with rfl | ha1
    · exact entry_head_le_pathCost hnn hdiag htri rest a b hp hb
    · rcases List.mem_cons.mp hb with rfl | hb1
      · rw [hsymm a (hp a ha) b (hp b hb)]
        exact entry_head_le_pathCost hnn hdiag htri rest b a hp ha
      · have hrest : ∀ v ∈ rest, v < n := fun v hv => hp v (List.mem_cons_of_mem _ hv)
        have h1 := ih a b hrest ha1 hb1
        cases rest with
        | nil => simp at ha1
        | cons z rest1 =>
          simp only [pathCost]
          have h0 : 0 ≤ entry m x z :=
            hnn x (hp x (List.mem_cons_self _ _)) z (hrest z (List.mem_cons_self _ _))
          exact le_trans h1 (le_add_of_nonneg_left h0)

/-- A path all of whose weights are at most `B` costs at most `B` times its number of
steps. -/
theorem pathCost_le_mul [OrderedSemiring W] (m : Matrix W) (B : W) :
    ∀ p : List Nat, (∀ a ∈ p, ∀ b ∈ p, entry m a b ≤ B) →
      pathCost m p ≤ ((p.length - 1 : Nat) : W) * B := by
  intro p
  induction p with
  | nil => intro _; simp [pathCost]
  | cons x rest ih =>
    intro hp
    cases rest with
    | nil => simp [pathCost]
    | cons z rest1 =>
      have h1 := ih (fun a ha b hb => hp a (List.mem_cons_of_mem _ ha) b
        (List.mem_cons_of_mem _ hb))
      have h2 := hp x (List.mem_cons_self _ _) z
        (List.mem_cons_of_mem _ (List.mem_cons_self _ _))
      simp only [pathCost, List.length_cons, Nat.add_sub_cancel] at h1 ⊢
      rw [Nat.cast_succ, add_mul, one_mul, add_comm]
      exact add_le_add h1 h2

theorem isDistanceMatrix_pair2 : IsDistanceMatrix 2 pair2 :=
  ⟨by unfold IsSquare; decide, by decide, by decide, by decide⟩

theorem isDistanceMatrix_line3 : IsDistanceMatrix 3 line3 :=
  ⟨by unfold IsSquare; decide, by decide, by decide, by decide⟩

/-- C1: for every distance matrix on `n ≥ 1` vertices (square, symmetric, zero diagonal,
positive off it; `n ≤ 2 ^ 31`, as for every matrix that fits the address space) and every
root, `CChristofidesSolver.solve` returns, for all fuel above `n * n + 1`, one and the same
sequence of length exactly `n` in which every vertex `0 .. n-1` occurs exactly once. -/
theorem solve_hamiltonian_path [LinearOrderedSemiring W] [FloorSemiring W] {n : Nat}
    {m : Matrix W} (hm : IsDistanceMatrix n m) (hn : 1 ≤ n) (hn31 : n ≤ 2 ^ 31) (root : Nat) :
    ∃ p, (∀ fuel, n * n + 1 < fuel → CChristofidesSolver.solve fuel m root = some p) ∧
      p.length = n ∧ p.Perm (List.range n) ∧ ∀ v, v < n → p.count v = 1 := by
  obtain ⟨p, hsolve, hperm⟩ := solve_perm hm hn hn31 root
  refine ⟨p, hsolve, ?_, hperm, ?_⟩
  · rw [hperm.length_eq, List.length_range]
  · intro v hv
    rw [hperm.count_eq, List.count_eq_of_nodup (List.nodup_range n),
      if_pos (List.mem_range.mpr hv)]

/-- The three points on a line, root `0`. -/
theorem solve_hamiltonian_path_witness :
    IsDistanceMatrix 3 line3 ∧
    ∃ p, (∀ fuel, 3 * 3 + 1 < fuel → CChristofidesSolver.solve fuel line3 0 = some p) ∧
      p.length = 3 ∧ p.Perm (List.range 3) ∧ ∀ v, v < 3 → p.count v = 1 :=
  ⟨isDistanceMatrix_line3,
    solve_hamiltonian_path isDistanceMatrix_line3 (by decide) (by decide) 0⟩

/-- C2, as stated, fails: the all-zero matrix on two vertices is square, symmetric and
non-negative, and the tree returned for it has no non-zero entry above the diagonal instead
of `2 - 1`. -/
theorem tree_edge_count_counterexample :
    IsSquare 2 zero2 ∧ (∀ a, a < 2 → ∀ b, b < 2 → entry zero2 a b = entry zero2 b a) ∧
    (∀ a, a < 2 → ∀ b, b < 2 → 0 ≤ entry zero2 a b) ∧
    (edgePairs 2 (Kruskal.getMinSpanningTree zero2)).card ≠ 2 - 1 :=
  ⟨by unfold IsSquare; decide, by decide, by decide, by decide⟩

/-- C2, amended: for every square matrix of size `n ≥ 1` whose entries above the diagonal are
strictly positive, the matrix returned by `Kruskal.getMinSpanningTree` has exactly `n - 1`
non-zero entries above the diagonal, and the graph of its non-zero entries joins all the
vertices `0 .. n-1` and has no cycle. -/
theorem tree_is_spanning_tree [LinearOrderedSemiring W] {n : Nat} {m : Matrix W}
    (hsq : IsSquare n m) (hn : 1 ≤ n) (hpos : ∀ a b, a < b → b < n → 0 < entry m a b) :
    (edgePairs n (Kruskal.getMinSpanningTree m)).card = n - 1 ∧
    (∀ u v, u < n → v < n → (matrixGraph (Kruskal.getMinSpanningTree m)).Reachable u v) ∧
    (matrixGraph (Kruskal.getMinSpanningTree m)).IsAcyclic := by
  have hK := minEdges_spec hsq hn
  unfold Kruskal.getMinSpanningTree
  exact ⟨card_edgePairs_tree hK hn hpos, reachable_tree hK hn hpos, acyclic_tree hK hn hpos⟩

/-- The three points on a line. -/
theorem tree_is_spanning_tree_witness :
    IsSquare 3 line3 ∧ (∀ a b, a < b → b < 3 → 0 < entry line3 a b) ∧
    (edgePairs 3 (Kruskal.getMinSpanningTree line3)).card = 3 - 1 ∧
    (∀ u v, u < 3 → v < 3 → (matrixGraph (Kruskal.getMinSpanningTree line3)).Reachable u v) ∧
    (matrixGraph (Kruskal.getMinSpanningTree line3)).IsAcyclic :=
  ⟨isDistanceMatrix_line3.square, isDistanceMatrix_line3.upper,
    tree_is_spanning_tree isDistanceMatrix_line3.square (by decide)
      isDistanceMatrix_line3.upper⟩

/-- C3: for every distance matrix on `n ≥ 1` vertices the edges of the matrix returned by
`Kruskal.getMinSpanningTree` form a spanning tree of the complete graph that joins all `n`
vertices, they carry the weights of the input, and their total weight is at most the total
weight of every spanning tree of the input. -/
theorem tree_is_minimum [LinearOrderedSemiring W] {n : Nat} {m : Matrix W}
    (hm : IsDistanceMatrix n m) (hn : 1 ≤ n) :
    IsSpanningTree n (edgePairs n (Kruskal.getMinSpanningTree m)) ∧
    (∀ u v, u < n → v < n → (matrixGraph (Kruskal.getMinSpanningTree m)).Reachable u v) ∧
    (∀ a b, entry (Kruskal.getMinSpanningTree m) a b ≠ 0 →
      entry (Kruskal.getMinSpanningTree m) a b = entry m a b) ∧
    ∀ T, IsSpanningTree n T →
      weight (Kruskal.getMinSpanningTree m) (upperPairs n) ≤ weight m T := by
  have hK := minEdges_spec hm.square hn
  unfold Kruskal.getMinSpanningTree
  refine ⟨spanningTree_tree hK hn hm.upper, reachable_tree hK hn hm.upper,
    tree_carries_weights hK hn hm.symm, ?_⟩
  intro T hT
  rw [weight_tree hK hn hm.symm]
  exact weight_tree_le hK hn hm.upper T hT.1

/-- The three points on a line. -/
theorem tree_is_minimum_witness :
    IsDistanceMatrix 3 line3 ∧
    IsSpanningTree 3 (edgePairs 3 (Kruskal.getMinSpanningTree line3)) ∧
    (∀ u v, u < 3 → v < 3 → (matrixGraph (Kruskal.getMinSpanningTree line3)).Reachable u v) ∧
    (∀ a b, entry (Kruskal.getMinSpanningTree line3) a b ≠ 0 →
      entry (Kruskal.getMinSpanningTree line3) a b = entry line3 a b) ∧
    ∀ T, IsSpanningTree 3 T →
      weight (Kruskal.getMinSpanningTree line3) (upperPairs 3) ≤ weight line3 T :=
  ⟨isDistanceMatrix_line3, tree_is_minimum isDistanceMatrix_line3 (by decide)⟩

/-- C4, as stated, fails: for two vertices at distance `1` the matching edge `0 - 1` is
already a tree edge and is not added again, so the list handed to `getEulerPath` is
`[(0, 1), (1, 0)]` and vertex `0` has one neighbour in its table. -/
theorem merged_degree_counterexample :
    IsDistanceMatrix 2 pair2 ∧
    mergedEdges pair2 = some [⟨0, 1, 1⟩, ⟨1, 0, 1⟩] ∧
    ¬ Even (neighbourCount (convertEdges ([⟨0, 1, 1⟩, ⟨1, 0, 1⟩] : List (Edge Nat))) 0) :=
  ⟨isDistanceMatrix_pair2, by decide, by decide⟩

/-- C4, amended: for every distance matrix on `n ≥ 1` vertices (`n ≤ 2 ^ 31`) whose
off-diagonal weights are at least `1` and below `2 ^ 64`, `solve` gets a matching and an edge
list, and in the table that `convertEdges` builds from that list a vertex has an even number
of neighbours exactly when it is not matched to a vertex that is already its neighbour in
the tree. -/
theorem merged_degree_even_iff [LinearOrderedSemiring W] [FloorSemiring W] {n : Nat}
    {m : Matrix W} (hm : IsDistanceMatrix n m) (hn : 1 ≤ n) (hn31 : n ≤ 2 ^ 31)
    (hone : ∀ a, a < n → ∀ b, b < n → a ≠ b → 1 ≤ entry m a b)
    (hbig : ∀ a, a < n → ∀ b, b < n → entry m a b < ((SIZE_MOD : Nat) : W)) :
    ∃ M L, findMinimumWeightMatching m (oddDegreeVertices (Kruskal.getMinSpanningTree m)) =
        some M ∧ mergedEdges m = some L ∧
      ∀ v, v < n → (Even (neighbourCount (convertEdges L) v) ↔
        ∀ u ∈ M.getD v [], entry (Kruskal.getMinSpanningTree m) v u = 0) := by
  obtain ⟨M, L, hML⟩ := merged_spec hm hn
  exact ⟨M, L, hML.matching, hML.merged,
    fun v hv => merged_degree hm hn hn31 hone hbig hML v hv⟩

/-- The three points on a line. -/
theorem merged_degree_even_iff_witness :
    IsDistanceMatrix 3 line3 ∧ (∀ a, a < 3 → ∀ b, b < 3 → a ≠ b → 1 ≤ entry line3 a b) ∧
    (∀ a, a < 3 → ∀ b, b < 3 → entry line3 a b < ((SIZE_MOD : Nat) : Nat)) ∧
    ∃ M L, findMinimumWeightMatching line3
        (oddDegreeVertices (Kruskal.getMinSpanningTree line3)) = some M ∧
      mergedEdges line3 = some L ∧
      ∀ v, v < 3 → (Even (neighbourCount (convertEdges L) v) ↔
        ∀ u ∈ M.getD v [], entry (Kruskal.getMinSpanningTree line3) v u = 0) :=
  ⟨isDistanceMatrix_line3, by decide, by decide,
    merged_degree_even_iff isDistanceMatrix_line3 (by decide) (by decide) (by decide)
      (by decide)⟩

/-- C5: for every edge list (shorter than `2 ^ 64`) that lists each undirected edge in both
directions, in which every edge can be reached from vertex `0` and every vertex has even
degree, `getEulerPath` returns, for all fuel above `edges.length + 1`, one walk with (number
of undirected edges) + 1 entries that runs along every edge exactly once: the list, which
holds every undirected edge twice, is as a multiset of unordered pairs two copies of the
pairs of consecutive entries of the walk. -/
theorem euler_path_uses_every_edge_once (edges : List (Edge W)) (root : Nat)
    (hlen : edges.length < SIZE_MOD) (hboth : ListsBothDirections edges)
    (hconn : ∀ e ∈ edges, Relation.ReflTransGen (edgeRel edges) 0 e.from_)
    (heven : ∀ v, v ≤ maxIdx edges → Even (degreeOf edges v)) :
    ∃ p, (∀ fuel, edges.length + 1 < fuel → getEulerPath fuel edges root = some p) ∧
      p.length = edges.length / 2 + 1 ∧
      (Multiset.ofList (walkPairs p) + Multiset.ofList (walkPairs p) : Multiset (Sym2 Nat)) =
        Multiset.ofList (edges.map fun e => s(e.from_, e.to_)) := by
  obtain ⟨p, hrun, hsize, hcnt⟩ := getEulerPath_euler edges root hlen hboth hconn heven
  exact ⟨p, hrun, by omega, walkPairs_eq_edges edges p hboth.all.1 hcnt⟩

/-- The triangle `0 - 1 - 2`. -/
theorem euler_path_uses_every_edge_once_witness :
    ListsBothDirections triangle ∧
    (∀ e ∈ triangle, Relation.ReflTransGen (edgeRel triangle) 0 e.from_) ∧
    (∀ v, v ≤ maxIdx triangle → Even (degreeOf triangle v)) ∧
    ∃ p, (∀ fuel, triangle.length + 1 < fuel → getEulerPath fuel triangle 0 = some p) ∧
      p.length = triangle.length / 2 + 1 ∧
      (Multiset.ofList (walkPairs p) + Multiset.ofList (walkPairs p) : Multiset (Sym2 Nat)) =
        Multiset.ofList (triangle.map fun e => s(e.from_, e.to_)) :=
  have hboth : ListsBothDirections triangle := by unfold ListsBothDirections; decide
  have hconn : ∀ e ∈ triangle, Relation.ReflTransGen (edgeRel triangle) 0 e.from_ := by
    have h01 : edgeRel triangle 0 1 := ⟨⟨0, 1, 1⟩, by decide, Or.inl ⟨rfl, rfl⟩⟩
    have h02 : edgeRel triangle 0 2 := ⟨⟨0, 2, 1⟩, by decide, Or.inl ⟨rfl, rfl⟩⟩
    intro e he
    simp only [triangle, List.mem_cons, List.mem_singleton, List.not_mem_nil, or_false] at he
    rcases he with rfl | rfl | rfl | rfl | rfl | rfl
    · exact Relation.ReflTransGen.refl
    · exact Relation.ReflTransGen.single h01
    · exact Relation.ReflTransGen.single h01
    · exact Relation.ReflTransGen.single h02
    · exact Relation.ReflTransGen.refl
    · exact Relation.ReflTransGen.single h02
  have heven : ∀ v, v ≤ maxIdx triangle → Even (degreeOf triangle v) := by decide
  ⟨hboth, hconn, heven,
    euler_path_uses_every_edge_once triangle 0 (by decide) hboth hconn heven⟩

/-- C6: on the triangle `0 - 1 - 2` with the start vertex `root = 1`, `getEulerPath` returns
the walk `[0, 2, 1, 0]`, which starts and ends at vertex `0`, not at the root: the argument
is not used. -/
theorem euler_path_ignores_root :
    getEulerPath 8 triangle 1 = some [0, 2, 1, 0] ∧
    ∀ fuel (edges : List (Edge W)) (r1 r2 : Nat),
      getEulerPath fuel edges r1 = getEulerPath fuel edges r2 :=
  ⟨by decide, fun _ _ _ _ => rfl⟩

/-- C7: for every non-empty walk whose first vertex is below `2 ^ 31` (as every row index
of a matrix is, and `solve` passes walks of row indices only), `getHamiltonPath` returns the
walk with every occurrence of a vertex after its first one removed: a sequence without
repetition, with exactly the vertices of the walk, in the order of their first
occurrence. -/
theorem hamilton_path_first_occurrences (first : Nat) (rest : List Nat)
    (h : first < 2 ^ 31) :
    ∃ p, getHamiltonPath (first :: rest) = some p ∧ p = firstOccurrences (first :: rest) ∧
      p.Nodup ∧ (∀ v, v ∈ p ↔ v ∈ first :: rest) ∧ p.Sublist (first :: rest) :=
  ⟨firstOccurrences (first :: rest), getHamiltonPath_eq first rest h, rfl,
    nodup_firstOccurrences _, mem_firstOccurrences _, firstOccurrences_sublist _⟩

/-- The walk `[0, 2, 1, 0, 2]`. -/
theorem hamilton_path_first_occurrences_witness :
    (0 : Nat) < 2 ^ 31 ∧ getHamiltonPath [0, 2, 1, 0, 2] = some [0, 2, 1] ∧
    ∃ p, getHamiltonPath [0, 2, 1, 0, 2] = some p ∧ p = firstOccurrences [0, 2, 1, 0, 2] ∧
      p.Nodup ∧ (∀ v, v ∈ p ↔ v ∈ [0, 2, 1, 0, 2]) ∧ p.Sublist [0, 2, 1, 0, 2] :=
  ⟨by decide, by decide, hamilton_path_first_occurrences 0 [2, 1, 0, 2] (by decide)⟩

/-- C10: for every matrix and every even-length list of distinct vertex ids below its size,
`findMinimumWeightMatching` returns a table with one list per row of the matrix in which
every listed vertex has exactly one partner, a different listed vertex whose own list is
exactly that vertex, and every other list is empty; membership in the lists is symmetric. -/
theorem matching_is_perfect_pairing [LinearOrder W] [Zero W] (m : Matrix W)
    (odd_vertices : List Nat) (heven : Even odd_vertices.length) (hnd : odd_vertices.Nodup)
    (hlt : ∀ v ∈ odd_vertices, v < m.length) :
    ∃ table, findMinimumWeightMatching m odd_vertices = some table ∧
      table.length = m.length ∧
      (∀ v ∈ odd_vertices, ∃ u ∈ odd_vertices,
        u ≠ v ∧ table.getD v [] = [u] ∧ table.getD u [] = [v]) ∧
      (∀ v, v ∉ odd_vertices → table.getD v [] = []) ∧
      ∀ a b, a ∈ table.getD b [] ↔ b ∈ table.getD a [] := by
  obtain ⟨t, ht, hlen, hpair, hunp⟩ := matchingLoop_spec m odd_vertices.length odd_vertices
    (List.replicate m.length []) (le_refl _) heven hnd
    (by intro v hv; rw [List.length_replicate]; exact hlt v hv)
  rw [List.length_replicate] at hlen
  have hpair2 : ∀ v ∈ odd_vertices, ∃ u ∈ odd_vertices,
      u ≠ v ∧ t.getD v [] = [u] ∧ t.getD u [] = [v] := by
    intro v hv
    obtain ⟨u, hu, huv, h1, h2⟩ := hpair v hv
    rw [getD_replicate_nil] at h1 h2
    exact ⟨u, hu, huv, h1, h2⟩
  have hunp2 : ∀ v, v ∉ odd_vertices → t.getD v [] = [] := by
    intro v hv
    rw [hunp v hv, getD_replicate_nil]
  have hhalf : ∀ a b, a ∈ t.getD b [] → b ∈ t.getD a [] := by
    intro a b hab
    by_cases hb : b ∈ odd_vertices
    · obtain ⟨u, _, _, h1, h2⟩ := hpair2 b hb
      rw [h1] at hab
      rw [List.mem_singleton.mp hab, h2]
      exact List.mem_singleton_self _
    · rw [hunp2 b hb] at hab
      simp at hab
  exact ⟨t, ht, hlen, hpair2, hunp2, fun a b => ⟨hhalf a b, hhalf b a⟩⟩

/-- Two vertices at distance `1`, both listed. -/
theorem matching_is_perfect_pairing_witness :
    Even [0, 1].length ∧ [0, 1].Nodup ∧ (∀ v ∈ [0, 1], v < pair2.length) ∧
    ∃ table, findMinimumWeightMatching pair2 [0, 1] = some table ∧
      table.length = pair2.length ∧
      (∀ v ∈ [0, 1], ∃ u ∈ [0, 1],
        u ≠ v ∧ table.getD v [] = [u] ∧ table.getD u [] = [v]) ∧
      (∀ v, v ∉ [0, 1] → table.getD v [] = []) ∧
      ∀ a b, a ∈ table.getD b [] ↔ b ∈ table.getD a [] :=
  ⟨by decide, by decide, by decide,
    matching_is_perfect_pairing pair2 [0, 1] (by decide) (by decide) (by decide)⟩

/-- The matcher is never run on an odd number of vertices by `solve`. -/
theorem matching_defined [LinearOrderedSemiring W] [FloorSemiring W] {n : Nat} {m : Matrix W}
    (hsq : IsSquare n m) (hn : 1 ≤ n) :
    Even (oddDegreeVertices (Kruskal.getMinSpanningTree m)).length ∧
      ∃ M, findMinimumWeightMatching m (oddDegreeVertices (Kruskal.getMinSpanningTree m)) =
        some M := by
  obtain ⟨tsq, tsym, tdiag⟩ := treeMatrix_shape hsq hn
  have heven := even_oddDegreeVertices tsq tsym tdiag
  refine ⟨heven, ?_⟩
  obtain ⟨M, hM, _⟩ := matchingLoop_spec m
    (oddDegreeVertices (Kruskal.getMinSpanningTree m)).length
    (oddDegreeVertices (Kruskal.getMinSpanningTree m)) (List.replicate m.length [])
    (le_refl _) heven (oddDegreeVertices_nodup _)
    (by
      intro v hv
      have := oddDegreeVertices_lt _ v hv
      rw [tsq.1] at this
      rw [List.length_replicate, hsq.1]
      exact this)
  exact ⟨M, hM⟩

theorem isSquare_line3 : IsSquare 3 line3 := by
  unfold IsSquare
  decide

/-- C12: for every square matrix of size `n ≥ 1`, the list of odd-degree vertices that
`solve` computes from the result of `Kruskal.getMinSpanningTree` has even length, and
`findMinimumWeightMatching` run on it returns a table: it never searches an empty range. -/
theorem odd_vertices_even_count [LinearOrderedSemiring W] [FloorSemiring W] {n : Nat}
    {m : Matrix W} (hsq : IsSquare n m) (hn : 1 ≤ n) :
    Even (oddDegreeVertices (Kruskal.getMinSpanningTree m)).length ∧
      ∃ M, findMinimumWeightMatching m (oddDegreeVertices (Kruskal.getMinSpanningTree m)) =
        some M :=
  matching_defined hsq hn

/-- The three points on a line. -/
theorem odd_vertices_even_count_witness :
    IsSquare 3 line3 ∧
    Even (oddDegreeVertices (Kruskal.getMinSpanningTree line3)).length ∧
      ∃ M, findMinimumWeightMatching line3
        (oddDegreeVertices (Kruskal.getMinSpanningTree line3)) = some M :=
  ⟨isSquare_line3, odd_vertices_even_count isSquare_line3 (by decide)⟩

/-- C14: for every square matrix of size `n ≥ 1`, `Kruskal.getMinSpanningTree` returns a
matrix with `n` rows of `n` entries that is symmetric and has a zero diagonal; for `n = 1`
it is the `1 x 1` zero matrix. -/
theorem tree_matrix_shape [LinearOrderedSemiring W] {n : Nat} {m : Matrix W}
    (hsq : IsSquare n m) (hn : 1 ≤ n) :
    IsSquare n (Kruskal.getMinSpanningTree m) ∧
      (∀ a b, entry (Kruskal.getMinSpanningTree m) a b =
        entry (Kruskal.getMinSpanningTree m) b a) ∧
      (∀ a, entry (Kruskal.getMinSpanningTree m) a a = 0) ∧
      (n = 1 → Kruskal.getMinSpanningTree m = [[0]]) := by
  obtain ⟨h1, h2, h3⟩ := treeMatrix_shape hsq hn
  refine ⟨h1, h2, h3, ?_⟩
  intro h
  subst h
  exact tree_of_one_vertex hsq

/-- The three points on a line. -/
theorem tree_matrix_shape_witness :
    IsSquare 3 line3 ∧
    IsSquare 3 (Kruskal.getMinSpanningTree line3) ∧
      (∀ a b, entry (Kruskal.getMinSpanningTree line3) a b =
        entry (Kruskal.getMinSpanningTree line3) b a) ∧
      (∀ a, entry (Kruskal.getMinSpanningTree line3) a a = 0) ∧
      (3 = 1 → Kruskal.getMinSpanningTree line3 = [[0]]) :=
  ⟨isSquare_line3, tree_matrix_shape isSquare_line3 (by decide)⟩

/-- C18: the argument `root` has no influence on either solver: for every matrix and every
two roots, `CChristofidesSolver.solve` returns the same for both, and so does
`CBruteForceSolver.solve`, on a first call and on every later one. -/
theorem root_has_no_influence [LinearOrderedSemiring W] [FloorSemiring W]
    (earlier : Option (Matrix W)) (fuel : Nat) (m : Matrix W) (r1 r2 : Nat) :
    CChristofidesSolver.solve fuel m r1 = CChristofidesSolver.solve fuel m r2 ∧
      CBruteForceSolver.solve earlier fuel m r1 = CBruteForceSolver.solve earlier fuel m r2 :=
  ⟨rfl, rfl⟩

theorem shortPair_tree [LinearOrderedSemiring W] (d : W) (hd : 0 < d) :
    Kruskal.getMinSpanningTree (shortPair d) = shortPair d := by
  have e1 : (0 : W) ≤ d := le_of_lt hd
  have e2 : ¬ (d ≤ 0) := not_le.mpr hd
  have hall : Kruskal.allEdges (shortPair d) = [⟨0, 0, 0⟩, ⟨0, 1, d⟩, ⟨1, 1, 0⟩] := by
    simp [Kruskal.allEdges, shortPair, entry, List.range_succ, List.range']
  have hsort : Kruskal.sortEdges (Kruskal.allEdges (shortPair d)) =
      [⟨0, 0, 0⟩, ⟨1, 1, 0⟩, ⟨0, 1, d⟩] := by
    rw [hall]
    simp [Kruskal.sortEdges, List.insertionSort, List.orderedInsert, e1, e2]
  have hmin : Kruskal.minEdges (shortPair d) = [⟨0, 1, d⟩] := by
    unfold Kruskal.minEdges
    rw [hsort]
    simp [Kruskal.kruskalStep, Kruskal.relabel, shortPair, List.range_succ]
  unfold Kruskal.getMinSpanningTree
  rw [hmin]
  simp [createCompleteGraph, maxIdx, setEntry, List.replicate, shortPair]

theorem shortPair_degree [LinearOrderedSemiring W] [FloorSemiring W] (d : W) (hd : 0 < d)
    (hd1 : d < 1) :
    ((shortPair d).getD 0 []).countP (fun x => decide (x ≠ 0)) = 1 ∧
      degree ((shortPair d).getD 0 []) = 0 ∧ oddDegreeVertices (shortPair d) = [] := by
  have hfl : toSizeT d = 0 := toSizeT_of_lt_one hd1
  have hne : d ≠ 0 := ne_of_gt hd
  refine ⟨?_, ?_, ?_⟩
  · simp [shortPair, List.countP_cons, hne]
  · simp [shortPair, degree, List.countP_cons, hfl, toSizeT_zero]
  · simp [oddDegreeVertices, shortPair, degree, List.range_succ, List.filter,
      List.countP_cons, hfl, toSizeT_zero]

/-- C11 fails on the code: with the remaining vertices `0, 1, 2, 3` of `sparse4` (the odd
vertices that `solve` finds in its tree), the first round pairs vertex `0` with vertex `1`,
whose entry in row `0` is zero, although vertex `2` has the non-zero entry `1`. -/
theorem matching_keeps_zero_entry :
    oddDegreeVertices (Kruskal.getMinSpanningTree sparse4) = [0, 1, 2, 3] ∧
    findMinimumWeightMatching sparse4 [0, 1, 2, 3] = some [[1], [0], [3], [2]] ∧
    entry sparse4 0 1 = 0 ∧ entry sparse4 0 2 ≠ 0 :=
  ⟨by decide, by decide, by decide, by decide⟩

/-- C15 fails on the code: for two vertices at distance one half, row `0` of the tree
matrix has one non-zero entry, yet the degree that `solve` counts for it is `0`, and no
vertex is handed to the matcher. -/
theorem degree_truncates_small_weight :
    Kruskal.getMinSpanningTree halfPair = halfPair ∧
    ((Kruskal.getMinSpanningTree halfPair).getD 0 []).countP (fun x => decide (x ≠ 0)) = 1 ∧
    degree ((Kruskal.getMinSpanningTree halfPair).getD 0 []) = 0 ∧
    oddDegreeVertices (Kruskal.getMinSpanningTree halfPair) = [] := by
  have h0 : (0 : ℚ) < 1 / 2 := by norm_num
  have h1 : (1 / 2 : ℚ) < 1 := by norm_num
  have ht : Kruskal.getMinSpanningTree halfPair = halfPair := shortPair_tree (1 / 2) h0
  rw [ht]
  exact ⟨rfl, shortPair_degree (1 / 2) h0 h1⟩

theorem mergedOK_table [Zero W] [DecidableEq W] {n : Nat} {m : Matrix W} {L : List (Edge W)}
    (h : MergedOK n m L) (hn32 : n < 2 ^ 32) :
    (∀ a b, dirCount L a b ≤ 1) ∧
      ∀ a b, entry (convertEdges L) a b = 0 ∨ entry (convertEdges L) a b = 1 := by
  have hcount : ∀ a b, dirCount L a b ≤ 1 := by
    intro a b
    rw [h.dirCount_eq]
    split <;> omega
  have hlen : L.length < SIZE_MOD := by
    have h1 := h.length_le
    have h2 : n * n ≤ (2 ^ 32 - 1) * (2 ^ 32 - 1) := Nat.mul_le_mul (by omega) (by omega)
    unfold SIZE_MOD
    omega
  refine ⟨hcount, ?_⟩
  intro a b
  rw [(convertEdges_spec L hlen).2 a b]
  have := hcount a b
  omega

/-- C16: for every square symmetric matrix of size `n ≥ 1` (`n < 2 ^ 32`), the edge list
that `solve` assembles from the tree edges and the matching edges has no entry twice and no
directed pair `(from, to)` twice, so every entry of the table that `convertEdges` builds from
it is `0` or `1`. -/
theorem merged_edges_no_duplicates [LinearOrderedSemiring W] [FloorSemiring W] {n : Nat}
    {m : Matrix W} (hsq : IsSquare n m)
    (hsym : ∀ a, a < n → ∀ b, b < n → entry m a b = entry m b a) (hn : 1 ≤ n)
    (hn32 : n < 2 ^ 32) :
    ∃ L, mergedEdges m = some L ∧ L.Nodup ∧ (∀ a b, dirCount L a b ≤ 1) ∧
      ∀ a b, entry (convertEdges L) a b = 0 ∨ entry (convertEdges L) a b = 1 := by
  obtain ⟨M, L, hML⟩ := merged_of_symmetric hsq hsym hn
  obtain ⟨h1, h2⟩ := mergedOK_table hML.ok hn32
  exact ⟨L, hML.merged, hML.ok.nodup, h1, h2⟩

/-- The three points on a line. -/
theorem merged_edges_no_duplicates_witness :
    IsSquare 3 line3 ∧
    ∃ L, mergedEdges line3 = some L ∧ L.Nodup ∧ (∀ a b, dirCount L a b ≤ 1) ∧
      ∀ a b, entry (convertEdges L) a b = 0 ∨ entry (convertEdges L) a b = 1 :=
  ⟨isSquare_line3, merged_edges_no_duplicates isSquare_line3 (by decide) (by decide)
    (by decide)⟩

theorem sum_degreeOf_subset (S : Finset Nat) (es : List (Edge W)) :
    ∑ a ∈ S, degreeOf es a = es.countP (fun e => decide (e.from_ ∈ S)) := by
  induction es with
  | nil => simp [degreeOf]
  | cons e es ih =>
    unfold degreeOf at ih ⊢
    simp only [List.countP_cons]
    rw [Finset.sum_add_distrib, ih]
    congr 1
    by_cases h : e.from_ ∈ S
    · simp [h]
    · simp only [beq_iff_eq, h, decide_False, Bool.false_eq_true, if_false]
      apply Finset.sum_eq_zero
      intro a ha
      have : e.from_ ≠ a := fun h1 => h (h1 ▸ ha)
      simp [this]

/-- The walk that `getEulerPath` returns for any edge list with both directions listed: it
visits exactly the vertices that can be reached from vertex `0`, and it has one entry more
than there are undirected edges at those vertices. -/
theorem getEulerPath_cover (edges : List (Edge W)) (root : Nat)
    (hlen : edges.length < SIZE_MOD) (hboth : ListsBothDirections edges) :
    ∃ p, (∀ fuel, edges.length + 1 < fuel → getEulerPath fuel edges root = some p) ∧
      (∀ v, v ∈ p ↔ Relation.ReflTransGen (edgeRel edges) 0 v) ∧
      2 * p.length = edges.countP (fun e => decide (e.from_ ∈ p)) + 2 := by
  have hboth := hboth.all
  obtain ⟨hsq, hent⟩ := convertEdges_spec edges hlen
  have hlt : ∀ e ∈ edges, e.from_ < maxIdx edges + 1 ∧ e.to_ < maxIdx edges + 1 := by
    intro e he
    have := le_maxIdx edges e he
    omega
  have hT : TableOK (maxIdx edges + 1) (convertEdges edges) := by
    refine ⟨hsq, ?_, ?_, ?_⟩
    · intro a b; rw [hent, hent]; exact hboth.1 a b
    · intro a b; rw [hent]; have := dirCount_le edges a b; omega
    · intro a; rw [hent]; exact hboth.2 a
  have hrow : ∀ u, rowSum (maxIdx edges + 1) (convertEdges edges) u = degreeOf edges u := by
    intro u
    unfold rowSum
    rw [← sum_dirCount _ edges (fun e he => (hlt e he).2) u]
    exact Finset.sum_congr rfl (fun b _ => hent u b)
  have htotal : total (maxIdx edges + 1) (convertEdges edges) = edges.length := by
    unfold total
    rw [← sum_degreeOf _ edges (fun e he => (hlt e he).1)]
    exact Finset.sum_congr rfl (fun a _ => hrow a)
  have hpos : ∀ a b, entry (convertEdges edges) a b ≠ 0 → edgeRel edges a b := by
    intro a b h
    rw [hent] at h
    unfold dirCount at h
    obtain ⟨e, he, h2⟩ := List.countP_pos_iff.mp (Nat.pos_of_ne_zero h)
    simp only [Bool.and_eq_true, beq_iff_eq] at h2
    exact ⟨e, he, Or.inl h2⟩
  have hadj : ∀ a b, edgeRel edges a b → entry (convertEdges edges) a b ≠ 0 := by
    rintro a b ⟨e, he, hj⟩
    rw [hent]
    have h1 : dirCount edges e.from_ e.to_ ≠ 0 := by
      unfold dirCount
      apply Nat.ne_of_gt
      exact List.countP_pos_iff.mpr ⟨e, he, by simp⟩
    rcases hj with ⟨h2, h3⟩ | ⟨h2, h3⟩
    · rw [← h2, ← h3]; exact h1
    · rw [← h2, ← h3, hboth.1]; exact h1
  obtain ⟨p, hrun, hmem, hplt, hsize⟩ := eulerLoop_cover hT (Nat.succ_pos _)
  refine ⟨p, ?_, ?_, ?_⟩
  · intro fuel hfuel
    unfold getEulerPath
    exact hrun fuel (by rw [htotal]; exact hfuel)
  · intro v
    rw [hmem v]
    exact ⟨fun h => h.mono hpos, fun h => h.mono hadj⟩
  · rw [hsize]
    congr 1
    rw [Finset.sum_congr rfl (fun a _ => hrow a), sum_degreeOf_subset]
    apply List.countP_congr
    intro e he
    simp only [Finset.mem_filter, Finset.mem_range, decide_eq_true_eq]
    exact ⟨fun h => h.2, fun h => ⟨(hlt e he).1, h⟩⟩

/-- C17: for every edge list (shorter than `2 ^ 64`) that lists each undirected edge in both
directions, connected or not and with even degrees or not, `getEulerPath` returns, for all
fuel above `edges.length + 1`, one walk whose entries are exactly the vertices that can be
reached from vertex `0`, and whose number of entries is `1` plus the number of undirected
edges at those vertices: twice that number is the number of listed edges that start at a
vertex of the walk. -/
theorem euler_path_stays_in_component (edges : List (Edge W)) (root : Nat)
    (hlen : edges.length < SIZE_MOD) (hboth : ListsBothDirections edges) :
    ∃ p, (∀ fuel, edges.length + 1 < fuel → getEulerPath fuel edges root = some p) ∧
      (∀ v, v ∈ p ↔ Relation.ReflTransGen (edgeRel edges) 0 v) ∧
      2 * p.length = 2 * 1 + edges.countP (fun e => decide (e.from_ ∈ p)) := by
  obtain ⟨p, hrun, hmem, hsize⟩ := getEulerPath_cover edges root hlen hboth
  exact ⟨p, hrun, hmem, by omega⟩

/-- The two separate edges: the walk is `[1, 0]` and never reaches `2 - 3`. -/
theorem euler_path_stays_in_component_witness :
    ListsBothDirections twoParts ∧ getEulerPath 6 twoParts 0 = some [1, 0] ∧
    ∃ p, (∀ fuel, twoParts.length + 1 < fuel → getEulerPath fuel twoParts 0 = some p) ∧
      (∀ v, v ∈ p ↔ Relation.ReflTransGen (edgeRel twoParts) 0 v) ∧
      2 * p.length = 2 * 1 + twoParts.countP (fun e => decide (e.from_ ∈ p)) :=
  have hboth : ListsBothDirections twoParts := by unfold ListsBothDirections; decide
  ⟨hboth, by decide, euler_path_stays_in_component twoParts 0 (by decide) hboth⟩

theorem digitsValue_cons_lt (n x y : Nat) (l l1 : List Nat) (hlen : l.length = l1.length)
    (hl : ∀ d ∈ l, d < n) (hxy : x < y) :
    digitsValue n (x :: l) < digitsValue n (y :: l1) := by
  rw [digitsValue_cons, digitsValue_cons, ← hlen]
  have h1 := digitsValue_lt n l hl
  have h2 : (x + 1) * n ^ l.length ≤ y * n ^ l.length := Nat.mul_le_mul_right _ hxy
  rw [Nat.add_mul, Nat.one_mul] at h2
  omega

theorem digitsValue_cons_le_iff (n x : Nat) (l l1 : List Nat) (hlen : l.length = l1.length) :
    digitsValue n (x :: l) ≤ digitsValue n (x :: l1) ↔ digitsValue n l ≤ digitsValue n l1 := by
  rw [digitsValue_cons, digitsValue_cons, ← hlen]
  omega

/-- Among the rearrangements of a non-increasing sequence, the sequence itself has the
largest value. -/
theorem digitsValue_le_of_desc (n : Nat) : ∀ (l q : List Nat), l.Pairwise (fun a b => b ≤ a) →
    q.Perm l → (∀ d ∈ l, d < n) → digitsValue n q ≤ digitsValue n l := by
  intro l
  induction l with
  | nil =>
    intro q _ hq _
    rw [List.Perm.eq_nil hq]
  | cons x t ih =>
    intro q hs hq hl
    cases q with
    | nil => exact absurd hq.symm (List.cons_ne_nil _ _ ∘ List.Perm.eq_nil)
    | cons y q1 =>
      have hlen : q1.length = t.length := by
        have := hq.length_eq
        simpa using this
      have hy : y ∈ x :: t := hq.subset (List.mem_cons_self _ _)
      have hq1 : ∀ d ∈ q1, d < n := fun d hd => hl d (hq.subset (List.mem_cons_of_mem _ hd))
      by_cases hyx : y = x
      · subst hyx
        rw [digitsValue_cons_le_iff n y q1 t hlen]
        exact ih q1 (List.pairwise_cons.mp hs).2 (List.Perm.cons_inv hq)
          (fun d hd => hl d (List.mem_cons_of_mem _ hd))
      · have hyt : y ∈ t := by
          rcases List.mem_cons.mp hy with h | h
          · exact absurd h hyx
          · exact h
        have hle : y ≤ x := (List.pairwise_cons.mp hs).1 y hyt
        exact le_of_lt (digitsValue_cons_lt n y x q1 t hlen hq1 (by omega))

/-- Among the rearrangements of a non-decreasing sequence, the sequence itself has the
smallest value. -/
theorem digitsValue_ge_of_asc (n : Nat) : ∀ (l q : List Nat), l.Pairwise (fun a b => a ≤ b) →
    q.Perm l → (∀ d ∈ l, d < n) → digitsValue n l ≤ digitsValue n q := by
  intro l
  induction l with
  | nil =>
    intro q _ hq _
    rw [List.Perm.eq_nil hq]
  | cons x t ih =>
    intro q hs hq hl
    cases q with
    | nil => exact absurd hq.symm (List.cons_ne_nil _ _ ∘ List.Perm.eq_nil)
    | cons y q1 =>
      have hlen : t.length = q1.length := by
        have := hq.length_eq
        simp only [List.length_cons] at this
        omega
      have hy : y ∈ x :: t := hq.subset (List.mem_cons_self _ _)
      have ht : ∀ d ∈ t, d < n := fun d hd => hl d (List.mem_cons_of_mem _ hd)
      by_cases hyx : y = x
      · subst hyx
        rw [digitsValue_cons_le_iff n y t q1 hlen]
        exact ih q1 (List.pairwise_cons.mp hs).2 (List.Perm.cons_inv hq) ht
      · have hyt : y ∈ t := by
          rcases List.mem_cons.mp hy with h | h
          · exact absurd h hyx
          · exact h
        have hle : x ≤ y := (List.pairwise_cons.mp hs).1 y hyt
        exact le_of_lt (digitsValue_cons_lt n x y t q1 hlen ht (by omega))

/-- Two sequences of the same length with digits below `n` and the same value are equal. -/
theorem digitsValue_inj (n : Nat) : ∀ (l q : List Nat), l.length = q.length →
    (∀ d ∈ l, d < n) → (∀ d ∈ q, d < n) → digitsValue n l = digitsValue n q → l = q := by
  intro l
  induction l with
  | nil =>
    intro q hlen _ _ _
    exact (List.length_eq_zero.mp hlen.symm).symm
  | cons x t ih =>
    intro q hlen hl hq hv
    cases q with
    | nil => simp at hlen
    | cons y q1 =>
      have hlen1 : t.length = q1.length := by simpa using hlen
      have ht : ∀ d ∈ t, d < n := fun d hd => hl d (List.mem_cons_of_mem _ hd)
      have hq1 : ∀ d ∈ q1, d < n := fun d hd => hq d (List.mem_cons_of_mem _ hd)
      rcases Nat.lt_trichotomy x y with h | h | h
      · have := digitsValue_cons_lt n x y t q1 hlen1 ht h
        omega
      · subst h
        have h1 := (digitsValue_cons_le_iff n x t q1 hlen1).mp (le_of_eq hv)
        have h2 := (digitsValue_cons_le_iff n x q1 t hlen1.symm).mp (le_of_eq hv.symm)
        rw [ih q1 hlen1 ht hq1 (le_antisymm h1 h2)]
      · have := digitsValue_cons_lt n y x q1 t hlen1.symm hq1 h
        omega

/-- The order of the values is the lexicographic order. -/
theorem lex_of_digitsValue_lt (n : Nat) : ∀ (l q : List Nat), l.length = q.length →
    (∀ d ∈ l, d < n) → (∀ d ∈ q, d < n) → digitsValue n l < digitsValue n q →
    List.Lex (fun a b => a < b) l q := by
  intro l
  induction l with
  | nil =>
    intro q hlen _ _ hv
    rw [List.length_eq_zero.mp hlen.symm] at hv
    exact absurd hv (lt_irrefl _)
  | cons x t ih =>
    intro q hlen hl hq hv
    cases q with
    | nil => simp at hlen
    | cons y q1 =>
      have hlen1 : t.length = q1.length := by simpa using hlen
      have ht : ∀ d ∈ t, d < n := fun d hd => hl d (List.mem_cons_of_mem _ hd)
      have hq1 : ∀ d ∈ q1, d < n := fun d hd => hq d (List.mem_cons_of_mem _ hd)
      rcases Nat.lt_trichotomy x y with h | h | h
      · exact List.Lex.rel h
      · subst h
        apply List.Lex.cons
        apply ih q1 hlen1 ht hq1
        have := (digitsValue_cons_le_iff n x q1 t hlen1.symm).not
        rw [digitsValue_cons, digitsValue_cons, hlen1] at hv
        omega
      · have := digitsValue_cons_lt n y x q1 t hlen1.symm hq1 h
        omega

/-- The scan of `std::next_permutation` passes over a non-increasing end of the sequence:
the suffix it stops at is non-increasing, and when it finds no pivot the whole sequence
is. -/
theorem findPivot_sorted : ∀ (rest suf : List Nat), suf.Pairwise (fun a b => b ≤ a) →
    (∀ pre p suf1, findPivot suf rest = some (pre, p, suf1) →
      suf1.Pairwise (fun a b => b ≤ a)) ∧
    (findPivot suf rest = none → (rest.reverse ++ suf).Pairwise (fun a b => b ≤ a)) := by
  intro rest
  induction rest with
  | nil =>
    intro suf hs
    exact ⟨fun pre p suf1 h => by simp [findPivot] at h, fun _ => by simpa using hs⟩
  | cons x rest ih =>
    intro suf hs
    cases suf with
    | nil =>
      have h1 := ih [x] (List.pairwise_singleton _ _)
      simp only [findPivot]
      refine ⟨h1.1, ?_⟩
      intro h
      have := h1.2 h
      simpa using this
    | cons s suf0 =>
      simp only [findPivot]
      by_cases hlt : x < s
      · rw [if_pos hlt]
        refine ⟨?_, fun h => by simp at h⟩
        intro pre p suf1 h
        simp only [Option.some.injEq, Prod.mk.injEq] at h
        rw [← h.2.2]
        exact hs
      · rw [if_neg hlt]
        have hx : (x :: s :: suf0).Pairwise (fun a b => b ≤ a) := by
          rw [List.pairwise_cons]
          refine ⟨?_, hs⟩
          intro b hb
          rcases List.mem_cons.mp hb with rfl | hb1
          · omega
          · have := (List.pairwise_cons.mp hs).1 b hb1
            omega
        have h1 := ih (x :: s :: suf0) hx
        refine ⟨h1.1, ?_⟩
        intro h
        have := h1.2 h
        simpa using this

/-- The elements behind the one that `std::next_permutation` swaps with the pivot are not
greater than the pivot. -/
theorem lastGreater_after (p : Nat) (suf : List Nat) (k : Nat) (hk : k < suf.length)
    (hjk : lastGreater p suf < k) : suf.getD k 0 ≤ p := by
  have hlen : suf.reverse.length = suf.length := List.length_reverse suf
  have hi : suf.length - 1 - k < suf.reverse.findIdx (fun x => decide (p < x)) := by
    unfold lastGreater at hjk
    omega
  have hlt : suf.length - 1 - k < suf.reverse.length := by
    rw [hlen]
    omega
  have h1 := @List.not_of_lt_findIdx Nat (fun x => decide (p < x)) suf.reverse
    (suf.length - 1 - k) hi
  have h2 : suf.reverse[suf.length - 1 - k] = suf.getD k 0 := by
    rw [List.getElem_reverse, List.getD_eq_getElem _ _ hk]
    congr 1
    omega
  rw [h2] at h1
  simpa using h1

/-- The shape of a step of `std::next_permutation` that returns `true`: the pivot `p` is
swapped with the last greater element `s` behind it, and the end is reversed. -/
theorem nextPermutation_shape (l l1 : List Nat) (h : nextPermutation l = (l1, true)) :
    ∃ pre p A s B, l = pre ++ p :: (A ++ s :: B) ∧
      l1 = pre ++ s :: (B.reverse ++ p :: A.reverse) ∧ p < s ∧
      (A ++ s :: B).Pairwise (fun a b => b ≤ a) ∧ ∀ b ∈ B, b ≤ p := by
  unfold nextPermutation at h
  split at h
  · simp at h
  · next pre p suf hfp =>
    obtain ⟨h1, s0, t, hs, hps⟩ := findPivot_spec _ _ _ _ _ hfp
    simp only [List.reverse_reverse, List.append_nil] at h1
    have hsorted := (findPivot_sorted l.reverse [] List.Pairwise.nil).1 pre p suf hfp
    obtain ⟨hj, hgt⟩ := lastGreater_spec p suf ⟨s0, by rw [hs]; exact List.mem_cons_self _ _, hps⟩
    simp only [Prod.mk.injEq, and_true] at h
    have hsplit : suf = suf.take (lastGreater p suf) ++
        suf.getD (lastGreater p suf) 0 :: suf.drop (lastGreater p suf + 1) := by
      rw [List.getD_eq_getElem _ _ hj]
      conv_lhs => rw [← List.take_append_drop (lastGreater p suf) suf]
      rw [List.drop_eq_getElem_cons hj]
    have hset : suf.set (lastGreater p suf) p = suf.take (lastGreater p suf) ++
        p :: suf.drop (lastGreater p suf + 1) := by
      rw [List.set_eq_take_append_cons_drop, if_pos hj]
    refine ⟨pre.reverse, p, suf.take (lastGreater p suf), suf.getD (lastGreater p suf) 0,
      suf.drop (lastGreater p suf + 1), ?_, ?_, hgt, ?_, ?_⟩
    · rw [← hsplit]
      exact h1
    · rw [← h, hset]
      simp
    · rw [← hsplit]
      exact hsorted
    · intro b hb
      obtain ⟨i, hi, rfl⟩ := List.getElem_of_mem hb
      rw [List.getElem_drop]
      rw [List.length_drop] at hi
      have hk : lastGreater p suf + 1 + i < suf.length := by omega
      have := lastGreater_after p suf (lastGreater p suf + 1 + i) hk (by omega)
      rw [List.getD_eq_getElem _ _ hk] at this
      exact this

/-- When `std::next_permutation` returns `false` the sequence was non-increasing. -/
theorem nextPermutation_last (l l1 : List Nat) (h : nextPermutation l = (l1, false)) :
    l.Pairwise (fun a b => b ≤ a) := by
  unfold nextPermutation at h
  split at h
  · next hfp =>
    have := (findPivot_sorted l.reverse [] List.Pairwise.nil).2 hfp
    simpa using this
  · simp at h

theorem swapped_perm (p s : Nat) (A B : List Nat) :
    (s :: (B.reverse ++ p :: A.reverse)).Perm (p :: (A ++ s :: B)) := by
  have h1 : (B.reverse ++ p :: A.reverse).Perm (p :: (B.reverse ++ A.reverse)) :=
    List.perm_middle
  have h2 : (B.reverse ++ A.reverse).Perm (A ++ B) :=
    (List.Perm.append (List.reverse_perm B) (List.reverse_perm A)).trans
      List.perm_append_comm
  have h3 : (A ++ s :: B).Perm (s :: (A ++ B)) := List.perm_middle
  have h4 : (s :: (B.reverse ++ p :: A.reverse)).Perm (s :: p :: (A ++ B)) :=
    List.Perm.cons s (h1.trans (List.Perm.cons p h2))
  have h5 : (s :: p :: (A ++ B)).Perm (p :: s :: (A ++ B)) := List.Perm.swap _ _ _
  exact h4.trans (h5.trans (List.Perm.cons p h3.symm))

theorem swapped_asc (p s : Nat) (A B : List Nat) (hps : p < s)
    (hsorted : (A ++ s :: B).Pairwise (fun a b => b ≤ a)) (hB : ∀ b ∈ B, b ≤ p) :
    (B.reverse ++ p :: A.reverse).Pairwise (fun a b => a ≤ b) := by
  rw [List.pairwise_append] at hsorted
  obtain ⟨hA, hsB, hAB⟩ := hsorted
  have hBs := (List.pairwise_cons.mp hsB).2
  have hsA : ∀ a ∈ A, s ≤ a := fun a ha => hAB a ha s (List.mem_cons_self _ _)
  rw [List.pairwise_append]
  refine ⟨List.pairwise_reverse.mpr hBs, ?_, ?_⟩
  · rw [List.pairwise_cons]
    refine ⟨?_, List.pairwise_reverse.mpr hA⟩
    intro a ha
    have := hsA a (List.mem_reverse.mp ha)
    omega
  · intro b hb a ha
    have h1 := hB b (List.mem_reverse.mp hb)
    rcases List.mem_cons.mp ha with rfl | ha1
    · exact h1
    · have := hsA a (List.mem_reverse.mp ha1)
      omega

/-- The step of `std::next_permutation` at the pivot: no rearrangement lies strictly
between the sequence and its successor. -/
theorem succ_core (n p s : Nat) (A B q : List Nat) (hps : p < s)
    (hsorted : (A ++ s :: B).Pairwise (fun a b => b ≤ a)) (hB : ∀ b ∈ B, b ≤ p)
    (hdig : ∀ d ∈ p :: (A ++ s :: B), d < n) (hq : q.Perm (p :: (A ++ s :: B)))
    (hlt : digitsValue n (p :: (A ++ s :: B)) < digitsValue n q) :
    digitsValue n (s :: (B.reverse ++ p :: A.reverse)) ≤ digitsValue n q := by
  cases q with
  | nil => exact absurd hq.symm (List.cons_ne_nil _ _ ∘ List.Perm.eq_nil)
  | cons y q1 =>
    have hlen : q1.length = (A ++ s :: B).length := by
      have := hq.length_eq
      simpa using this
    have hq1 : ∀ d ∈ q1, d < n := fun d hd => hdig d (hq.subset (List.mem_cons_of_mem _ hd))
    have hsuf : ∀ d ∈ A ++ s :: B, d < n := fun d hd => hdig d (List.mem_cons_of_mem _ hd)
    have hsp := swapped_perm p s A B
    have hr : ∀ d ∈ B.reverse ++ p :: A.reverse, d < n :=
      fun d hd => hdig d (hsp.subset (List.mem_cons_of_mem _ hd))
    have hrlen : (B.reverse ++ p :: A.reverse).length = q1.length := by
      have := hsp.length_eq
      simp only [List.length_cons] at this
      omega
    rcases Nat.lt_trichotomy y p with h | h | h
    · have := digitsValue_cons_lt n y p q1 (A ++ s :: B) hlen hq1 h
      omega
    · subst h
      have h1 := digitsValue_le_of_desc n (A ++ s :: B) q1 hsorted (List.Perm.cons_inv hq) hsuf
      have h2 := (digitsValue_cons_le_iff n y q1 (A ++ s :: B) hlen).mpr h1
      omega
    · have hy : y ∈ A ++ s :: B := by
        rcases List.mem_cons.mp (hq.subset (List.mem_cons_self _ _)) with h1 | h1
        · omega
        · exact h1
      have hsy : s ≤ y := by
        rcases List.mem_append.mp hy with h1 | h1
        · exact (List.pairwise_append.mp hsorted).2.2 y h1 s (List.mem_cons_self _ _)
        · rcases List.mem_cons.mp h1 with h2 | h2
          · omega
          · have := hB y h2
            omega
      rcases Nat.lt_or_eq_of_le hsy with h1 | h1
      · exact le_of_lt (digitsValue_cons_lt n s y _ q1 hrlen hr h1)
      · subst h1
        have hperm : q1.Perm (B.reverse ++ p :: A.reverse) :=
          List.Perm.cons_inv (hq.trans hsp.symm)
        have h2 := digitsValue_ge_of_asc n _ q1 (swapped_asc p s A B hps hsorted hB) hperm hr
        exact (digitsValue_cons_le_iff n s _ q1 hrlen).mpr h2

theorem succ_after_head (n : Nat) (l0 l1 : List Nat) (hsame : l1.Perm l0)
    (core : ∀ q, q.Perm l0 → digitsValue n l0 < digitsValue n q →
      digitsValue n l1 ≤ digitsValue n q) :
    ∀ (pre q : List Nat), q.Perm (pre ++ l0) → (∀ d ∈ pre ++ l0, d < n) →
      digitsValue n (pre ++ l0) < digitsValue n q →
      digitsValue n (pre ++ l1) ≤ digitsValue n q := by
  intro pre
  induction pre with
  | nil => intro q hq _ hlt; exact core q hq hlt
  | cons x pre ih =>
    intro q hq hdig hlt
    cases q with
    | nil => exact absurd hq.symm (List.cons_ne_nil _ _ ∘ List.Perm.eq_nil)
    | cons y q1 =>
      have hlen : q1.length = (pre ++ l0).length := by
        have := hq.length_eq
        simpa using this
      have hlen1 : (pre ++ l1).length = q1.length := by
        rw [hlen, List.length_append, List.length_append, hsame.length_eq]
      have hq1 : ∀ d ∈ q1, d < n :=
        fun d hd => hdig d (hq.subset (List.mem_cons_of_mem _ hd))
      have hrest : ∀ d ∈ pre ++ l0, d < n := fun d hd => hdig d (List.mem_cons_of_mem _ hd)
      have hrest1 : ∀ d ∈ pre ++ l1, d < n := by
        intro d hd
        apply hrest
        rcases List.mem_append.mp hd with h | h
        · exact List.mem_append_left _ h
        · exact List.mem_append_right _ (hsame.subset h)
      rw [List.cons_append] at hlt hq ⊢
      rcases Nat.lt_trichotomy y x with h | h | h
      · have := digitsValue_cons_lt n y x q1 (pre ++ l0) hlen hq1 h
        omega
      · subst h
        rw [digitsValue_cons_le_iff n y _ q1 hlen1]
        apply ih q1 (List.Perm.cons_inv hq) hrest
        have := (digitsValue_cons_le_iff n y q1 (pre ++ l0) hlen).not
        rw [not_le, not_le] at this
        exact this.mp hlt
      · exact le_of_lt (digitsValue_cons_lt n x y _ q1 hlen1 hrest1 h)

/-- The sequence that `std::next_permutation` produces is the next rearrangement: every
rearrangement with a greater value than the old sequence has at least the value of the new
one. -/
theorem nextPermutation_succ (n : Nat) (l l1 q : List Nat)
    (h : nextPermutation l = (l1, true)) (hl : ∀ d ∈ l, d < n) (hq : q.Perm l)
    (hlt : digitsValue n l < digitsValue n q) : digitsValue n l1 ≤ digitsValue n q := by
  obtain ⟨pre, p, A, s, B, rfl, rfl, hps, hsorted, hB⟩ := nextPermutation_shape l l1 h
  apply succ_after_head n (p :: (A ++ s :: B)) (s :: (B.reverse ++ p :: A.reverse))
    (swapped_perm p s A B) _ pre q hq hl hlt
  intro q1 hq1 hlt1
  exact succ_core n p s A B q1 hps hsorted hB
    (fun d hd => hl d (List.mem_append_right _ hd)) hq1 hlt1

/-- When `std::next_permutation` returns `false`, no rearrangement has a greater value. -/
theorem nextPermutation_max (n : Nat) (l l1 q : List Nat)
    (h : nextPermutation l = (l1, false)) (hl : ∀ d ∈ l, d < n) (hq : q.Perm l) :
    digitsValue n q ≤ digitsValue n l :=
  digitsValue_le_of_desc n l q (nextPermutation_last l l1 h) hq hl

/-- The rearrangements that the brute-force loop still has to try after the sequence `l`:
`l` itself and those from the next sequence on. -/
theorem remaining_after_step (n : Nat) (l l1 q : List Nat)
    (h : nextPermutation l = (l1, true)) (hl : l.Perm (List.range n))
    (hq : q.Perm (List.range n)) (hle : digitsValue n l ≤ digitsValue n q) :
    q = l ∨ digitsValue n l1 ≤ digitsValue n q := by
  have hdl : ∀ d ∈ l, d < n := fun d hd => List.mem_range.mp (hl.subset hd)
  have hdq : ∀ d ∈ q, d < n := fun d hd => List.mem_range.mp (hq.subset hd)
  rcases Nat.lt_or_eq_of_le hle with h1 | h1
  · exact Or.inr (nextPermutation_succ n l l1 q h hdl (hq.trans hl.symm) h1)
  · exact Or.inl (digitsValue_inj n l q (hl.length_eq.trans hq.length_eq.symm) hdl hdq h1).symm

theorem remaining_at_end (n : Nat) (l l1 q : List Nat)
    (h : nextPermutation l = (l1, false)) (hl : l.Perm (List.range n))
    (hq : q.Perm (List.range n)) (hle : digitsValue n l ≤ digitsValue n q) : q = l := by
  have hdl : ∀ d ∈ l, d < n := fun d hd => List.mem_range.mp (hl.subset hd)
  have hdq : ∀ d ∈ q, d < n := fun d hd => List.mem_range.mp (hq.subset hd)
  have h1 := nextPermutation_max n l l1 q h hdl (hq.trans hl.symm)
  exact (digitsValue_inj n l q (hl.length_eq.trans hq.length_eq.symm) hdl hdq
    (le_antisymm hle h1)).symm

/-- What the brute-force loop returns when it is at the sequence `l` with the bound
`min_length` and the best sequence `min_sequence`: if no rearrangement from `l` on costs
less than the bound it is `min_sequence`; otherwise it is the first of the cheapest
rearrangements from `l` on. -/
theorem bruteLoop_spec [LinearOrderedSemiring W] [FloorSemiring W] (m : Matrix W) (n : Nat) :
    ∀ (fuel : Nat) (l : List Nat) (ml : Nat) (ms : List Nat),
      l.Perm (List.range n) → n ^ n - digitsValue n l < fuel →
      ∃ p, CBruteForceSolver.bruteLoop m fuel l ml ms = some p ∧
        (((∀ q, q.Perm (List.range n) → digitsValue n l ≤ digitsValue n q →
            ml ≤ CBruteForceSolver.calculate_length m q) ∧ p = ms) ∨
          (p.Perm (List.range n) ∧ digitsValue n l ≤ digitsValue n p ∧
            CBruteForceSolver.calculate_length m p < ml ∧
            (∀ q, q.Perm (List.range n) → digitsValue n l ≤ digitsValue n q →
              CBruteForceSolver.calculate_length m p ≤
                CBruteForceSolver.calculate_length m q) ∧
            (∀ q, q.Perm (List.range n) → digitsValue n l ≤ digitsValue n q →
              CBruteForceSolver.calculate_length m q =
                CBruteForceSolver.calculate_length m p →
              digitsValue n p ≤ digitsValue n q))) := by
  intro fuel
  induction fuel with
  | zero => intro l ml ms _ h; omega
  | succ fuel ih =>
    intro l ml ms hl hfuel
    have hmem : ∀ x ∈ l, x < n := fun x hx => List.mem_range.mp (hl.mem_iff.mp hx)
    simp only [CBruteForceSolver.bruteLoop]
    split
    · next next hnp =>
      have hperm : next.Perm (List.range n) := by
        have := nextPermutation_perm l
        rw [hnp] at this
        exact this.trans hl
      have hlt := nextPermutation_lt n l next hmem hnp
      have hb : digitsValue n next < n ^ n := by
        have := digitsValue_lt n next
          (fun x hx => List.mem_range.mp (hperm.mem_iff.mp hx))
        rw [hperm.length_eq, List.length_range] at this
        exact this
      have hf : n ^ n - digitsValue n next < fuel := by omega
      have hrem := fun q hq hle => remaining_after_step n l next q hnp hl hq hle
      split
      · next hc =>
        obtain ⟨p, hp, hcase⟩ := ih next (CBruteForceSolver.calculate_length m l) l hperm hf
        refine ⟨p, hp, Or.inr ?_⟩
        rcases hcase with ⟨hall, rfl⟩ | ⟨h1, h2, h3, h4, h5⟩
        · refine ⟨hl, le_refl _, hc, ?_, ?_⟩
          · intro q hq hle
            rcases hrem q hq hle with rfl | h6
            · exact le_refl _
            · exact hall q hq h6
          · intro q _ hle _
            exact hle
        · refine ⟨h1, by omega, by omega, ?_, ?_⟩
          · intro q hq hle
            rcases hrem q hq hle with rfl | h6
            · omega
            · exact h4 q hq h6
          · intro q hq hle hcq
            rcases hrem q hq hle with rfl | h6
            · omega
            · exact h5 q hq h6 hcq
      · next hc =>
        obtain ⟨p, hp, hcase⟩ := ih next ml ms hperm hf
        refine ⟨p, hp, ?_⟩
        rcases hcase with ⟨hall, rfl⟩ | ⟨h1, h2, h3, h4, h5⟩
        · refine Or.inl ⟨?_, rfl⟩
          intro q hq hle
          rcases hrem q hq hle with rfl | h6
          · omega
          · exact hall q hq h6
        · refine Or.inr ⟨h1, by omega, h3, ?_, ?_⟩
          · intro q hq hle
            rcases hrem q hq hle with rfl | h6
            · omega
            · exact h4 q hq h6
          · intro q hq hle hcq
            rcases hrem q hq hle with rfl | h6
            · omega
            · exact h5 q hq h6 hcq
    · next l1 hnp =>
      have hrem := fun q hq hle => remaining_at_end n l l1 q hnp hl hq hle
      split
      · next hc =>
        refine ⟨l, rfl, Or.inr ⟨hl, le_refl _, hc, ?_, ?_⟩⟩
        · intro q hq hle
          rw [hrem q hq hle]
        · intro q hq hle _
          exact hle
      · next hc =>
        refine ⟨ms, rfl, Or.inl ⟨?_, rfl⟩⟩
        intro q hq hle
        rw [hrem q hq hle]
        omega

/-- What `CBruteForceSolver.solve` returns, with the costs taken on the matrix of its
lambda: the empty sequence if no order of the vertices costs less than `0xFFFFFFFF`, and
otherwise the first, in lexicographic order, of the cheapest orders. -/
theorem bruteSolve_spec [LinearOrderedSemiring W] [FloorSemiring W] {n : Nat} {m : Matrix W}
    (earlier : Option (Matrix W)) (hlen : m.length = n) (root : Nat) :
    ∃ p, (∀ fuel, n ^ n < fuel → CBruteForceSolver.solve earlier fuel m root = some p) ∧
      (((∀ q, q.Perm (List.range n) → 0xFFFFFFFF ≤
            CBruteForceSolver.calculate_length (CBruteForceSolver.staticMatrix earlier m) q) ∧
          p = []) ∨
        (p.Perm (List.range n) ∧
          CBruteForceSolver.calculate_length (CBruteForceSolver.staticMatrix earlier m) p <
            0xFFFFFFFF ∧
          (∀ q, q.Perm (List.range n) →
            CBruteForceSolver.calculate_length (CBruteForceSolver.staticMatrix earlier m) p ≤
              CBruteForceSolver.calculate_length (CBruteForceSolver.staticMatrix earlier m) q) ∧
          (∀ q, q.Perm (List.range n) →
            CBruteForceSolver.calculate_length (CBruteForceSolver.staticMatrix earlier m) q =
              CBruteForceSolver.calculate_length (CBruteForceSolver.staticMatrix earlier m) p →
            p = q ∨ List.Lex (fun a b => a < b) p q))) := by
  obtain ⟨p, hp, hcase⟩ := bruteLoop_spec (CBruteForceSolver.staticMatrix earlier m) n
    (n ^ n + 1) (List.range n) 0xFFFFFFFF [] (List.Perm.refl _) (by omega)
  have hmin : ∀ q, q.Perm (List.range n) →
      digitsValue n (List.range n) ≤ digitsValue n q := fun q hq =>
    digitsValue_ge_of_asc n (List.range n) q (List.pairwise_le_range n) hq
      (fun d hd => List.mem_range.mp hd)
  refine ⟨p, ?_, ?_⟩
  · intro fuel hfuel
    obtain ⟨k, rfl⟩ : ∃ k, fuel = n ^ n + 1 + k := ⟨fuel - (n ^ n + 1), by omega⟩
    unfold CBruteForceSolver.solve
    rw [hlen]
    exact bruteLoop_mono _ _ k _ _ _ _ hp
  · rcases hcase with ⟨hall, rfl⟩ | ⟨h1, _, h3, h4, h5⟩
    · exact Or.inl ⟨fun q hq => hall q hq (hmin q hq), rfl⟩
    · refine Or.inr ⟨h1, h3, fun q hq => h4 q hq (hmin q hq), ?_⟩
      intro q hq hcq
      have hle := h5 q hq (hmin q hq) hcq
      have hdp : ∀ d ∈ p, d < n := fun d hd => List.mem_range.mp (h1.subset hd)
      have hdq : ∀ d ∈ q, d < n := fun d hd => List.mem_range.mp (hq.subset hd)
      have hlen2 : p.length = q.length := h1.length_eq.trans hq.length_eq.symm
      rcases Nat.lt_or_eq_of_le hle with h6 | h6
      · exact Or.inr (lex_of_digitsValue_lt n p q hlen2 hdp hdq h6)
      · exact Or.inl (digitsValue_inj n p q hlen2 hdp hdq h6)

theorem calculate_length_foldl [LinearOrderedSemiring W] [FloorSemiring W] {n : Nat}
    {m : Matrix W} (hint : ∀ a, a < n → ∀ b, b < n → ∃ k : Nat, entry m a b = (k : W)) :
    ∀ (l : List Nat) (acc : Nat), (∀ d ∈ l, d < n) →
      (acc : W) + pathCost m l < ((SIZE_MOD : Nat) : W) →
      (((List.range (l.length - 1)).foldl
        (fun length i => toSizeT ((length : W) + entry m (l.getD i 0) (l.getD (i + 1) 0)))
        acc : Nat) : W) = (acc : W) + pathCost m l := by
  have hnn : ∀ a, a < n → ∀ b, b < n → 0 ≤ entry m a b := by
    intro a ha b hb
    obtain ⟨k, hk⟩ := hint a ha b hb
    rw [hk]
    exact Nat.cast_nonneg k
  intro l
  induction l with
  | nil => intro acc _ _; simp [pathCost]
  | cons x t ih =>
    intro acc hl hfit
    cases t with
    | nil => simp [pathCost]
    | cons y rest =>
      have hx : x < n := hl x (List.mem_cons_self _ _)
      have hy : y < n := hl y (List.mem_cons_of_mem _ (List.mem_cons_self _ _))
      have hrest : ∀ d ∈ y :: rest, d < n := fun d hd => hl d (List.mem_cons_of_mem _ hd)
      obtain ⟨k, hk⟩ := hint x hx y hy
      rw [pathCost, hk, ← add_assoc, ← Nat.cast_add] at hfit
      have hstep : ((acc + k : Nat) : W) < ((SIZE_MOD : Nat) : W) :=
        lt_of_le_of_lt (le_add_of_nonneg_right (pathCost_nonneg hnn _ hrest)) hfit
      have ht := ih (acc + k) hrest hfit
      simp only [List.length_cons, Nat.add_sub_cancel, List.getD_cons_succ] at ht ⊢
      rw [List.range_succ_eq_map, List.foldl_cons, List.foldl_map]
      simp only [List.getD_cons_zero, List.getD_cons_succ, Nat.succ_eq_add_one]
      rw [hk, ← Nat.cast_add, toSizeT_of_lt hstep, Nat.floor_natCast]
      rw [ht, pathCost, hk, Nat.cast_add, add_assoc]

/-- For a matrix of non-negative integers the sum that `calculate_length` keeps in a
`size_t` is the cost of the path, when that cost fits `size_t`. -/
theorem calculate_length_cast [LinearOrderedSemiring W] [FloorSemiring W] {n : Nat}
    {m : Matrix W} (hint : ∀ a, a < n → ∀ b, b < n → ∃ k : Nat, entry m a b = (k : W))
    (l : List Nat) (hl : ∀ d ∈ l, d < n) (hfit : pathCost m l < ((SIZE_MOD : Nat) : W)) :
    ((CBruteForceSolver.calculate_length m l : Nat) : W) = pathCost m l := by
  have := calculate_length_foldl hint l 0 hl (by rw [Nat.cast_zero, zero_add]; exact hfit)
  rw [Nat.cast_zero, zero_add] at this
  exact this

theorem pathCost_le_of_entries {n : Nat} (m : Matrix Nat) (B : Nat)
    (h : ∀ a, a < n → ∀ b, b < n → entry m a b ≤ B) (q : List Nat)
    (hq : q.Perm (List.range n)) : pathCost m q ≤ (n - 1) * B := by
  have hlt : ∀ d ∈ q, d < n := fun d hd => List.mem_range.mp (hq.subset hd)
  have := pathCost_le_mul m B q (fun a ha b hb => h a (hlt a ha) b (hlt b hb))
  rw [hq.length_eq, List.length_range] at this
  simpa using this

/-- On a first call, for a matrix of non-negative integers on which every order of the
vertices costs less than `0xFFFFFFFF`, `CBruteForceSolver.solve` returns a rearrangement of
`0 .. n-1` of least cost. -/
theorem first_call_is_optimal [LinearOrderedSemiring W] [FloorSemiring W] {n : Nat}
    {m : Matrix W} (hsq : IsSquare n m)
    (hint : ∀ a, a < n → ∀ b, b < n → ∃ k : Nat, entry m a b = (k : W))
    (hcost : ∀ q, q.Perm (List.range n) → pathCost m q < 0xFFFFFFFF) (root : Nat) :
    ∃ p, (∀ fuel, n ^ n < fuel → CBruteForceSolver.solve none fuel m root = some p) ∧
      p.Perm (List.range n) ∧ ∀ q, q.Perm (List.range n) → pathCost m p ≤ pathCost m q := by
  have hdig : ∀ q : List Nat, q.Perm (List.range n) → ∀ d ∈ q, d < n :=
    fun q hq d hd => List.mem_range.mp (hq.subset hd)
  have hlit : ((0xFFFFFFFF : Nat) : W) = 0xFFFFFFFF := Nat.cast_ofNat
  have hfit : ∀ q, q.Perm (List.range n) → pathCost m q < ((SIZE_MOD : Nat) : W) := by
    intro q hq
    refine lt_trans (hcost q hq) ?_
    rw [← hlit]
    exact Nat.cast_lt.mpr (by decide)
  obtain ⟨p, hrun, hcase⟩ := bruteSolve_spec none hsq.1 root
  simp only [CBruteForceSolver.staticMatrix, Option.getD_none] at hcase
  refine ⟨p, hrun, ?_⟩
  rcases hcase with ⟨hall, _⟩ | ⟨h1, _, h3, _⟩
  · exfalso
    have h1 := hall (List.range n) (List.Perm.refl _)
    have h2 := hcost (List.range n) (List.Perm.refl _)
    rw [← calculate_length_cast hint _ (hdig _ (List.Perm.refl _))
      (hfit _ (List.Perm.refl _)), ← hlit, Nat.cast_lt] at h2
    omega
  · refine ⟨h1, ?_⟩
    intro q hq
    rw [← calculate_length_cast hint p (hdig p h1) (hfit p h1),
      ← calculate_length_cast hint q (hdig q hq) (hfit q hq), Nat.cast_le]
    exact h3 q hq

/-- On a first call, for a matrix of non-negative integers on which every order of the
vertices has a cost that fits `size_t`, `CBruteForceSolver.solve` returns the empty sequence
exactly when every rearrangement of `0 .. n-1` costs at least `0xFFFFFFFF`, and otherwise the
rearrangement of least cost that comes first in lexicographic order. -/
theorem first_call_result [LinearOrderedSemiring W] [FloorSemiring W] {n : Nat}
    {m : Matrix W} (hsq : IsSquare n m) (hn : 1 ≤ n)
    (hint : ∀ a, a < n → ∀ b, b < n → ∃ k : Nat, entry m a b = (k : W))
    (hfit : ∀ q, q.Perm (List.range n) → pathCost m q < ((SIZE_MOD : Nat) : W))
    (root : Nat) :
    ∃ p, (∀ fuel, n ^ n < fuel → CBruteForceSolver.solve none fuel m root = some p) ∧
      (p = [] ↔ ∀ q, q.Perm (List.range n) → (0xFFFFFFFF : W) ≤ pathCost m q) ∧
      (p ≠ [] → p.Perm (List.range n) ∧
        (∀ q, q.Perm (List.range n) → pathCost m p ≤ pathCost m q) ∧
        ∀ q, q.Perm (List.range n) → pathCost m q = pathCost m p →
          p = q ∨ List.Lex (fun a b => a < b) p q) := by
  have hdig : ∀ q : List Nat, q.Perm (List.range n) → ∀ d ∈ q, d < n :=
    fun q hq d hd => List.mem_range.mp (hq.subset hd)
  have hlit : ((0xFFFFFFFF : Nat) : W) = 0xFFFFFFFF := Nat.cast_ofNat
  have hne : ∀ q : List Nat, q.Perm (List.range n) → q ≠ [] := by
    intro q hq h
    have := hq.length_eq
    rw [h, List.length_range] at this
    simp only [List.length_nil] at this
    omega
  obtain ⟨p, hrun, hcase⟩ := bruteSolve_spec none hsq.1 root
  simp only [CBruteForceSolver.staticMatrix, Option.getD_none] at hcase
  refine ⟨p, hrun, ?_⟩
  rcases hcase with ⟨hall, rfl⟩ | ⟨h1, h2, h3, h4⟩
  · refine ⟨⟨fun _ => ?_, fun _ => rfl⟩, fun h => absurd rfl h⟩
    intro q hq
    rw [← calculate_length_cast hint q (hdig q hq) (hfit q hq), ← hlit, Nat.cast_le]
    exact hall q hq
  · refine ⟨⟨fun h => absurd h (hne p h1), fun h => ?_⟩, fun _ => ⟨h1, ?_, ?_⟩⟩
    · exfalso
      have h5 := h p h1
      rw [← calculate_length_cast hint p (hdig p h1) (hfit p h1), ← hlit, Nat.cast_le] at h5
      omega
    · intro q hq
      rw [← calculate_length_cast hint p (hdig p h1) (hfit p h1),
        ← calculate_length_cast hint q (hdig q hq) (hfit q hq), Nat.cast_le]
      exact h3 q hq
    · intro q hq hcq
      rw [← calculate_length_cast hint p (hdig p h1) (hfit p h1),
        ← calculate_length_cast hint q (hdig q hq) (hfit q hq), Nat.cast_inj] at hcq
      exact h4 q hq hcq

/-- C13 fails on the code: after a first call on `ordered3`, whose matrix the lambda keeps,
the call on `swapped3` returns `[0, 1, 2]`, the cheapest order of `ordered3`; on `swapped3`
it costs `5`, and the order `[0, 2, 1]` costs `3`. -/
theorem later_call_is_not_optimal :
    CBruteForceSolver.solve none 10 ordered3 0 = some [0, 1, 2] ∧
    CBruteForceSolver.staticMatrix none ordered3 = ordered3 ∧
    CBruteForceSolver.solve (some ordered3) 10 swapped3 0 = some [0, 1, 2] ∧
    pathCost swapped3 [0, 1, 2] = 5 ∧ [0, 2, 1].Perm (List.range 3) ∧
    pathCost swapped3 [0, 2, 1] = 3 :=
  ⟨by decide, rfl, by decide, by decide, by decide, by decide⟩

/-- C19 fails on the code: after a first call on `far3`, on which every order costs at
least `0xFFFFFFFF`, the call on the three points on a line returns the empty sequence,
although the order `[0, 1, 2]` costs `3` there. -/
theorem later_call_is_empty :
    CBruteForceSolver.solve none 10 far3 0 = some [] ∧
    CBruteForceSolver.staticMatrix none far3 = far3 ∧
    CBruteForceSolver.solve (some far3) 10 line3 0 = some [] ∧
    [0, 1, 2].Perm (List.range 3) ∧ pathCost line3 [0, 1, 2] = 3 :=
  ⟨by decide, rfl, by decide, by decide, by decide⟩

theorem entry_castMatrix [LinearOrderedSemiring W] (m : Matrix Nat) (a b : Nat) :
    entry (castMatrix m : Matrix W) a b = ((entry m a b : Nat) : W) := by
  unfold entry castMatrix
  simp only [List.getD_eq_getElem?_getD, List.getElem?_map]
  cases h1 : m[a]? with
  | none => simp
  | some row =>
    simp only [Option.map_some', Option.getD_some, List.getElem?_map]
    cases h2 : row[b]? with
    | none => simp
    | some x => simp

theorem floorMatrix_castMatrix [LinearOrderedSemiring W] [FloorSemiring W] (m : Matrix Nat) :
    floorMatrix (castMatrix m : Matrix W) = m := by
  unfold floorMatrix castMatrix
  simp only [List.map_map]
  have h : ((fun row : List W => row.map Nat.floor) ∘ fun row : List Nat => row.map Nat.cast) =
      id := by
    funext row
    simp only [Function.comp_apply, List.map_map, id_eq]
    have h2 : ((Nat.floor : W → Nat) ∘ (Nat.cast : Nat → W)) = id := by
      funext k
      simp
    rw [h2, List.map_id]
  rw [h, List.map_id]

/-- After a call on `otherSquare`, whose matrix the lambda keeps, the brute-force search on
the unit square ranks the orders by `otherSquare` and returns `[2, 0, 1, 3]`. -/
theorem unitSquare_after_other [LinearOrderedSemiring W] [FloorSemiring W] (d : W)
    (fuel : Nat) (hfuel : 23 < fuel) (root : Nat) :
    CBruteForceSolver.solve (some (castMatrix otherSquare)) fuel (unitSquare d) root =
      some [2, 0, 1, 3] := by
  unfold CBruteForceSolver.solve CBruteForceSolver.staticMatrix
  simp only [Option.getD_some]
  rw [bruteLoop_floor _ (fun a b => by rw [entry_castMatrix]; exact Nat.cast_nonneg _),
    floorMatrix_castMatrix]
  obtain ⟨k, rfl⟩ : ∃ k, fuel = 24 + k := ⟨fuel - 24, by omega⟩
  have hlen : (unitSquare d).length = 4 := rfl
  rw [hlen]
  exact bruteLoop_mono _ 24 k _ _ _ _ (by decide)

/-- C9 fails on the code: when `CBruteForceSolver.solve` has been called before on another
matrix of four vertices (`otherSquare`), which its lambda keeps, its call on the unit square
with the diagonal `√2` returns `[2, 0, 1, 3]`; as a tour this order runs along both
diagonals and costs `2 + 2 * √2`, not `4`. -/
theorem unit_square_after_other_matrix :
    CBruteForceSolver.staticMatrix none (castMatrix otherSquare : Matrix Real) =
      castMatrix otherSquare ∧
    (∀ fuel, 23 < fuel →
      CBruteForceSolver.solve (some (castMatrix otherSquare)) fuel
        (unitSquare (Real.sqrt 2)) 0 = some [2, 0, 1, 3]) ∧
    tourCost (unitSquare (Real.sqrt 2)) [2, 0, 1, 3] = 2 + 2 * Real.sqrt 2 ∧
    tourCost (unitSquare (Real.sqrt 2)) [2, 0, 1, 3] ≠ 4 := by
  have hcost : tourCost (unitSquare (Real.sqrt 2)) [2, 0, 1, 3] = 2 + 2 * Real.sqrt 2 := by
    simp only [tourCost, pathCost, entry, unitSquare]
    norm_num
    ring
  refine ⟨rfl, fun fuel hf => unitSquare_after_other _ fuel hf 0, hcost, ?_⟩
  rw [hcost]
  have := one_lt_sqrt_two
  intro h
  linarith

/-- When some order of the vertices is so cheap that `1.5` times its cost is below the cost
of a path `pc`, then `1.5` times the cost of the path of a first call of the brute-force
search is below the cost of `pc` too. -/
theorem bound_fails_of_cheap_order {n : Nat} {m : Matrix Nat} (hsq : IsSquare n m) (E : Nat)
    (hE : ∀ a, a < n → ∀ b, b < n → entry m a b ≤ E) (hsmall : (n - 1) * E < 0xFFFFFFFF)
    (pc q : List Nat) (hq : q.Perm (List.range n))
    (hpc : 3 * pathCost m q < 2 * pathCost m pc) :
    ∃ pb, (∀ fuel, n ^ n < fuel → CBruteForceSolver.solve none fuel m 0 = some pb) ∧
      ¬ (2 * pathCost m pc ≤ 3 * pathCost m pb) := by
  obtain ⟨pb, hrun, _, hopt⟩ := first_call_is_optimal hsq
    (fun a _ b _ => ⟨entry m a b, rfl⟩)
    (fun q1 hq1 => lt_of_le_of_lt (pathCost_le_of_entries m E hE q1 hq1) hsmall) 0
  refine ⟨pb, hrun, ?_⟩
  have := hopt q hq
  omega

set_option maxRecDepth 100000 in
/-- The bound of `1.5` fails for every number of vertices from `4` to `8`: for the points
`0, 1, .., n-1` on a line (a distance matrix that respects the triangle inequality) the path
of `CChristofidesSolver.solve` is `0, n-1, n-2, .., 1`, of cost `2 * n - 3`, and the path of
a first call of `CBruteForceSolver.solve` costs at most `n - 1`. -/
theorem cost_bound_fails_up_to_eight :
    ∀ n, 4 ≤ n → n ≤ 8 →
      IsDistanceMatrix n (lineOf (List.range n)) ∧
      (∀ a, a < n → ∀ b, b < n → ∀ c, c < n →
        entry (lineOf (List.range n)) a c ≤
          entry (lineOf (List.range n)) a b + entry (lineOf (List.range n)) b c) ∧
      ∃ pc pb, CChristofidesSolver.solve 100 (lineOf (List.range n)) 0 = some pc ∧
        (∀ fuel, n ^ n < fuel →
          CBruteForceSolver.solve none fuel (lineOf (List.range n)) 0 = some pb) ∧
        ¬ (2 * pathCost (lineOf (List.range n)) pc ≤
          3 * pathCost (lineOf (List.range n)) pb) := by
  intro n h4 h8
  have hsq : ∀ k, k ≤ 8 → IsSquare k (lineOf (List.range k)) := by
    intro k hk
    unfold IsSquare
    interval_cases k <;> decide
  have hE : ∀ a, a < n → ∀ b, b < n → entry (lineOf (List.range n)) a b ≤ 8 := by
    interval_cases n <;> decide
  have hdm : IsDistanceMatrix n (lineOf (List.range n)) := by
    refine ⟨hsq n h8, ?_, ?_, ?_⟩
    · interval_cases n <;> decide
    · interval_cases n <;> decide
    · interval_cases n <;> decide
  have htri : ∀ a, a < n → ∀ b, b < n → ∀ c, c < n →
      entry (lineOf (List.range n)) a c ≤
        entry (lineOf (List.range n)) a b + entry (lineOf (List.range n)) b c := by
    interval_cases n <;> decide
  have hrun : ∃ pc, CChristofidesSolver.solve 100 (lineOf (List.range n)) 0 = some pc ∧
      3 * pathCost (lineOf (List.range n)) (List.range n) <
        2 * pathCost (lineOf (List.range n)) pc := by
    interval_cases n
    · exact ⟨[0, 3, 2, 1], by decide, by decide⟩
    · exact ⟨[0, 4, 3, 2, 1], by decide, by decide⟩
    · exact ⟨[0, 5, 4, 3, 2, 1], by decide, by decide⟩
    · exact ⟨[0, 6, 5, 4, 3, 2, 1], by decide, by decide⟩
    · exact ⟨[0, 7, 6, 5, 4, 3, 2, 1], by decide, by decide⟩
  obtain ⟨pc, hpc, hratio⟩ := hrun
  obtain ⟨pb, hpb, hfail⟩ := bound_fails_of_cheap_order (hsq n h8) 8 hE
    (by
      have : (n - 1) * 8 ≤ 7 * 8 := Nat.mul_le_mul_right 8 (by omega)
      omega)
    pc (List.range n) (List.Perm.refl _) hratio
  exact ⟨hdm, htri, pc, pb, hpc, hpb, hfail⟩

end Theorems

end TSP
